import Mathlib

/-
  Verification of the rlox bytecode compiler and virtual machine.

  This file contains a shallow embedding, in Lean 4, of the Rust sources of
  the rlox interpreter (scanner.rs, hash_map.rs, hasher.rs, chunk.rs,
  value.rs, common.rs, compiler.rs, vm.rs, memory.rs), together with theorems
  settling a list of claims about the program.

  Modelling conventions:
  * Machine integers are modelled as `Nat`/`Int` with explicit reductions
    modulo 2^w where the Rust code can overflow or truncate (`as u8`,
    `as u16`, `wrapping_mul`).
  * Lox numbers are `f64` in the source; they are modelled as `Int` here.
    Every number literal and every arithmetic result reached in the theorems
    of this file is a small integer, on which IEEE-754 double arithmetic is
    exact, so the embedding is faithful on all evaluated inputs.
  * Raw pointers are modelled as indices into an explicit heap
    (`Heap := List (List Char)`); `memory::allocate` returns a fresh index,
    `memory::eq` compares indices, `memory::read_string` reads the cell.
  * Fallible operations return `Res α`: `Res.panic` models a Rust panic
    (index out of bounds, `Option::unwrap` on `None`, usize underflow), and
    `Res.hang` models non-termination of an unbounded Rust `loop`.
    Loops take an explicit fuel argument; exhausting fuel yields `Res.hang`.
-/

set_option maxRecDepth 10000

namespace RLox

/-- Result of running a piece of the embedded program: a value, a Rust panic,
or divergence (an unbounded loop that never exits / fuel exhaustion). -/
inductive Res (α : Type) where
  | ok (a : α)
  | panic
  | hang
deriving DecidableEq, Repr

namespace Res

def bind {α β : Type} : Res α → (α → Res β) → Res β
  | ok a, f => f a
  | panic, _ => panic
  | hang, _ => hang

instance : Monad Res where
  pure := Res.ok
  bind := Res.bind

/-- Lift an `Option` where `none` models divergence of an unbounded loop. -/
def ofLoop {α : Type} : Option α → Res α
  | some a => ok a
  | none => hang

/-- Lift an `Option` where `none` models a panic (`unwrap`, index error). -/
def ofUnwrap {α : Type} : Option α → Res α
  | some a => ok a
  | none => panic

end Res

/-- Checked subtraction on `usize`: Rust panics on underflow (debug build). -/
def subChecked (a b : Nat) : Res Nat :=
  if b ≤ a then Res.ok (a - b) else Res.panic

/-- Checked write `v[i] = x` into a Rust `Vec`: panics when out of bounds. -/
def vecSet {α : Type} (v : List α) (i : Nat) (x : α) : Res (List α) :=
  if i < v.length then Res.ok (v.set i x) else Res.panic

/-- Checked read `v[i]` from a Rust `Vec` or slice: panics out of bounds. -/
def vecGet {α : Type} (v : List α) (i : Nat) : Res α :=
  Res.ofUnwrap (v.get? i)

/-- Reduction modulo 2^32, for `u32` arithmetic. -/
def u32 (n : Nat) : Nat := n % 4294967296

/-- hasher.rs `hash`: 32-bit FNV-1a over the characters of the string.
The Rust code iterates over `0..value.len()` (the byte length) indexing a
`Vec<char>`; byte length and character count agree on the ASCII strings this
interpreter is exercised with, so the fold over the characters is faithful. -/
def fnvHash (s : List Char) : Nat :=
  s.foldl (fun h c => u32 ((h ^^^ c.toNat) * 16777619)) 2166136261

/-- common.rs `FatPointer`: raw pointer (heap index), byte length, and
precomputed FNV-1a hash of the payload. -/
structure FatPointer where
  ptr : Nat
  size : Nat
  hash : Nat
deriving DecidableEq, Repr

/-- `impl PartialEq` is derived for `FatPointer`: all three fields compare. -/
def fatPtrEq (a b : FatPointer) : Bool :=
  a.ptr == b.ptr && a.size == b.size && a.hash == b.hash

/-- The heap: `memory::allocate` appends a cell, pointers are cell indices. -/
abbrev Heap := List (List Char)

/-- memory.rs `read_string(ptr, len)`: read `len` bytes from the cell. -/
def readString (heap : Heap) (ptr len : Nat) : List Char :=
  (heap.getD ptr []).take len

/-- memory.rs `allocate` followed by `copy`: a fresh cell holding `content`;
returns the new pointer and heap. -/
def heapAlloc (heap : Heap) (content : List Char) : Nat × Heap :=
  (heap.length, heap ++ [content])

/-! ### hash_map.rs: the open-addressed intern / globals table -/

/-- hash_map.rs `Entry<T>`. -/
inductive Entry (T : Type) where
  | Occupied (key : FatPointer) (value : T)
  | Vacant
  | TombStone
deriving DecidableEq, Repr

/-- hash_map.rs `Table<T>`. -/
structure Table (T : Type) where
  entries : List (Entry T)
  capacity : Nat
  size : Nat
  load_factor : Nat
deriving DecidableEq, Repr

namespace Table

/-- hash_map.rs `Table::init(capacity)`. -/
def init {T : Type} (capacity : Nat) : Table T :=
  { entries := List.replicate capacity Entry.Vacant
    capacity := capacity
    size := 0
    load_factor := 70 }

/-- hash_map.rs `is_occupied(bucket, key, entries)`: `true` means the probe
must continue.  An occupied slot stops the probe only when `memory::eq`
holds of the two raw pointers (pointer identity, not payload equality). -/
def isOccupied {T : Type} (entries : List (Entry T)) (bucket : Nat)
    (key : FatPointer) : Bool :=
  match entries.getD bucket Entry.Vacant with
  | Entry.Occupied existing _ => !(existing.ptr == key.ptr)
  | _ => false

/-- hash_map.rs `find_bucket(key, entries)`: probe linearly from
`key.hash % capacity`.  The probe sequence visits only the residues modulo
`capacity`, repeating with period `capacity`; the Rust `while` loop therefore
terminates exactly when one of the first `capacity` probes fails
`is_occupied`, and loops forever otherwise (modelled as `none`). -/
def findBucket {T : Type} (capacity : Nat) (key : FatPointer)
    (entries : List (Entry T)) : Option Nat :=
  ((List.range capacity).find? fun k =>
      !(isOccupied entries ((key.hash % capacity + k) % capacity) key)).map
    (fun k => (key.hash % capacity + k) % capacity)

/-- Number of `Occupied` entries. -/
def countOccupied {T : Type} (entries : List (Entry T)) : Nat :=
  entries.countP fun e => match e with
    | Entry.Occupied _ _ => true
    | _ => false

/-- One step of the rehash loop inside `ensure_capacity`: re-insert an
occupied entry into the fresh entry array. -/
def rehashStep {T : Type} (capacity : Nat)
    (acc : Option (List (Entry T) × Nat)) (e : Entry T) :
    Option (List (Entry T) × Nat) :=
  match acc, e with
  | some (entries, size), Entry.Occupied k v =>
      match findBucket capacity k entries with
      | some bucket => some (entries.set bucket (Entry.Occupied k v), size + 1)
      | none => none
  | some st, _ => some st
  | none, _ => none

/-- hash_map.rs `ensure_capacity`: grow when
`((size + 1) / capacity) * 100 > load_factor` (integer division), to capacity
`2 * capacity + 1`, re-inserting every occupied entry and recounting `size`.
`none` models divergence of a rehash probe. -/
def ensureCapacity {T : Type} (t : Table T) : Option (Table T) :=
  if (t.size + 1) / t.capacity * 100 > t.load_factor then
    let newCap := t.capacity * 2 + 1
    (t.entries.foldl (rehashStep newCap)
        (some (List.replicate newCap Entry.Vacant, 0))).map
      fun st =>
        { entries := st.1, capacity := newCap, size := st.2
          load_factor := t.load_factor }
  else some t

/-- hash_map.rs `insert(key, value) -> bool`: ensure capacity, probe, store,
and increment `size` unconditionally.  The returned flag is
`matches!(entries[bucket], Occupied(..))` *before* the store, i.e. whether
the probe stopped on an already-occupied slot. -/
def insert {T : Type} (t : Table T) (key : FatPointer) (value : T) :
    Option (Bool × Table T) := do
  let t ← ensureCapacity t
  let bucket ← findBucket t.capacity key t.entries
  let newValue :=
    match t.entries.getD bucket Entry.Vacant with
    | Entry.Occupied _ _ => true
    | _ => false
  some (newValue,
    { t with entries := t.entries.set bucket (Entry.Occupied key value)
             size := t.size + 1 })

/-- hash_map.rs `delete(key)`: probe with `find_bucket`; when the slot holds
a value replace it by a tombstone.  `size` is never decremented. -/
def delete {T : Type} (t : Table T) (key : FatPointer) :
    Option (Option T × Table T) := do
  let bucket ← findBucket t.capacity key t.entries
  match t.entries.getD bucket Entry.Vacant with
  | Entry.Occupied _ v =>
      some (some v, { t with entries := t.entries.set bucket Entry.TombStone })
  | _ => some (none, t)

/-- hash_map.rs `find_entry_index` (inner loop).  The probe repeats with
period `capacity`, so `capacity` probes decide termination; the outer `none`
models the loop running forever, the inner result is the Rust return value. -/
def findEntryIndexAux {T : Type} (capacity : Nat) (key : FatPointer)
    (entries : List (Entry T)) : Nat → Nat → Option (Option Nat)
  | 0, _ => none
  | fuel + 1, bucket =>
      match entries.get? bucket with
      | some (Entry.Occupied existing _) =>
          if fatPtrEq existing key then some (some bucket)
          else findEntryIndexAux capacity key entries fuel ((bucket + 1) % capacity)
      | some Entry.Vacant => some none
      | some Entry.TombStone =>
          findEntryIndexAux capacity key entries fuel ((bucket + 1) % capacity)
      | none => some none

/-- hash_map.rs `find_entry_index(key)`: linear probe from
`key.hash % capacity`, skipping tombstones and keys that differ under
`FatPointer::eq` (all three fields), stopping with the index on a full key
match and with `None` on a `Vacant` slot. -/
def findEntryIndex {T : Type} (capacity : Nat) (key : FatPointer)
    (entries : List (Entry T)) : Option (Option Nat) :=
  findEntryIndexAux capacity key entries capacity (key.hash % capacity)

/-- hash_map.rs `get(key)`: `find_entry(&key).unwrap()` panics when the probe
reaches a `Vacant` slot (the `Option` is `None`); otherwise the found entry
is occupied and its value is returned. -/
def get {T : Type} (t : Table T) (key : FatPointer) : Res (Option T) :=
  match findEntryIndex t.capacity key t.entries with
  | none => Res.hang
  | some none => Res.panic
  | some (some i) =>
      match t.entries.getD i Entry.Vacant with
      | Entry.Occupied _ v => Res.ok (some v)
      | _ => Res.ok none

/-- hash_map.rs `find_entry_with_value` (inner loop), probing by payload
equality (`memory::read_string(existing.ptr, existing.size) == str_value`),
skipping tombstones, stopping with `None` at a `Vacant` slot. -/
def findEntryWithValueAux {T : Type} (heap : Heap) (capacity : Nat)
    (strValue : List Char) (entries : List (Entry T)) :
    Nat → Nat → Option (Option FatPointer)
  | 0, _ => none
  | fuel + 1, bucket =>
      match entries.getD bucket Entry.Vacant with
      | Entry.Occupied existing _ =>
          if readString heap existing.ptr existing.size = strValue then
            some (some existing)
          else
            findEntryWithValueAux heap capacity strValue entries fuel
              ((bucket + 1) % capacity)
      | Entry.Vacant => some none
      | Entry.TombStone =>
          findEntryWithValueAux heap capacity strValue entries fuel
            ((bucket + 1) % capacity)

/-- hash_map.rs `find_entry_with_value(str_value, hash)`. -/
def findEntryWithValue {T : Type} (heap : Heap) (t : Table T)
    (strValue : List Char) (hashValue : Nat) : Option (Option FatPointer) :=
  findEntryWithValueAux heap t.capacity strValue t.entries t.capacity
    (hashValue % t.capacity)

end Table

/-! ### common.rs: opcodes, values, objects, functions; chunk.rs: chunks -/

/-- common.rs `OpCode`, with the discriminants assigned in the source. -/
inductive OpCode where
  | Return | Constant | ConstantLong | Negate | Add | Subtract | Multiply
  | Divide | Nil | True | False | Not | Equal | Greater | Less | Print
  | Pop | DefineGlobalVariable | SetGlobalVariable | GetGlobalVariable
  | SetLocalVariable | GetLocalVariable | JumpIfFalse | Jump | Loop
  | Call | Closure | SetUpValue | GetUpValue
deriving DecidableEq, Repr

/-- The `u8` value of each opcode (`OpCode::Return = 1`, ..., in source order). -/
def OpCode.toByte : OpCode → Nat
  | .Return => 1 | .Constant => 2 | .ConstantLong => 3 | .Negate => 4
  | .Add => 5 | .Subtract => 6 | .Multiply => 7 | .Divide => 8
  | .Nil => 9 | .True => 10 | .False => 11 | .Not => 12 | .Equal => 13
  | .Greater => 14 | .Less => 15 | .Print => 16 | .Pop => 17
  | .DefineGlobalVariable => 18 | .SetGlobalVariable => 19
  | .GetGlobalVariable => 20 | .SetLocalVariable => 21
  | .GetLocalVariable => 22 | .JumpIfFalse => 23 | .Jump => 24
  | .Loop => 25 | .Call => 26 | .Closure => 27 | .SetUpValue => 28
  | .GetUpValue => 29

/-- `num::FromPrimitive::from_u8` for `OpCode`: inverse of the discriminant
assignment, `none` for every byte outside `1..=29` (in particular `0`). -/
def OpCode.ofByte : Nat → Option OpCode
  | 1 => some .Return | 2 => some .Constant | 3 => some .ConstantLong
  | 4 => some .Negate | 5 => some .Add | 6 => some .Subtract
  | 7 => some .Multiply | 8 => some .Divide | 9 => some .Nil
  | 10 => some .True | 11 => some .False | 12 => some .Not
  | 13 => some .Equal | 14 => some .Greater | 15 => some .Less
  | 16 => some .Print | 17 => some .Pop | 18 => some .DefineGlobalVariable
  | 19 => some .SetGlobalVariable | 20 => some .GetGlobalVariable
  | 21 => some .SetLocalVariable | 22 => some .GetLocalVariable
  | 23 => some .JumpIfFalse | 24 => some .Jump | 25 => some .Loop
  | 26 => some .Call | 27 => some .Closure | 28 => some .SetUpValue
  | 29 => some .GetUpValue
  | _ => none

/-- common.rs `FunctionType`. -/
inductive FunctionType where
  | Function | Script | Closure
deriving DecidableEq, Repr

mutual

/-- common.rs `Value`: tagged sum of runtime values.  `Value::Number(f64)` is
modelled as an `Int` (see the header note on floating point). -/
inductive Value where
  | Boolean (b : Bool)
  | Number (n : Int)
  | VObj (o : Obj)
  | Missing

/-- common.rs `Obj`: string / function / closure objects (`Obj::Nil` is the
marker variant, written `ONil` here). -/
inductive Obj where
  | Str (p : FatPointer)
  | Fun (f : LFunction)
  | Closure (o : Obj)
  | ONil

/-- common.rs `Function` (named `LFunction` to avoid clashing with Mathlib):
arity, bytecode chunk, optional interned name, function kind. -/
inductive LFunction where
  | mk (arity : Nat) (chunk : Chunk) (name : Option FatPointer)
       (funcType : FunctionType)

/-- chunk.rs `Chunk`: bytecode, constant pool (value.rs `ValueArray.values`),
and per-byte line table. -/
inductive Chunk where
  | mk (code : List Nat) (constants : List Value) (lines : List Nat)

end

def LFunction.arity : LFunction → Nat
  | .mk a _ _ _ => a

def LFunction.chunk : LFunction → Chunk
  | .mk _ c _ _ => c

def LFunction.name : LFunction → Option FatPointer
  | .mk _ _ n _ => n

def LFunction.funcType : LFunction → FunctionType
  | .mk _ _ _ t => t

/-- common.rs `Function::new_function(fun_type)`. -/
def LFunction.newFunction (funType : FunctionType) : LFunction :=
  .mk 0 (.mk [] [] []) none funType

def Chunk.code : Chunk → List Nat
  | .mk c _ _ => c

def Chunk.constants : Chunk → List Value
  | .mk _ k _ => k

def Chunk.lines : Chunk → List Nat
  | .mk _ _ l => l

/-- common.rs `impl PartialEq for Obj`: only `Str` compares (by the derived
`FatPointer` equality: pointer, size and hash); every other pair — including
`Fun` with `Fun` — is `false`. -/
def objEq : Obj → Obj → Bool
  | .Str l, .Str r => fatPtrEq l r
  | _, _ => false

/-- common.rs `impl PartialEq for Value`: same tag and contents; objects via
`objEq` (the `matches!(self, _other)` guard always holds: `_other` binds). -/
def valueEq : Value → Value → Bool
  | .Boolean l, .Boolean r => l == r
  | .Number l, .Number r => l == r
  | .Missing, .Missing => true
  | .VObj l, .VObj r => objEq l r
  | _, _ => false

def Value.isBoolean : Value → Bool
  | .Boolean _ => true
  | _ => false

def Value.isMissing : Value → Bool
  | .Missing => true
  | _ => false

def Value.isNumber : Value → Bool
  | .Number _ => true
  | _ => false

def Value.isObj : Value → Bool
  | .VObj _ => true
  | _ => false

def Obj.isString : Obj → Bool
  | .Str _ => true
  | _ => false

def Value.isObjString : Value → Bool
  | .VObj o => o.isString
  | _ => false

/-- common.rs `Into<bool> for Value`: non-booleans convert to `false`. -/
def Value.intoBool : Value → Bool
  | .Boolean b => b
  | _ => false

/-- common.rs `Into<f64> for Value`: non-numbers convert to `0.0`. -/
def Value.intoF64 : Value → Int
  | .Number n => n
  | _ => 0

/-- common.rs `Into<Obj> for Value`: panics on non-objects. -/
def Value.intoObj : Value → Res Obj
  | .VObj o => Res.ok o
  | _ => Res.panic

/-- common.rs `Into<Function> for Obj`: panics on non-functions. -/
def Obj.intoFunction : Obj → Res LFunction
  | .Fun f => Res.ok f
  | _ => Res.panic

/-- common.rs `Into<FatPointer> for Obj`: a string yields its fat pointer;
any other object yields `"".to_string().as_mut_ptr()` with size and hash 0 —
a dangling pointer to an empty temporary, modelled as pointer 0.  No theorem
in this file evaluates the non-string arm. -/
def Obj.intoFatPointer : Obj → FatPointer
  | .Str p => p
  | _ => { ptr := 0, size := 0, hash := 0 }

/-- common.rs `Into<FatPointer> for Value`: via the object; panics otherwise. -/
def Value.intoFatPointer : Value → Res FatPointer
  | .VObj o => Res.ok o.intoFatPointer
  | _ => Res.panic

/-- common.rs `Obj::get_func_chunk`: panics unless the object is a function. -/
def Obj.getFuncChunk : Obj → Res Chunk
  | .Fun f => Res.ok f.chunk
  | _ => Res.panic

/-- Replace the chunk inside `Obj::Fun` (the result of mutating through
`get_func_chunk`); panics unless the object is a function. -/
def Obj.setFuncChunk : Obj → Chunk → Res Obj
  | .Fun (.mk a _ n t), c => Res.ok (.Fun (.mk a c n t))
  | _, _ => Res.panic

/-! ### chunk.rs operations -/

/-- `usize::to_ne_bytes` on the reference x86-64 platform: eight
little-endian bytes of `index mod 2^64`. -/
def le64Bytes (n : Nat) : List Nat :=
  (List.range 8).map fun i => n / 256 ^ i % 256

/-- Decode eight little-endian bytes (`usize::from_ne_bytes`). -/
def le64Decode (bytes : List Nat) : Nat :=
  (bytes.take 8).reverse.foldl (fun acc b => acc * 256 + b) 0

/-- chunk.rs `write_chunk(byte, line)`: append to code and line table. -/
def Chunk.writeChunk (c : Chunk) (byte line : Nat) : Chunk :=
  .mk (c.code ++ [byte]) c.constants (c.lines ++ [line])

/-- chunk.rs `add_constant(value)`: append to the pool and return
`constants.count()`, which value.rs defines as `values.len() - 1` — the index
of the value just appended. -/
def Chunk.addConstant (c : Chunk) (v : Value) : Nat × Chunk :=
  let c' : Chunk := .mk c.code (c.constants ++ [v]) c.lines
  ((c.constants ++ [v]).length - 1, c')

/-- chunk.rs `write_index(index, line)`: one byte when `index <= 255`,
otherwise the eight native-endian bytes of the index. -/
def Chunk.writeIndex (c : Chunk) (index line : Nat) : Chunk :=
  if index ≤ 255 then c.writeChunk index line
  else (le64Bytes index).foldl (fun ch b => ch.writeChunk b line) c

/-- chunk.rs `write_constant(value, line)`: add the constant, emit
`Constant` when its index fits one byte and `ConstantLong` otherwise, then
the operand via `write_index`. -/
def Chunk.writeConstant (c : Chunk) (v : Value) (line : Nat) : Nat × Chunk :=
  let p := c.addConstant v
  let index := p.1
  let c :=
    if index ≤ 255 then p.2.writeChunk OpCode.Constant.toByte line
    else p.2.writeChunk OpCode.ConstantLong.toByte line
  (index, c.writeIndex index line)

/-! ### scanner.rs -/

/-- scanner.rs `TokenType`. -/
inductive TokenType where
  | LeftParen | RightParen | LeftBrace | RightBrace | Comma | Dot | Minus
  | Plus | Semicolon | Slash | Star
  | Bang | BangEqual | Equal | EqualEqual | Greater | GreaterEqual
  | Less | LessEqual
  | Identifier | String | Number
  | And | Class | Else | False | For | Fun | If | Nil | Or | Print
  | Return | Super | This | True | Var | While
  | Error | Eof
deriving DecidableEq, Repr

/-- scanner.rs `Token`: kind plus byte offsets into the source. -/
structure Token where
  token_type : TokenType
  start : Nat
  length : Nat
  line : Nat
deriving DecidableEq, Repr

/-- scanner.rs `Scanner` state.  `total_size` is set by `refresh` to
`source.len()` (byte length, equal to the character count on the ASCII
sources considered here). -/
structure Scanner where
  start : Nat
  current : Nat
  line : Nat
  chars : List Char
  total_size : Nat
deriving DecidableEq, Repr

/-- scanner.rs free function `is_alpha`: alphabetic or underscore
(`char::is_alphabetic` restricted to the ASCII sources in scope). -/
def isAlphaCh (c : Char) : Bool :=
  c.isAlpha || c == '_'

namespace Scanner

/-- scanner.rs `Scanner::init(start, total_size, source)`. -/
def init (start total_size : Nat) (source : List Char) : Scanner :=
  { start := start, current := start, line := 1
    total_size := total_size, chars := source }

/-- scanner.rs `refresh(start, total_size, source)`. -/
def refresh (_s : Scanner) (start total_size : Nat) (source : List Char) :
    Scanner :=
  { chars := source, total_size := total_size, current := start
    line := 1, start := start }

/-- scanner.rs `is_at_end`: `current == total_size`. -/
def isAtEnd (s : Scanner) : Bool :=
  s.current == s.total_size

/-- scanner.rs `advance`: `current += 1`. -/
def advance (s : Scanner) : Scanner :=
  { s with current := s.current + 1 }

/-- scanner.rs `peek`: `'\0'` at end, else `chars[current]` (a panic when
`current` exceeds the buffer without equalling `total_size`). -/
def peek (s : Scanner) : Res Char :=
  if s.isAtEnd then Res.ok '\x00'
  else vecGet s.chars s.current

/-- scanner.rs `peek_next`: `'\0'` at end, else `chars[current + 1]` — an
out-of-bounds panic when `current + 1 = total_size = chars.len()`. -/
def peekNext (s : Scanner) : Res Char :=
  if s.isAtEnd then Res.ok '\x00'
  else vecGet s.chars (s.current + 1)

/-- scanner.rs `make_token(token_type)`. -/
def makeToken (s : Scanner) (tt : TokenType) : Token :=
  { token_type := tt, start := s.start
    length := s.current - s.start, line := s.line }

/-- scanner.rs `error_token(message)`: an `Error` token whose `length` is
the length of the message string. -/
def errorToken (s : Scanner) (message : List Char) : Token :=
  { token_type := TokenType.Error, start := s.start
    length := message.length, line := s.line }

/-- scanner.rs `match_char(c)`. -/
def matchChar (s : Scanner) (c : Char) : Res (Bool × Scanner) :=
  if s.isAtEnd then Res.ok (false, s)
  else do
    let cur ← vecGet s.chars s.current
    if cur == c then Res.ok (true, s.advance)
    else Res.ok (false, s)

/-- The comment-consuming `while` inside `skip_whitespace`:
`while peek() != '\n' && !is_at_end() { advance() }`. -/
def consumeComment : Nat → Scanner → Res Scanner
  | 0, _ => Res.hang
  | fuel + 1, s => do
      let c ← peek s
      if c ≠ '\n' ∧ ¬ s.isAtEnd then consumeComment fuel s.advance
      else Res.ok s

/-- scanner.rs `skip_whitespace`: skip spaces, tabs, carriage returns and
newlines (counting lines), and `//` line comments.  Note the `'/'` arm: when
the next character is not a second `'/'` the arm does nothing and the
enclosing `loop` runs again on unchanged state. -/
def skipWhitespace : Nat → Scanner → Res Scanner
  | 0, _ => Res.hang
  | fuel + 1, s => do
      let c ← peek s
      match c with
      | ' ' => skipWhitespace fuel s.advance
      | '\r' => skipWhitespace fuel s.advance
      | '\t' => skipWhitespace fuel s.advance
      | '\n' => skipWhitespace fuel ({ s with line := s.line + 1 }.advance)
      | '/' => do
          let n ← peekNext s
          if n == '/' then do
            let s ← consumeComment fuel s
            skipWhitespace fuel s
          else
            skipWhitespace fuel s
      | _ => Res.ok s

/-- The `while peek().is_digit(10) { advance() }` loops in `number_token`. -/
def digitLoop : Nat → Scanner → Res Scanner
  | 0, _ => Res.hang
  | fuel + 1, s => do
      let c ← peek s
      if c.isDigit then digitLoop fuel s.advance
      else Res.ok s

/-- scanner.rs `number_token`: integer digits, then a fractional part only
when the dot is followed by a digit (`peek_next` — the call that reads past
the end of the buffer when the source ends right after the dot). -/
def numberToken (fuel : Nat) (s : Scanner) : Res Scanner := do
  let s ← digitLoop fuel s
  let c ← peek s
  if c == '.' then do
    let n ← peekNext s
    if n.isDigit then do
      let s := s.advance
      digitLoop fuel s
    else Res.ok s
  else Res.ok s

/-- scanner.rs `identifier`: `while peek().is_digit(10) || is_alpha(peek())`. -/
def identifierLoop : Nat → Scanner → Res Scanner
  | 0, _ => Res.hang
  | fuel + 1, s => do
      let c ← peek s
      if c.isDigit || isAlphaCh c then identifierLoop fuel s.advance
      else Res.ok s

/-- scanner.rs `check_keyword(start, length, rest, token_type)`. -/
def checkKeyword (s : Scanner) (start length : Nat) (rest : List Char)
    (tt : TokenType) : TokenType :=
  let startIndex := s.start + start
  let endIndexExclusive := startIndex + length
  if s.chars.length ≥ endIndexExclusive then
    if (s.chars.drop startIndex).take length = rest then tt
    else TokenType.Identifier
  else TokenType.Identifier

/-- scanner.rs `identifier_type`: hand-coded keyword trie on the first one
or two characters. -/
def identifierType (s : Scanner) : Res TokenType := do
  let c ← vecGet s.chars s.start
  match c with
  | 'a' => Res.ok (s.checkKeyword 1 2 ['n', 'd'] TokenType.And)
  | 'c' => Res.ok (s.checkKeyword 1 4 ['l', 'a', 's', 's'] TokenType.Class)
  | 'e' => Res.ok (s.checkKeyword 1 3 ['l', 's', 'e'] TokenType.Else)
  | 'i' => Res.ok (s.checkKeyword 1 1 ['f'] TokenType.If)
  | 'n' => Res.ok (s.checkKeyword 1 2 ['i', 'l'] TokenType.Nil)
  | 'o' => Res.ok (s.checkKeyword 1 1 ['r'] TokenType.Or)
  | 'p' => Res.ok (s.checkKeyword 1 4 ['r', 'i', 'n', 't'] TokenType.Print)
  | 'r' => Res.ok (s.checkKeyword 1 5 ['e', 't', 'u', 'r', 'n'] TokenType.Return)
  | 's' => Res.ok (s.checkKeyword 1 4 ['u', 'p', 'e', 'r'] TokenType.Super)
  | 'v' => Res.ok (s.checkKeyword 1 2 ['a', 'r'] TokenType.Var)
  | 'w' => Res.ok (s.checkKeyword 1 4 ['h', 'i', 'l', 'e'] TokenType.While)
  | 'f' =>
      if s.current - s.start > 1 then do
        let c1 ← vecGet s.chars (s.start + 1)
        match c1 with
        | 'a' => Res.ok (s.checkKeyword 2 3 ['l', 's', 'e'] TokenType.False)
        | 'o' => Res.ok (s.checkKeyword 2 1 ['r'] TokenType.For)
        | 'u' => Res.ok (s.checkKeyword 2 1 ['n'] TokenType.Fun)
        | _ => Res.ok TokenType.Identifier
      else Res.ok TokenType.Identifier
  | 't' =>
      if s.current - s.start > 1 then do
        let c1 ← vecGet s.chars (s.start + 1)
        match c1 with
        | 'h' => Res.ok (s.checkKeyword 2 2 ['i', 's'] TokenType.This)
        | 'r' => Res.ok (s.checkKeyword 2 2 ['u', 'e'] TokenType.True)
        | _ => Res.ok TokenType.Identifier
      else Res.ok TokenType.Identifier
  | _ => Res.ok TokenType.Identifier

/-- The string-literal `while` inside `scan_token`'s `'"'` arm. -/
def stringLoop : Nat → Scanner → Res Scanner
  | 0, _ => Res.hang
  | fuel + 1, s => do
      let c ← peek s
      if c ≠ '"' ∧ ¬ s.isAtEnd then
        if c == '\n' then stringLoop fuel ({ s with line := s.line + 1 }.advance)
        else stringLoop fuel s.advance
      else Res.ok s

/-- scanner.rs `scan_token`: skip whitespace and comments, then scan one
token starting at the current position. -/
def scanToken (fuel : Nat) (s : Scanner) : Res (Token × Scanner) := do
  let s ← skipWhitespace fuel s
  let s := { s with start := s.current }
  if s.isAtEnd then Res.ok (s.makeToken TokenType.Eof, s)
  else do
    let s := s.advance
    let c ← vecGet s.chars s.start
    if c.isDigit then do
      let s ← numberToken fuel s
      Res.ok (s.makeToken TokenType.Number, s)
    else if isAlphaCh c then do
      let s ← identifierLoop fuel s
      let tt ← identifierType s
      Res.ok (s.makeToken tt, s)
    else
      match c with
      | '(' => Res.ok (s.makeToken TokenType.LeftParen, s)
      | ')' => Res.ok (s.makeToken TokenType.RightParen, s)
      | '{' => Res.ok (s.makeToken TokenType.LeftBrace, s)
      | '}' => Res.ok (s.makeToken TokenType.RightBrace, s)
      | ';' => Res.ok (s.makeToken TokenType.Semicolon, s)
      | ',' => Res.ok (s.makeToken TokenType.Comma, s)
      | '.' => Res.ok (s.makeToken TokenType.Dot, s)
      | '-' => Res.ok (s.makeToken TokenType.Minus, s)
      | '+' => Res.ok (s.makeToken TokenType.Plus, s)
      | '/' => Res.ok (s.makeToken TokenType.Slash, s)
      | '*' => Res.ok (s.makeToken TokenType.Star, s)
      | '!' => do
          let m ← s.matchChar '='
          let tt := if m.1 then TokenType.BangEqual else TokenType.Bang
          Res.ok (m.2.makeToken tt, m.2)
      | '=' => do
          let m ← s.matchChar '='
          let tt := if m.1 then TokenType.EqualEqual else TokenType.Equal
          Res.ok (m.2.makeToken tt, m.2)
      | '<' => do
          let m ← s.matchChar '='
          let tt := if m.1 then TokenType.LessEqual else TokenType.Less
          Res.ok (m.2.makeToken tt, m.2)
      | '>' => do
          let m ← s.matchChar '='
          let tt := if m.1 then TokenType.GreaterEqual else TokenType.Greater
          Res.ok (m.2.makeToken tt, m.2)
      | '"' => do
          let s ← stringLoop fuel s
          if s.isAtEnd then
            Res.ok (s.errorToken "Unterminated string.".toList, s)
          else
            let s := s.advance
            Res.ok (s.makeToken TokenType.String, s)
      | _ => Res.ok (s.errorToken "Unexpected character".toList, s)

end Scanner

/-! ### compiler.rs -/

/-- compiler.rs `Precedence`, discriminants 1..11. -/
inductive Precedence where
  | None | Assignment | Or | And | Equality | Comparison | Term | Factor
  | Unary | Call | Primary
deriving DecidableEq, Repr

def Precedence.toNat : Precedence → Nat
  | .None => 1 | .Assignment => 2 | .Or => 3 | .And => 4 | .Equality => 5
  | .Comparison => 6 | .Term => 7 | .Factor => 8 | .Unary => 9
  | .Call => 10 | .Primary => 11

/-- `num::FromPrimitive::from_u8` for `Precedence`. -/
def Precedence.fromU8 : Nat → Option Precedence
  | 1 => some .None | 2 => some .Assignment | 3 => some .Or | 4 => some .And
  | 5 => some .Equality | 6 => some .Comparison | 7 => some .Term
  | 8 => some .Factor | 9 => some .Unary | 10 => some .Call
  | 11 => some .Primary
  | _ => none

/-- The parse-handler function pointers of compiler.rs (GROUPING, BINARY,
UNARY, NUMBER, LITERAL, STRING, VARIABLE, OR, AND, CALL), defunctionalised
into tags dispatched by `runParseFn` below. -/
inductive ParseFnTag where
  | grouping | binary | unary | number | literal | stringLit | variable
  | orOp | andOp | callOp
deriving DecidableEq, Repr

/-- compiler.rs `ParseRule`. -/
structure ParseRule where
  prefixFn : Option ParseFnTag
  infixFn : Option ParseFnTag
  precedence : Precedence

/-- compiler.rs free function `parse_rule(token_type)`: the Pratt table. -/
def parseRule : TokenType → ParseRule
  | .LeftParen =>
      { prefixFn := some .grouping, infixFn := some .callOp
        precedence := .Call }
  | .Minus =>
      { prefixFn := some .unary, infixFn := some .binary, precedence := .Term }
  | .Bang =>
      { prefixFn := some .unary, infixFn := some .binary, precedence := .Term }
  | .Plus =>
      { prefixFn := none, infixFn := some .binary, precedence := .Term }
  | .EqualEqual =>
      { prefixFn := none, infixFn := some .binary, precedence := .Equality }
  | .BangEqual =>
      { prefixFn := none, infixFn := some .binary, precedence := .Equality }
  | .Greater =>
      { prefixFn := none, infixFn := some .binary, precedence := .Comparison }
  | .Less =>
      { prefixFn := none, infixFn := some .binary, precedence := .Comparison }
  | .GreaterEqual =>
      { prefixFn := none, infixFn := some .binary, precedence := .Comparison }
  | .LessEqual =>
      { prefixFn := none, infixFn := some .binary, precedence := .Comparison }
  | .Star =>
      { prefixFn := none, infixFn := some .binary, precedence := .Factor }
  | .Slash =>
      { prefixFn := none, infixFn := some .binary, precedence := .Factor }
  | .Number =>
      { prefixFn := some .number, infixFn := none, precedence := .None }
  | .False =>
      { prefixFn := some .literal, infixFn := none, precedence := .None }
  | .True =>
      { prefixFn := some .literal, infixFn := none, precedence := .None }
  | .Nil =>
      { prefixFn := some .literal, infixFn := none, precedence := .None }
  | .String =>
      { prefixFn := some .stringLit, infixFn := none, precedence := .None }
  | .Identifier =>
      { prefixFn := some .variable, infixFn := none, precedence := .None }
  | .Or =>
      { prefixFn := none, infixFn := some .orOp, precedence := .Or }
  | .And =>
      { prefixFn := none, infixFn := some .andOp, precedence := .And }
  | _ =>
      { prefixFn := none, infixFn := none, precedence := .None }

/-- compiler.rs `Parser`: the two tokens of lookahead state plus error flags. -/
structure Parser where
  current : Option Token
  previous : Option Token
  had_error : Bool
  panic_mode : Bool
deriving DecidableEq, Repr

/-- compiler.rs `Local`. -/
inductive Local where
  | Filled (t : Token) (depth : Nat)
  | Empty
deriving DecidableEq, Repr

/-- compiler.rs `UpValue`. -/
inductive UpValue where
  | Filled (index : Nat) (isLocal : Bool)
  | Empty
deriving DecidableEq, Repr

/-- compiler.rs `CompilerContext`. -/
structure CompilerContext where
  function : Obj
  locals : List Local
  local_count : Nat
  up_values : List UpValue
  up_value_count : Nat

/-- compiler.rs `CompilerContext::init()`: 255 empty local and upvalue
slots (`u8::MAX as usize`), `local_count = 1` (slot zero is reserved for the
enclosing function), a fresh `Script` function. -/
def CompilerContext.init : CompilerContext :=
  { locals := List.replicate 255 Local.Empty
    local_count := 1
    up_values := List.replicate 255 UpValue.Empty
    up_value_count := 0
    function := Obj.Fun (LFunction.newFunction FunctionType.Script) }

/-- compiler.rs `update_function_arity(arity)`. -/
def CompilerContext.updateFunctionArity (c : CompilerContext) (arity : Nat) :
    CompilerContext :=
  match c.function with
  | Obj.Fun (LFunction.mk _ chunk name t) =>
      { c with function := Obj.Fun (LFunction.mk arity chunk name t) }
  | _ => c

/-- compiler.rs `Compiler` state.  The heap is carried alongside to model
the raw string allocations of `create_new_string`. -/
structure CompilerSt where
  table : Table Value
  scanner : Scanner
  parser : Parser
  source : List Char
  current_context : Nat
  scope_depth : Nat
  contexts : List CompilerContext
  heap : Heap

/-- The compiler runs in a state monad over `Res`. -/
abbrev CM (α : Type) := StateT CompilerSt Res α

def cmPanic {σ : Type} {α : Type} : StateT σ Res α := fun _ => Res.panic

def cmHang {σ : Type} {α : Type} : StateT σ Res α := fun _ => Res.hang

def liftRes {σ : Type} {α : Type} (r : Res α) : StateT σ Res α :=
  fun s => Res.bind r fun a => Res.ok (a, s)

/-- Lift an `Option` whose `none` is a diverging table probe. -/
def liftLoop {σ : Type} {α : Type} (o : Option α) : StateT σ Res α :=
  liftRes (Res.ofLoop o)

/-- Lift an `Option` whose `none` is an `unwrap` panic. -/
def liftUnwrap {σ : Type} {α : Type} (o : Option α) : StateT σ Res α :=
  liftRes (Res.ofUnwrap o)

/-- `self.parser.previous.unwrap()`. -/
def previousTok : CM Token := do
  let st ← get
  liftUnwrap st.parser.previous

/-- `self.parser.current.unwrap()`. -/
def currentTok : CM Token := do
  let st ← get
  liftUnwrap st.parser.current

/-- compiler.rs `current_context()`: `self.contexts.get_mut(idx).unwrap()`. -/
def currentCtx : CM CompilerContext := do
  let st ← get
  liftUnwrap (st.contexts.get? st.current_context)

/-- Write back the current context (the effect of mutating through
`current_context()`). -/
def setCurrentCtx (c : CompilerContext) : CM Unit := do
  let st ← get
  set { st with contexts := st.contexts.set st.current_context c }

/-- compiler.rs `current_chunk()`: the chunk of the current context's
function (`get_func_chunk` panics when it is not a `Fun`). -/
def currentChunk : CM Chunk := do
  let ctx ← currentCtx
  liftRes ctx.function.getFuncChunk

/-- Mutate the current chunk in place and return a result. -/
def withCurrentChunkR {α : Type} (f : Chunk → α × Chunk) : CM α := do
  let ctx ← currentCtx
  let ch ← liftRes ctx.function.getFuncChunk
  let p := f ch
  let fn ← liftRes (ctx.function.setFuncChunk p.2)
  setCurrentCtx { ctx with function := fn }
  pure p.1

/-- Mutate the current chunk in place. -/
def withCurrentChunk (f : Chunk → Chunk) : CM Unit :=
  withCurrentChunkR fun c => ((), f c)

/-- compiler.rs `token_name(token)`: `&self.source[start .. start + length]`
(in range for every scanner-produced token). -/
def tokenName (source : List Char) (t : Token) : List Char :=
  (source.drop t.start).take t.length

/-- compiler.rs `error_at(message, token)`: outside panic mode, print the
diagnostic to stderr (I/O, not modelled) and set both error flags.  The
`token` argument was already unwrapped by the caller. -/
def errorAt (_message : List Char) (_token : Token) : CM Unit := do
  let st ← get
  if st.parser.panic_mode then pure ()
  else
    set { st with parser :=
      { st.parser with panic_mode := true, had_error := true } }

/-- compiler.rs `error_at_current(message)`: unwraps `parser.current`. -/
def errorAtCurrent (message : List Char) : CM Unit := do
  let t ← currentTok
  errorAt message t

/-- compiler.rs `error(message)`: unwraps `parser.previous`. -/
def errorCM (message : List Char) : CM Unit := do
  let t ← previousTok
  errorAt message t

/-- One `scan_token` call feeding `parser.current`. -/
def scanOne (fuel : Nat) : CM Token := do
  let st ← get
  let r ← liftRes (Scanner.scanToken fuel st.scanner)
  let st ← get
  set { st with scanner := r.2
                parser := { st.parser with current := some r.1 } }
  pure r.1

/-- The loop inside compiler.rs `advance`: scan until a non-`Error` token,
reporting each `Error` token. -/
def advanceLoop : Nat → CM Unit
  | 0 => cmHang
  | fuel + 1 => do
      let t ← scanOne fuel
      if t.token_type ≠ TokenType.Error then pure ()
      else do
        errorAtCurrent "@todo some error here".toList
        advanceLoop fuel

/-- compiler.rs `advance()`. -/
def advanceCM (fuel : Nat) : CM Unit := do
  let st ← get
  set { st with parser := { st.parser with previous := st.parser.current } }
  advanceLoop fuel

/-- compiler.rs `check(token_type)`: `false` when `parser.current` is `None`. -/
def checkTT (tt : TokenType) : CM Bool := do
  let st ← get
  match st.parser.current with
  | some t => pure (t.token_type == tt)
  | none => pure false

/-- compiler.rs `match_token(token_type)`. -/
def matchToken (fuel : Nat) (tt : TokenType) : CM Bool := do
  let c ← checkTT tt
  if c then do
    advanceCM fuel
    pure true
  else pure false

/-- compiler.rs `consume(token_type, message)`: unwraps `parser.current`. -/
def consume (fuel : Nat) (tt : TokenType) (message : List Char) : CM Unit := do
  let t ← currentTok
  if t.token_type == tt then advanceCM fuel
  else errorAtCurrent message

/-- compiler.rs `emit_byte(byte)`: writes at `previous_token().line`. -/
def emitByte (byte : Nat) : CM Unit := do
  let prev ← previousTok
  withCurrentChunk fun c => c.writeChunk byte prev.line

/-- compiler.rs `emit_opcode(opcode)`. -/
def emitOpcode (op : OpCode) : CM Unit :=
  emitByte op.toByte

/-- compiler.rs `emit_opcodes(a, b)`. -/
def emitOpcodes (a b : OpCode) : CM Unit := do
  emitOpcode a
  emitOpcode b

/-- compiler.rs `emit_return()`: `Nil` then `Return`. -/
def emitReturn : CM Unit := do
  emitOpcode OpCode.Nil
  emitOpcode OpCode.Return

/-- compiler.rs `end_compiler()`. -/
def endCompiler : CM Unit := do
  emitReturn
  let st ← get
  if st.current_context > 0 then
    set { st with current_context := st.current_context - 1 }
  else pure ()

/-- compiler.rs `emit_constant(value)`: `write_constant` at the previous
token's line; returns the constant index. -/
def emitConstantCM (v : Value) : CM Nat := do
  let prev ← previousTok
  withCurrentChunkR fun c => c.writeConstant v prev.line

/-- `current_chunk().add_constant(value)` (no opcode emitted). -/
def addConstantCM (v : Value) : CM Nat :=
  withCurrentChunkR fun c => c.addConstant v

/-- `current_chunk().write_index(index, line)`. -/
def writeIndexCM (index line : Nat) : CM Unit :=
  withCurrentChunk fun c => c.writeIndex index line

/-- compiler.rs `begin_scope()`. -/
def beginScope : CM Unit := do
  let st ← get
  set { st with scope_depth := st.scope_depth + 1 }

/-- Emit `n` `Pop` opcodes (the `for _ in 1..=scoped_locals` loop). -/
def emitPops : Nat → CM Unit
  | 0 => pure ()
  | n + 1 => do
      emitOpcode OpCode.Pop
      emitPops n

/-- compiler.rs `end_scope()`: decrement the depth, emit one `Pop` per
`Filled` local slot whose depth exceeds the new depth (stale slots beyond
`local_count` included — the array is never cleared), and subtract that
count from `local_count` (a usize subtraction that can underflow). -/
def endScope : CM Unit := do
  let st ← get
  let newDepth ← liftRes (subChecked st.scope_depth 1)
  set { st with scope_depth := newDepth }
  let ctx ← currentCtx
  let scopedLocals := ctx.locals.countP fun l =>
    match l with
    | Local.Filled _ depth => depth > newDepth
    | _ => false
  if ctx.local_count == 0 then pure ()
  else do
    emitPops scopedLocals
    let ctx ← currentCtx
    let newCount ← liftRes (subChecked ctx.local_count scopedLocals)
    setCurrentCtx { ctx with local_count := newCount }

/-- compiler.rs `emit_jump(instruction)`: opcode plus two `0xff` placeholder
bytes; returns the offset of the placeholder. -/
def emitJump (op : OpCode) : CM Nat := do
  emitOpcode op
  emitByte 255
  emitByte 255
  let ch ← currentChunk
  pure (ch.code.length - 2)

/-- compiler.rs `patch_jump(offset)`: back-fill the two placeholder bytes
with the big-endian jump distance `(code.len() - offset - 2) as u16`. -/
def patchJump (offset : Nat) : CM Unit := do
  let ch ← currentChunk
  let raw ← liftRes (subChecked ch.code.length (offset + 2))
  let jump := raw % 65536
  if jump > 65535 then
    errorCM "Can not jump more than 65535 bytes".toList
  else do
    let code1 ← liftRes (vecSet ch.code offset (jump / 256 % 256))
    let code2 ← liftRes (vecSet code1 (offset + 1) (jump % 256))
    withCurrentChunk fun c => Chunk.mk code2 c.constants c.lines

/-- compiler.rs `emit_loop(loop_start)`: a `Loop` opcode with big-endian
distance `(code.len() - loop_start + 2) as u16`. -/
def emitLoop (loopStart : Nat) : CM Unit := do
  emitOpcode OpCode.Loop
  let ch ← currentChunk
  let raw ← liftRes (subChecked ch.code.length loopStart)
  let jump := (raw + 2) % 65536
  if jump > 65535 then
    errorCM "Can not jump more than 65535 bytes".toList
  else do
    emitByte (jump / 256 % 256)
    emitByte (jump % 256)

/-- compiler.rs `resolve_from_locals(locals, scope_depth, token)`: scan the
local slots from the highest index downwards; inside scopes at depth
`>= scope_depth`, return the first byte-equal name. -/
def resolveFromLocals (source : List Char) (locals : List Local)
    (scopeDepth : Nat) (token : Token) : Option Int :=
  locals.enum.reverse.findSome? fun p =>
    match p.2 with
    | Local.Filled existingToken depth =>
        if depth ≥ scopeDepth then
          if token.length ≠ existingToken.length then none
          else if tokenName source token = tokenName source existingToken then
            some (Int.ofNat p.1)
          else none
        else none
    | _ => none

/-- compiler.rs `resolve_local(token)`: `-1` when there are no locals or no
match. -/
def resolveLocal (token : Token) : CM Int := do
  let ctx ← currentCtx
  if ctx.local_count ≤ 0 then pure (-1)
  else do
    let st ← get
    match resolveFromLocals st.source ctx.locals st.scope_depth token with
    | some v => pure v
    | none => pure (-1)

/-- Rust `as u8` on an `i32`: two's-complement truncation (`-1` -> `255`). -/
def u8OfInt (x : Int) : Nat := (x % 256).toNat

/-- Rust `as usize` on an `i32`: sign extension then truncation
(`-1` -> `usize::MAX`). -/
def usizeOfInt (x : Int) : Nat := (x % 18446744073709551616).toNat

/-- compiler.rs `add_up_value(index, is_local, context_index)`: store the
descriptor at `up_values[up_value_count]` and bump the count. -/
def addUpValue (index : Nat) (isLocal : Bool) (contextIndex : Nat) :
    CM Unit := do
  let st ← get
  let ctx ← liftUnwrap (st.contexts.get? contextIndex)
  let ups ← liftRes
    (vecSet ctx.up_values ctx.up_value_count (UpValue.Filled index isLocal))
  let ctx := { ctx with up_values := ups
                        up_value_count := ctx.up_value_count + 1 }
  set { st with contexts := st.contexts.set contextIndex ctx }

/-- compiler.rs `recursive_resolve_up_value(name, context_index,
scope_depth)`: walk outwards through the enclosing contexts; a hit in an
enclosing context records `(index, is_local=true)`, a recursive hit records
`(r_index as u8, is_local=false)` — note that the descriptor is recorded
even when the recursive result is `-1` (the name is a global), storing index
`255`.  `scope_depth - 1` is a usize subtraction. -/
def recursiveResolveUpValue (name : Token) :
    Nat → Nat → CM Int
  | 0, _ => pure (-1)
  | contextIndex + 1, scopeDepth => do
      let st ← get
      match st.contexts.get? contextIndex with
      | some context => do
          let sd ← liftRes (subChecked scopeDepth 1)
          match resolveFromLocals st.source context.locals sd name with
          | some index => do
              addUpValue (u8OfInt index) true (contextIndex + 1)
              pure index
          | none => do
              let r ← recursiveResolveUpValue name contextIndex sd
              addUpValue (u8OfInt r) false (contextIndex + 1)
              pure r
      | none => pure (-1)

/-- compiler.rs `declare_variable()`. -/
def declareVariable : CM Unit := do
  let st ← get
  if st.scope_depth > 0 then do
    let ctx ← currentCtx
    if ctx.local_count == 255 then
      errorCM "Too many local variables in function.".toList
    else do
      let token ← previousTok
      let st ← get
      let loc := Local.Filled token st.scope_depth
      let matching ← resolveLocal token
      if matching ≠ -1 then
        errorCM "Already a variable with this name in this scope.".toList
      else pure ()
      let ctx ← currentCtx
      let locals ← liftRes (vecSet ctx.locals ctx.local_count loc)
      setCurrentCtx { ctx with locals := locals
                               local_count := ctx.local_count + 1 }
  else pure ()

/-- value.parse::<f64>() on a Lox number literal, modelled on its integer
part; every literal evaluated in this file is integral, where the `f64`
parse is exact. -/
def parseF64 (s : List Char) : Int :=
  Int.ofNat ((s.takeWhile Char.isDigit).foldl
    (fun acc c => acc * 10 + (c.toNat - 48)) 0)

/-- compiler.rs `str_to_float(token)` via `token_name`. -/
def strToFloat (token : Token) : CM Int := do
  let st ← get
  pure (parseF64 (tokenName st.source token))

/-- compiler.rs `prev_token_to_string()`: previous token's text and hash. -/
def prevTokenToString : CM (List Char × Nat) := do
  let token ← previousTok
  let st ← get
  let s := tokenName st.source token
  pure (s, fnvHash s)

/-- compiler.rs `get_existing_string(str_value, hash)`. -/
def getExistingString (s : List Char) (h : Nat) : CM (Option FatPointer) := do
  let st ← get
  liftLoop (Table.findEntryWithValue st.heap st.table s h)

/-- compiler.rs `reuse_existing_string(existing, emit_constant)`. -/
def reuseExistingString (existing : FatPointer) (emitC : Bool) : CM Nat := do
  let value := Value.VObj (Obj.Str existing)
  if emitC then emitConstantCM value else addConstantCM value

/-- compiler.rs `create_new_string(str_value, hash, emit_constant)`:
allocate a fresh cell, copy the payload, intern the fat pointer with marker
value `Missing` (the insert result is discarded), then emit or append. -/
def createNewString (strValue : List Char) (hashValue : Nat) (emitC : Bool) :
    CM Nat := do
  let st ← get
  let p := heapAlloc st.heap strValue
  set { st with heap := p.2 }
  let fatPtr : FatPointer :=
    { ptr := p.1, size := strValue.length, hash := hashValue }
  let value := Value.VObj (Obj.Str fatPtr)
  let st ← get
  let r ← liftLoop (Table.insert st.table fatPtr Value.Missing)
  set { st with table := r.2 }
  if emitC then emitConstantCM value else addConstantCM value

/-- compiler.rs `string(can_assign, emit_constant)`: reuse the interned
payload when present, else create and intern a new string object. -/
def stringFn (_canAssign : Bool) (emitC : Bool) : CM Nat := do
  let p ← prevTokenToString
  let existing ← getExistingString p.1 p.2
  match existing with
  | some e => reuseExistingString e emitC
  | none => createNewString p.1 p.2 emitC

/-- compiler.rs `identifier()`: `string(false, false)`. -/
def identifierFn : CM Nat :=
  stringFn false false

/-- compiler.rs `parse_variable()`: consume the identifier, declare it, and
intern it as a constant only at global scope. -/
def parseVariable (fuel : Nat) : CM Nat := do
  consume fuel TokenType.Identifier "Expected name after variable".toList
  declareVariable
  let st ← get
  if st.scope_depth ≤ 0 then identifierFn
  else pure 0

/-- compiler.rs `define_variable(index)`: locals are left on the stack;
globals get `DefineGlobal` with the name-constant index. -/
def defineVariable (index : Nat) : CM Unit := do
  let st ← get
  if st.scope_depth > 0 then pure ()
  else do
    let prev ← previousTok
    emitOpcode OpCode.DefineGlobalVariable
    writeIndexCM index prev.line

/-- compiler.rs `emit_operator(operator_type)`. -/
def emitOperator (tt : TokenType) : CM Unit :=
  match tt with
  | TokenType.Minus => emitOpcode OpCode.Subtract
  | TokenType.Plus => emitOpcode OpCode.Add
  | TokenType.Star => emitOpcode OpCode.Multiply
  | TokenType.Slash => emitOpcode OpCode.Divide
  | TokenType.Greater => emitOpcode OpCode.Greater
  | TokenType.GreaterEqual => emitOpcodes OpCode.Less OpCode.Not
  | TokenType.Less => emitOpcode OpCode.Less
  | TokenType.LessEqual => emitOpcodes OpCode.Greater OpCode.Not
  | TokenType.EqualEqual => emitOpcode OpCode.Equal
  | TokenType.BangEqual => emitOpcodes OpCode.Equal OpCode.Not
  | _ => pure ()

/-- compiler.rs `literal(can_assign)`. -/
def literalFn : CM Unit := do
  let prev ← previousTok
  match prev.token_type with
  | TokenType.False => emitOpcode OpCode.False
  | TokenType.Nil => emitOpcode OpCode.Nil
  | TokenType.True => emitOpcode OpCode.True
  | _ => pure ()

/-- compiler.rs `number(can_assign)`. -/
def numberFn : CM Unit := do
  let prev ← previousTok
  let v ← strToFloat prev
  let _ ← emitConstantCM (Value.Number v)
  pure ()

/-- The `while` loop of compiler.rs `synchronize_error`. -/
def synchronizeLoop : Nat → CM Unit
  | 0 => cmHang
  | fuel + 1 => do
      let atEof ← checkTT TokenType.Eof
      if atEof then pure ()
      else do
        let atSemi ← checkTT TokenType.Semicolon
        if atSemi then pure ()
        else do
          let t ← currentTok
          match t.token_type with
          | TokenType.Class => pure ()
          | TokenType.Fun => pure ()
          | TokenType.If => pure ()
          | TokenType.While => pure ()
          | TokenType.Var => pure ()
          | TokenType.Print => pure ()
          | TokenType.For => pure ()
          | TokenType.Return => pure ()
          | _ => do
              advanceCM fuel
              synchronizeLoop fuel

/-- compiler.rs `synchronize_error()`: leave panic mode and skip tokens to a
statement boundary. -/
def synchronizeError (fuel : Nat) : CM Unit := do
  let st ← get
  set { st with parser := { st.parser with panic_mode := false } }
  synchronizeLoop fuel

/-- compiler.rs `consume_semicolon()`. -/
def consumeSemicolon (fuel : Nat) : CM Unit :=
  consume fuel TokenType.Semicolon
    "Expected semicolon at the end of experession".toList

/-- compiler.rs `parse_and_define_parameter()`. -/
def parseAndDefineParameter (fuel : Nat) : CM Unit := do
  let idx ← parseVariable fuel
  defineVariable idx

/-- The parameter-list `loop` of compiler.rs `function()`: consume
`, param` pairs, counting the arity. -/
def paramLoop : Nat → Nat → CM Nat
  | 0, _ => cmHang
  | fuel + 1, arity => do
      let isComma ← matchToken fuel TokenType.Comma
      if isComma then do
        parseAndDefineParameter fuel
        paramLoop fuel (arity + 1)
      else pure arity

/-- Rust `Vec::remove(i)`: panics when out of bounds. -/
def vecRemove {α : Type} (v : List α) (i : Nat) : Res (List α) :=
  if i < v.length then Res.ok (v.eraseIdx i) else Res.panic

/-- common.rs `Function` field update used by `function()`. -/
def LFunction.setName : LFunction → Option FatPointer → LFunction
  | .mk a c _ t, n => .mk a c n t

/-- The `up_values.iter().for_each(..)` at the end of compiler.rs
`function()`: two operand bytes `(is_local, index)` per filled descriptor. -/
def emitUpValueBytes : List UpValue → CM Unit
  | [] => pure ()
  | UpValue.Filled index true :: rest => do
      emitByte 1
      emitByte index
      emitUpValueBytes rest
  | UpValue.Filled index false :: rest => do
      emitByte 0
      emitByte index
      emitUpValueBytes rest
  | UpValue.Empty :: rest => emitUpValueBytes rest

mutual

/-- compiler.rs `declaration()`. -/
def declaration : Nat → CM Unit
  | 0 => cmHang
  | fuel + 1 => do
      let isFun ← matchToken fuel TokenType.Fun
      if isFun then funDecl fuel
      else do
        let isVar ← matchToken fuel TokenType.Var
        if isVar then variableDecl fuel
        else statement fuel
      let st ← get
      if st.parser.panic_mode then synchronizeError fuel else pure ()

/-- compiler.rs `fun_decl()`. -/
def funDecl : Nat → CM Unit
  | 0 => cmHang
  | fuel + 1 => do
      let index ← parseVariable fuel
      let prevToken ← previousTok
      functionFn fuel
      emitOpcode OpCode.DefineGlobalVariable
      writeIndexCM index prevToken.line

/-- compiler.rs `function()`: open a fresh context whose function is named
by the interned identifier, compile parameters and body, then back in the
enclosing context emit `Closure`, the function-constant byte (`as u8`), and
two bytes per recorded upvalue descriptor. -/
def functionFn : Nat → CM Unit
  | 0 => cmHang
  | fuel + 1 => do
      let token ← previousTok
      let st ← get
      let strValue := tokenName st.source token
      let hashValue := fnvHash strValue
      let existing ←
        liftLoop (Table.findEntryWithValue st.heap st.table strValue hashValue)
      let fn := (LFunction.newFunction FunctionType.Closure).setName existing
      let context := { CompilerContext.init with function := Obj.Fun fn }
      let st ← get
      set { st with contexts := st.contexts ++ [context]
                    current_context := st.current_context + 1 }
      beginScope
      consume fuel TokenType.LeftParen "Expect '(' after function name".toList
      let noParams ← checkTT TokenType.RightParen
      let arity ←
        if noParams then pure 0
        else do
          parseAndDefineParameter fuel
          paramLoop fuel 1
      if arity ≥ 255 then
        errorAtCurrent "Can't have more than 255 parameters.".toList
      else pure ()
      let ctx ← currentCtx
      setCurrentCtx (ctx.updateFunctionArity arity)
      consume fuel TokenType.RightParen
        "Expect ')' at the end of function params".toList
      consume fuel TokenType.LeftBrace
        "Expect brace at the beginning of function body".toList
      block fuel
      endScope
      endCompiler
      let st ← get
      let innerCtx ← liftRes (vecGet st.contexts (st.current_context + 1))
      let contexts ← liftRes (vecRemove st.contexts (st.current_context + 1))
      let st ← get
      set { st with contexts := contexts }
      let constantIndex ← addConstantCM (Value.VObj innerCtx.function)
      emitOpcode OpCode.Closure
      emitByte (constantIndex % 256)
      emitUpValueBytes innerCtx.up_values

/-- compiler.rs `variable_decl()`. -/
def variableDecl : Nat → CM Unit
  | 0 => cmHang
  | fuel + 1 => do
      let index ← parseVariable fuel
      let isEq ← matchToken fuel TokenType.Equal
      if isEq then expression fuel
      else emitOpcode OpCode.Nil
      consumeSemicolon fuel
      defineVariable index

/-- compiler.rs `statement()`. -/
def statement : Nat → CM Unit
  | 0 => cmHang
  | fuel + 1 => do
      let m ← matchToken fuel TokenType.Print
      if m then printStmt fuel
      else do
        let m ← matchToken fuel TokenType.If
        if m then ifStmt fuel
        else do
          let m ← matchToken fuel TokenType.Return
          if m then returnStmt fuel
          else do
            let m ← matchToken fuel TokenType.While
            if m then whileStmt fuel
            else do
              let m ← matchToken fuel TokenType.For
              if m then forStmt fuel
              else do
                let m ← matchToken fuel TokenType.LeftBrace
                if m then do
                  beginScope
                  block fuel
                  endScope
                else expressionStatement fuel

/-- compiler.rs `return_stmt()`. -/
def returnStmt : Nat → CM Unit
  | 0 => cmHang
  | fuel + 1 => do
      let m ← matchToken fuel TokenType.Semicolon
      if m then emitReturn
      else do
        expression fuel
        consumeSemicolon fuel
        emitOpcode OpCode.Return

/-- compiler.rs `for_stmt()`: scoped init/condition/increment lowering with
`usize::MAX` as the no-condition sentinel. -/
def forStmt : Nat → CM Unit
  | 0 => cmHang
  | fuel + 1 => do
      beginScope
      consume fuel TokenType.LeftParen "Expect '(' after if statement".toList
      let m ← matchToken fuel TokenType.Semicolon
      if m then pure ()
      else do
        let mv ← matchToken fuel TokenType.Var
        if mv then variableDecl fuel else expressionStatement fuel
      let ch ← currentChunk
      let loopStart := ch.code.length
      let mc ← matchToken fuel TokenType.Semicolon
      let endLoop ←
        if mc then pure 18446744073709551615
        else do
          expression fuel
          consumeSemicolon fuel
          let e ← emitJump OpCode.JumpIfFalse
          emitOpcode OpCode.Pop
          pure e
      let mr ← matchToken fuel TokenType.RightParen
      let loopStart ←
        if mr then pure loopStart
        else do
          let bodyJump ← emitJump OpCode.Jump
          let ch ← currentChunk
          let incStart := ch.code.length
          expression fuel
          emitOpcode OpCode.Pop
          consume fuel TokenType.RightParen
            "Expect ')' at the end of if statement".toList
          emitLoop loopStart
          patchJump bodyJump
          pure incStart
      statement fuel
      emitLoop loopStart
      if endLoop ≠ 18446744073709551615 then do
        patchJump endLoop
        emitOpcode OpCode.Pop
      else pure ()
      endScope

/-- compiler.rs `while_stmt()`. -/
def whileStmt : Nat → CM Unit
  | 0 => cmHang
  | fuel + 1 => do
      let ch ← currentChunk
      let loopStart := ch.code.length
      consume fuel TokenType.LeftParen "Expect '(' after if statement".toList
      expression fuel
      consume fuel TokenType.RightParen
        "Expect ')' at the end of if statement".toList
      let exitJump ← emitJump OpCode.JumpIfFalse
      emitOpcode OpCode.Pop
      statement fuel
      emitLoop loopStart
      patchJump exitJump
      emitOpcode OpCode.Pop

/-- compiler.rs `if_stmt()`. -/
def ifStmt : Nat → CM Unit
  | 0 => cmHang
  | fuel + 1 => do
      consume fuel TokenType.LeftParen "Expect '(' after if statement".toList
      expression fuel
      consume fuel TokenType.RightParen
        "Expect ')' at the end of if statement".toList
      let offset ← emitJump OpCode.JumpIfFalse
      emitOpcode OpCode.Pop
      statement fuel
      let elseOffset ← emitJump OpCode.Jump
      patchJump offset
      emitOpcode OpCode.Pop
      let m ← matchToken fuel TokenType.Else
      if m then statement fuel else pure ()
      patchJump elseOffset

/-- The `while` loop of compiler.rs `block()`. -/
def blockLoop : Nat → CM Unit
  | 0 => cmHang
  | fuel + 1 => do
      let r ← checkTT TokenType.RightBrace
      let e ← checkTT TokenType.Eof
      if ¬ r ∧ ¬ e then do
        declaration fuel
        blockLoop fuel
      else pure ()

/-- compiler.rs `block()`. -/
def block : Nat → CM Unit
  | 0 => cmHang
  | fuel + 1 => do
      blockLoop fuel
      consume fuel TokenType.RightBrace "Expect brace after block.".toList

/-- compiler.rs `print_stmt()`. -/
def printStmt : Nat → CM Unit
  | 0 => cmHang
  | fuel + 1 => do
      expression fuel
      consumeSemicolon fuel
      emitOpcode OpCode.Print

/-- compiler.rs `expression_statement()`. -/
def expressionStatement : Nat → CM Unit
  | 0 => cmHang
  | fuel + 1 => do
      expression fuel
      consumeSemicolon fuel
      emitOpcode OpCode.Pop

/-- compiler.rs `expression()`. -/
def expression : Nat → CM Unit
  | 0 => cmHang
  | fuel + 1 => parsePrecedence fuel Precedence.Assignment

/-- compiler.rs `parse_precedence(precedence)`. -/
def parsePrecedence : Nat → Precedence → CM Unit
  | 0, _ => cmHang
  | fuel + 1, precedence => do
      advanceCM fuel
      let prev ← previousTok
      match (parseRule prev.token_type).prefixFn with
      | none => errorCM "Expect expression".toList
      | some prefixTag => do
          let canAssign := precedence.toNat ≤ Precedence.Assignment.toNat
          runParseFn fuel prefixTag canAssign
          infixLoop fuel precedence canAssign
          if canAssign then do
            let m ← matchToken fuel TokenType.Equal
            if m then errorCM "Invalid assignment target".toList else pure ()
          else pure ()

/-- The infix `while` loop of `parse_precedence`: `infix.unwrap()` panics
when a rule at sufficient precedence has no infix handler. -/
def infixLoop : Nat → Precedence → Bool → CM Unit
  | 0, _, _ => cmHang
  | fuel + 1, precedence, canAssign => do
      let cur ← currentTok
      if precedence.toNat ≤ (parseRule cur.token_type).precedence.toNat then do
        advanceCM fuel
        let prev ← previousTok
        match (parseRule prev.token_type).infixFn with
        | some tag => do
            runParseFn fuel tag canAssign
            infixLoop fuel precedence canAssign
        | none => cmPanic
      else pure ()

/-- Dispatch on the defunctionalised parse-handler tags (the source's
closure constants GROUPING, BINARY, ...). -/
def runParseFn : Nat → ParseFnTag → Bool → CM Unit
  | 0, _, _ => cmHang
  | fuel + 1, tag, canAssign =>
      match tag with
      | .grouping => groupingFn fuel
      | .binary => binaryFn fuel
      | .unary => unaryFn fuel
      | .number => numberFn
      | .literal => literalFn
      | .stringLit => do
          let _ ← stringFn canAssign true
          pure ()
      | .variable => variableFn fuel canAssign
      | .orOp => orFn fuel
      | .andOp => andFn fuel
      | .callOp => callFn fuel

/-- compiler.rs `grouping(can_assign)`. -/
def groupingFn : Nat → CM Unit
  | 0 => cmHang
  | fuel + 1 => do
      expression fuel
      consume fuel TokenType.RightParen "Expect ')' after expression".toList

/-- compiler.rs `unary(can_assign)`. -/
def unaryFn : Nat → CM Unit
  | 0 => cmHang
  | fuel + 1 => do
      let prev ← previousTok
      parsePrecedence fuel Precedence.Unary
      match prev.token_type with
      | TokenType.Minus => emitOpcode OpCode.Negate
      | TokenType.Bang => emitOpcode OpCode.Not
      | _ => pure ()

/-- compiler.rs `binary(can_assign)`: right operand at one precedence level
higher (`from_u8(precedence + 1).unwrap()`), then the operator. -/
def binaryFn : Nat → CM Unit
  | 0 => cmHang
  | fuel + 1 => do
      let prev ← previousTok
      let operatorType := prev.token_type
      let rule := parseRule operatorType
      let nextOp ← liftUnwrap (Precedence.fromU8 (rule.precedence.toNat + 1))
      parsePrecedence fuel nextOp
      emitOperator operatorType

/-- compiler.rs `and(can_assign)`. -/
def andFn : Nat → CM Unit
  | 0 => cmHang
  | fuel + 1 => do
      let offset ← emitJump OpCode.JumpIfFalse
      emitOpcode OpCode.Pop
      parsePrecedence fuel Precedence.And
      patchJump offset

/-- compiler.rs `or(can_assign)`. -/
def orFn : Nat → CM Unit
  | 0 => cmHang
  | fuel + 1 => do
      let elseJumpOffset ← emitJump OpCode.JumpIfFalse
      let endJumpOffset ← emitJump OpCode.Jump
      patchJump elseJumpOffset
      emitOpcode OpCode.Pop
      parsePrecedence fuel Precedence.Or
      patchJump endJumpOffset

/-- The argument `loop` of compiler.rs `call()`. -/
def argLoop : Nat → Nat → CM Nat
  | 0, _ => cmHang
  | fuel + 1, argCount => do
      let m ← matchToken fuel TokenType.Comma
      if m then do
        expression fuel
        let argCount := argCount + 1
        if argCount == 255 then
          errorCM "Can't have more than 255 arguments".toList
        else pure ()
        argLoop fuel argCount
      else pure argCount

/-- compiler.rs `call(can_assign)`: 0..=255 arguments, then `Call argc`. -/
def callFn : Nat → CM Unit
  | 0 => cmHang
  | fuel + 1 => do
      let r ← checkTT TokenType.RightParen
      let argCount ←
        if r then pure 0
        else do
          expression fuel
          argLoop fuel 1
      consume fuel TokenType.RightParen "Expected ')' in function call.".toList
      emitOpcode OpCode.Call
      emitByte argCount

/-- The common tail of compiler.rs `variable()`: matched `Set…`/`Get…`
opcode plus the resolved index (`existing_index as usize`). -/
def variableEmit : Nat → Bool → OpCode → OpCode → Int → CM Unit
  | 0, _, _, _, _ => cmHang
  | fuel + 1, canAssign, setOp, getOp, existingIndex => do
      let prevToken ← previousTok
      if canAssign then do
        let m ← matchToken fuel TokenType.Equal
        if m then do
          expression fuel
          emitOpcode setOp
          writeIndexCM (usizeOfInt existingIndex) prevToken.line
        else do
          emitOpcode getOp
          writeIndexCM (usizeOfInt existingIndex) prevToken.line
      else do
        emitOpcode getOp
        writeIndexCM (usizeOfInt existingIndex) prevToken.line

/-- compiler.rs `variable(can_assign)`: resolve as local, then upvalue,
then global. -/
def variableFn : Nat → Bool → CM Unit
  | 0, _ => cmHang
  | fuel + 1, canAssign => do
      let token ← previousTok
      let ei ← resolveLocal token
      if ei ≥ 0 then
        variableEmit fuel canAssign OpCode.SetLocalVariable
          OpCode.GetLocalVariable ei
      else do
        let st ← get
        let r ← recursiveResolveUpValue token st.current_context st.scope_depth
        if r ≠ -1 then
          variableEmit fuel canAssign OpCode.SetUpValue OpCode.GetUpValue r
        else do
          let index ← identifierFn
          variableEmit fuel canAssign OpCode.SetGlobalVariable
            OpCode.GetGlobalVariable (Int.ofNat index)

end

/-- The `while !self.match_token(Eof)` loop of compiler.rs `compile`. -/
def compileLoop : Nat → CM Unit
  | 0 => cmHang
  | fuel + 1 => do
      let m ← matchToken fuel TokenType.Eof
      if m then pure ()
      else do
        declaration fuel
        compileLoop fuel

/-- compiler.rs `compile(source)`: refresh the scanner, prime the parser,
compile declarations to end of input, close the script function; returns
`(had_error, function_obj)`. -/
def compile (fuel : Nat) (source : List Char) : CM (Bool × Obj) := do
  let st ← get
  set { st with source := source
                scanner := st.scanner.refresh 0 source.length source }
  advanceCM fuel
  compileLoop fuel
  endCompiler
  let st ← get
  let ctx ← currentCtx
  pure (st.parser.had_error, ctx.function)

/-- compiler.rs `Compiler::init(scanner, table)` (plus the modelled heap). -/
def compilerInit (scanner : Scanner) (table : Table Value) (heap : Heap) :
    CompilerSt :=
  { table := table
    scanner := scanner
    parser := { current := none, previous := none
                had_error := false, panic_mode := false }
    source := []
    current_context := 0
    scope_depth := 0
    contexts := [CompilerContext.init]
    heap := heap }

/-! ### vm.rs -/

/-- vm.rs `InterpretResult`. -/
inductive InterpretResult where
  | InterpretOk
  | InterpretCompileError
  | InterpretRuntimeError
deriving DecidableEq, Repr

/-- The messages passed to vm.rs `runtime_error`, as an inductive tag with
the formatted payload; the corresponding format strings are:
`expectedTwoNumbers` = "Expected two numbers for binary operation.",
`expectedNumberNegate` = "Expected number for Negate opcode!",
`expectedStringRhs` = "Expected String value on right side while adding to
another string.", `unknownAddType` = "Unknown type detected for Add
operation", `unableToFindKey key` = "Unable to find value for key {:?}",
`expectedArity n m` = "Expected: N arguments but received: M",
`canOnlyExecuteFunction` = "Can only execute function". -/
inductive RuntimeErr where
  | expectedTwoNumbers
  | expectedNumberNegate
  | expectedStringRhs
  | unknownAddType
  | unableToFindKey (key : List Char)
  | expectedArity (arity : Nat) (argc : Nat)
  | canOnlyExecuteFunction
deriving DecidableEq, Repr

/-- vm.rs `CallFrame` (the diagnostic random `color` field is omitted). -/
structure CallFrame where
  function : LFunction
  ip : Nat
  cf_stack_top : Nat

/-- vm.rs `VM` state, extended with the modelled heap, the list of values
printed by `OpCode::Print`, and the messages passed to `runtime_error`. -/
structure VMSt where
  ip : Int
  stack : List (Option Value)
  stack_top : Nat
  table : Table Value
  globals : Table Value
  call_frames : List (Option CallFrame)
  frame_count : Nat
  heap : Heap
  output : List Value
  errors : List RuntimeErr

/-- The VM runs in a state monad over `Res`. -/
abbrev VMM (α : Type) := StateT VMSt Res α

/-- vm.rs `VM::init()`: 512 stack slots, 512 call-frame slots, two tables of
capacity 10, `ip = -1`. -/
def vmInit : VMSt :=
  { ip := -1
    stack := List.replicate 512 none
    stack_top := 0
    table := Table.init 10
    globals := Table.init 10
    call_frames := List.replicate 512 none
    frame_count := 0
    heap := []
    output := []
    errors := [] }

/-- vm.rs `runtime_error(message)`: the message is reported through
`debug::info` (I/O); the model records it. -/
def runtimeError (e : RuntimeErr) : VMM Unit := do
  let st ← get
  set { st with errors := st.errors ++ [e] }

/-- vm.rs `push(value)`: `stack[stack_top] = Some(value); stack_top += 1`
(an index panic past the 512 fixed slots). -/
def vmPush (v : Value) : VMM Unit := do
  let st ← get
  let stack ← liftRes (vecSet st.stack st.stack_top (some v))
  set { st with stack := stack, stack_top := st.stack_top + 1 }

/-- vm.rs `pop()`: decrement (usize underflow panics), read, unwrap the
slot; the slot itself is not cleared. -/
def vmPop : VMM Value := do
  let st ← get
  let top ← liftRes (subChecked st.stack_top 1)
  set { st with stack_top := top }
  let slot ← liftRes (vecGet st.stack top)
  liftUnwrap slot

/-- vm.rs `peek(distance)`: `stack[stack_top - 1 - distance]`, unwrapped. -/
def vmPeek (distance : Nat) : VMM Value := do
  let st ← get
  let idx ← liftRes (subChecked st.stack_top (1 + distance))
  let slot ← liftRes (vecGet st.stack idx)
  liftUnwrap slot

/-- vm.rs `is_falsey(value)`: `Missing` (nil) or `Boolean(false)`. -/
def isFalsey (value : Value) : Bool :=
  value.isMissing || (value.isBoolean && !value.intoBool)

/-- vm.rs `READ_BYTE!`: `code.get(ip).unwrap()`, then `ip += 1`. -/
def readByte (frame : CallFrame) : VMM (Nat × CallFrame) := do
  let c ← liftRes (vecGet frame.function.chunk.code frame.ip)
  pure (c, { frame with ip := frame.ip + 1 })

/-- vm.rs `READ_CONSTANT!`: a one-byte index, then
`constants.values.get(index)` (an `Option` unwrapped at each use site). -/
def readConstant (frame : CallFrame) : VMM (Option Value × CallFrame) := do
  let p ← readByte frame
  pure (frame.function.chunk.constants.get? p.1, p.2)

/-- vm.rs `READ_CONSTANT_LONG!`: eight bytes, native-endian (little-endian
on the reference platform), then `constants.values.get(index)`. -/
def readConstantLong (frame : CallFrame) : VMM (Option Value × CallFrame) := do
  let p1 ← readByte frame
  let p2 ← readByte p1.2
  let p3 ← readByte p2.2
  let p4 ← readByte p3.2
  let p5 ← readByte p4.2
  let p6 ← readByte p5.2
  let p7 ← readByte p6.2
  let p8 ← readByte p7.2
  let index := le64Decode [p1.1, p2.1, p3.1, p4.1, p5.1, p6.1, p7.1, p8.1]
  pure (frame.function.chunk.constants.get? index, p8.2)

/-- vm.rs `BINARY_OP!`: both operands must be numbers, else a runtime error
halts the VM; pop right then left and push the combined value. -/
def binaryOpResult (op : Int → Int → Value) :
    VMM (Option InterpretResult) := do
  let peek0 ← vmPeek 0
  let peek1 ← vmPeek 1
  if !peek0.isNumber || !peek1.isNumber then do
    runtimeError RuntimeErr.expectedTwoNumbers
    pure (some InterpretResult.InterpretRuntimeError)
  else do
    let rightVal ← vmPop
    let leftVal ← vmPop
    vmPush (op leftVal.intoF64 rightVal.intoF64)
    pure none

/-- vm.rs `concat()`: pop the two string values, allocate a buffer, copy
both payloads, hash the combined bytes, and build the new string value. -/
def vmConcat : VMM Value := do
  let secondV ← vmPop
  let second ← liftRes secondV.intoFatPointer
  let firstV ← vmPop
  let first ← liftRes firstV.intoFatPointer
  let st ← get
  let content := readString st.heap first.ptr first.size ++
    readString st.heap second.ptr second.size
  let p := heapAlloc st.heap content
  set { st with heap := p.2 }
  let hashValue := fnvHash (readString p.2 p.1 (first.size + second.size))
  pure (Value.VObj (Obj.Str
    { ptr := p.1, size := first.size + second.size, hash := hashValue }))

/-- vm.rs `create_call_frame(function, arg_count)`: window base
`stack_top - arg_count - 1` (slot zero is the callee itself) unless the
stack is empty; store the frame and bump `frame_count`. -/
def createCallFrame (function : LFunction) (argCount : Nat) : VMM Unit := do
  let st ← get
  let cfStackTop ←
    if st.stack_top > 0 then liftRes (subChecked st.stack_top (argCount + 1))
    else pure 0
  let callFrame : CallFrame :=
    { function := function, ip := 0, cf_stack_top := cfStackTop }
  let frames ← liftRes (vecSet st.call_frames st.frame_count (some callFrame))
  set { st with call_frames := frames, frame_count := st.frame_count + 1 }

/-- vm.rs `execute_function(callee, arg_count)`: on an arity mismatch the
error message is reported, and then the call frame is pushed anyway and
`true` is returned — the mismatch does not stop the call.  Only a
non-callable callee returns `false`. -/
def executeFunction (callee : Value) (argCount : Nat) : VMM Bool := do
  if callee.isObj then do
    let obj ← liftRes callee.intoObj
    match obj with
    | Obj.Fun function => do
        if function.arity ≠ argCount then
          runtimeError (RuntimeErr.expectedArity function.arity argCount)
        else pure ()
        createCallFrame function argCount
        pure true
    | Obj.Closure o => do
        let function ← liftRes o.intoFunction
        if function.arity ≠ argCount then
          runtimeError (RuntimeErr.expectedArity function.arity argCount)
        else pure ()
        createCallFrame function argCount
        pure true
    | _ => do
        runtimeError RuntimeErr.canOnlyExecuteFunction
        pure false
  else do
    runtimeError RuntimeErr.canOnlyExecuteFunction
    pure false

/-- vm.rs `return_op(current_frame)`: pop the result, drop the frame; when
frames remain, truncate the stack to the outgoing frame's base and push the
result. -/
def returnOp (frame : CallFrame) : VMM Bool := do
  let result ← vmPop
  let st ← get
  let fc ← liftRes (subChecked st.frame_count 1)
  set { st with frame_count := fc }
  if fc == 0 then pure true
  else do
    let st ← get
    set { st with stack_top := frame.cf_stack_top }
    vmPush result
    pure false

/-- vm.rs `update_offset(current_frame, add)`: read the two offset bytes as
`u16::from_ne_bytes([code[ip + 1], code[ip]])` (big-endian on the wire,
matching the emitter), advance past them, then add or subtract. -/
def updateOffset (frame : CallFrame) (add : Bool) : VMM CallFrame := do
  let code := frame.function.chunk.code
  let b1 ← liftRes (vecGet code (frame.ip + 1))
  let b0 ← liftRes (vecGet code frame.ip)
  let ip := frame.ip + 2
  let offset := b1 + 256 * b0
  if add then pure { frame with ip := ip + offset }
  else do
    let ip2 ← liftRes (subChecked ip offset)
    pure { frame with ip := ip2 }

/-- vm.rs `set_global_variable(variable_name)`: insert reports whether the
key already existed; a fresh key means the assignment target was undefined,
so the just-created entry is deleted again and the VM halts with the
"Unable to find value for key" error. -/
def setGlobalVariable (variableName : FatPointer) :
    VMM (Option InterpretResult) := do
  let value ← vmPeek 0
  let st ← get
  let r ← liftLoop (Table.insert st.globals variableName value)
  set { st with globals := r.2 }
  if !r.1 then do
    let st ← get
    let d ← liftLoop (Table.delete st.globals variableName)
    set { st with globals := d.2 }
    let st ← get
    runtimeError (RuntimeErr.unableToFindKey
      (readString st.heap variableName.ptr variableName.size))
    pure (some InterpretResult.InterpretRuntimeError)
  else pure none

/-- vm.rs `push_obj_value_to_stack(variable_name)`: look the global up
(`Table::get` panics via `unwrap` when the key is absent); each match arm
pushes the value; the `None` arm reports "Unable to find value for key". -/
def pushObjValueToStack (variableName : FatPointer) :
    VMM (Option InterpretResult) := do
  let st ← get
  let value ← liftRes (st.globals.get variableName)
  match value with
  | some v => do
      vmPush v
      pure none
  | none => do
      let st ← get
      runtimeError (RuntimeErr.unableToFindKey
        (readString st.heap variableName.ptr variableName.size))
      pure (some InterpretResult.InterpretRuntimeError)

/-- chunk.rs `handle_instruction(instruction, offset)`: the disassembler
step invoked on every executed instruction by `print_debug_info`; its output
is I/O, but its operand reads unwrap (`code.get(..).unwrap()`,
`ValueArray::get`'s unwrap) and can panic, so they are modelled. -/
def Chunk.handleInstruction (c : Chunk) (instruction : Nat) (offset : Nat) :
    Res Nat :=
  match OpCode.ofByte instruction with
  | some op =>
      match op with
      | OpCode.Jump => do
          let _ ← vecGet c.code (offset + 2)
          let _ ← vecGet c.code (offset + 1)
          Res.ok (offset + 3)
      | OpCode.JumpIfFalse => do
          let _ ← vecGet c.code (offset + 2)
          let _ ← vecGet c.code (offset + 1)
          Res.ok (offset + 3)
      | OpCode.Loop => do
          let _ ← vecGet c.code (offset + 2)
          let _ ← vecGet c.code (offset + 1)
          Res.ok (offset + 3)
      | OpCode.Constant => do
          let ci ← vecGet c.code (offset + 1)
          let _ ← vecGet c.constants ci
          Res.ok (offset + 2)
      | OpCode.ConstantLong => do
          let b1 ← vecGet c.code (offset + 1)
          let b2 ← vecGet c.code (offset + 2)
          let b3 ← vecGet c.code (offset + 3)
          let b4 ← vecGet c.code (offset + 4)
          let b5 ← vecGet c.code (offset + 5)
          let b6 ← vecGet c.code (offset + 6)
          let b7 ← vecGet c.code (offset + 7)
          let b8 ← vecGet c.code (offset + 8)
          let _ ← vecGet c.constants (le64Decode [b1, b2, b3, b4, b5, b6, b7, b8])
          Res.ok (offset + 9)
      | OpCode.SetUpValue => Res.ok (offset + 1)
      | OpCode.GetUpValue => Res.ok (offset + 1)
      | _ => Res.ok (offset + 1)
  | none => Res.ok (offset + 1)

/-- vm.rs `print_debug_info`: prints the frame name and, for recognised
opcodes, disassembles the instruction (whose operand reads can panic). -/
def vmPrintDebugInfo (frame : CallFrame) (instruction : Nat) : VMM Unit := do
  match OpCode.ofByte instruction with
  | none => pure ()
  | some _ => do
      let ipPrev ← liftRes (subChecked frame.ip 1)
      let _ ← liftRes (frame.function.chunk.handleInstruction instruction ipPrev)
      pure ()

/-- vm.rs `run()`: the fetch-decode-execute loop.  Each opcode arm follows
the source; the final `_` arm (an unrecognised byte, `SetUpValue`, or
`GetUpValue`) stores the frame back and stops the VM with `InterpretOk`. -/
def run : Nat → CallFrame → VMM InterpretResult
  | 0, _ => cmHang
  | fuel + 1, frame0 => do
      let pb ← readByte frame0
      let instruction := pb.1
      let frame := pb.2
      vmPrintDebugInfo frame instruction
      match OpCode.ofByte instruction with
      | some OpCode.Return => do
          let isLast ← returnOp frame
          if isLast then pure InterpretResult.InterpretOk
          else do
            let st ← get
            let fidx ← liftRes (subChecked st.frame_count 1)
            let slot ← liftRes (vecGet st.call_frames fidx)
            let newFrame ← liftUnwrap slot
            run fuel newFrame
      | some OpCode.Negate => do
          let value ← vmPeek 0
          if !value.isNumber then do
            runtimeError RuntimeErr.expectedNumberNegate
            pure InterpretResult.InterpretRuntimeError
          else do
            let popVal ← vmPop
            vmPush (Value.Number (-1 * popVal.intoF64))
            run fuel frame
      | some OpCode.Add => do
          let value ← vmPeek 0
          match value with
          | Value.VObj obj =>
              if obj.isString then do
                let p1 ← vmPeek 1
                if p1.isObjString then do
                  let combined ← vmConcat
                  vmPush combined
                  run fuel frame
                else run fuel frame
              else do
                runtimeError RuntimeErr.expectedStringRhs
                pure InterpretResult.InterpretRuntimeError
          | Value.Number _ => do
              let r ← binaryOpResult fun a b => Value.Number (a + b)
              match r with
              | some res => pure res
              | none => run fuel frame
          | _ => do
              runtimeError RuntimeErr.unknownAddType
              pure InterpretResult.InterpretOk
      | some OpCode.Multiply => do
          let r ← binaryOpResult fun a b => Value.Number (a * b)
          match r with
          | some res => pure res
          | none => run fuel frame
      | some OpCode.Subtract => do
          let r ← binaryOpResult fun a b => Value.Number (a - b)
          match r with
          | some res => pure res
          | none => run fuel frame
      | some OpCode.Divide => do
          let r ← binaryOpResult fun a b => Value.Number (a / b)
          match r with
          | some res => pure res
          | none => run fuel frame
      | some OpCode.Greater => do
          let r ← binaryOpResult fun a b => Value.Boolean (decide (a > b))
          match r with
          | some res => pure res
          | none => run fuel frame
      | some OpCode.Less => do
          let r ← binaryOpResult fun a b => Value.Boolean (decide (a < b))
          match r with
          | some res => pure res
          | none => run fuel frame
      | some OpCode.Equal => do
          let left ← vmPop
          let right ← vmPop
          vmPush (Value.Boolean (valueEq left right))
          run fuel frame
      | some OpCode.Constant => do
          let p ← readConstant frame
          let constant ← liftUnwrap p.1
          vmPush constant
          run fuel p.2
      | some OpCode.False => do
          vmPush (Value.Boolean false)
          run fuel frame
      | some OpCode.True => do
          vmPush (Value.Boolean true)
          run fuel frame
      | some OpCode.Nil => do
          vmPush Value.Missing
          run fuel frame
      | some OpCode.Not => do
          let value ← vmPop
          vmPush (Value.Boolean (isFalsey value))
          run fuel frame
      | some OpCode.ConstantLong => do
          let p ← readConstantLong frame
          let constant ← liftUnwrap p.1
          vmPush constant
          run fuel p.2
      | some OpCode.DefineGlobalVariable => do
          let p ← readConstant frame
          let constant ← liftUnwrap p.1
          let variableName ← liftRes constant.intoFatPointer
          let value ← vmPeek 0
          let st ← get
          let r ← liftLoop (Table.insert st.globals variableName value)
          set { st with globals := r.2 }
          let _ ← vmPop
          run fuel p.2
      | some OpCode.Pop => do
          let _ ← vmPop
          run fuel frame
      | some OpCode.Closure => do
          let p ← readConstant frame
          let constant ← liftUnwrap p.1
          let functionObj ← liftRes constant.intoObj
          vmPush (Value.VObj (Obj.Closure functionObj))
          run fuel p.2
      | some OpCode.Call => do
          let pa ← readByte frame
          let argCount := pa.1
          let oldFrame := pa.2
          let callee ← vmPeek argCount
          let ok ← executeFunction callee argCount
          if !ok then pure InterpretResult.InterpretRuntimeError
          else do
            let st ← get
            let fidx ← liftRes (subChecked st.frame_count 1)
            let slot ← liftRes (vecGet st.call_frames fidx)
            let newFrame ← liftUnwrap slot
            let st ← get
            let fidx2 ← liftRes (subChecked st.frame_count 2)
            let frames ← liftRes (vecSet st.call_frames fidx2 (some oldFrame))
            set { st with call_frames := frames }
            run fuel newFrame
      | some OpCode.JumpIfFalse => do
          let v ← vmPeek 0
          if isFalsey v then do
            let frame2 ← updateOffset frame true
            run fuel frame2
          else run fuel { frame with ip := frame.ip + 2 }
      | some OpCode.Jump => do
          let frame2 ← updateOffset frame true
          run fuel frame2
      | some OpCode.Loop => do
          let frame2 ← updateOffset frame false
          run fuel frame2
      | some OpCode.GetLocalVariable => do
          let pa ← readByte frame
          let st ← get
          let slot ← liftRes (vecGet st.stack (pa.2.cf_stack_top + pa.1))
          let v ← liftUnwrap slot
          vmPush v
          run fuel pa.2
      | some OpCode.SetLocalVariable => do
          let pa ← readByte frame
          let v ← vmPeek 0
          let st ← get
          let stack ← liftRes
            (vecSet st.stack (pa.2.cf_stack_top + pa.1) (some v))
          set { st with stack := stack }
          run fuel pa.2
      | some OpCode.GetGlobalVariable => do
          let p ← readConstant frame
          let constant ← liftUnwrap p.1
          let variableName ← liftRes constant.intoFatPointer
          let r ← pushObjValueToStack variableName
          match r with
          | some res => pure res
          | none => run fuel p.2
      | some OpCode.SetGlobalVariable => do
          let p ← readConstant frame
          let constant ← liftUnwrap p.1
          let variableName ← liftRes constant.intoFatPointer
          let r ← setGlobalVariable variableName
          match r with
          | some res => pure res
          | none => run fuel p.2
      | some OpCode.Print => do
          let v ← vmPop
          let st ← get
          set { st with output := st.output ++ [v] }
          run fuel frame
      | _ => do
          let st ← get
          let fidx ← liftRes (subChecked st.frame_count 1)
          let frames ← liftRes (vecSet st.call_frames fidx (some frame))
          set { st with call_frames := frames }
          pure InterpretResult.InterpretOk

/-- The first line of vm.rs `run()`:
`call_frames[frame_count - 1].as_ref().unwrap().clone()`. -/
def runStart (fuel : Nat) : VMM InterpretResult := do
  let st ← get
  let fidx ← liftRes (subChecked st.frame_count 1)
  let slot ← liftRes (vecGet st.call_frames fidx)
  let frame ← liftUnwrap slot
  run fuel frame

/-- vm.rs `interpret(source)`: build the scanner and compiler over the VM's
shared intern table, compile, bail out on a compile error; otherwise wrap
the script function in a closure on the stack, push the root call frame,
and run (the `metrics::record` timers are I/O and not modelled). -/
def vmInterpret (fuel : Nat) (source : List Char) : VMM InterpretResult := do
  let st ← get
  let scanner := Scanner.init 0 0 source
  let cst := compilerInit scanner st.table st.heap
  let r ← liftRes ((compile fuel source).run cst)
  let hadError := r.1.1
  let functionObj := r.1.2
  set { st with table := r.2.table, heap := r.2.heap }
  if hadError then pure InterpretResult.InterpretCompileError
  else do
    let st ← get
    set { st with ip := 0 }
    vmPush (Value.VObj (Obj.Closure functionObj))
    let function ← liftRes functionObj.intoFunction
    createCallFrame function 0
    runStart fuel

/-- Top-level entry: run `interpret` from `VM::init()` on a source text. -/
def interpret (fuel : Nat) (source : List Char) :
    Res (InterpretResult × VMSt) :=
  (vmInterpret fuel source).run vmInit

/-! ### Concrete programs and states used by the claims -/

/-- The division program of claim C2; its second token is a `/` not
followed by a second `/`. -/
def slashSource : List Char := "1/2".toList

/-- The scanner right after `scan_token` returned the `1` of `1/2`:
`start = 0`, `current = 1` (this is the state `scan_token` leaves behind,
see the first conjunct of the C2 theorem). -/
def slashScanner1 : Scanner :=
  { start := 0, current := 1, line := 1, chars := slashSource
    total_size := 3 }

/-- A source that ends with a digit followed by a final dot (claim C5). -/
def dotSource : List Char := "1.".toList

/-- A source whose last character is `/` (claim C5). -/
def trailingSlashSource : List Char := "2/".toList

/-- The end-to-end program of claim C1. -/
def fibSource : List Char :=
  "fun fib(n){ if (n<2) return n; return fib(n-1)+fib(n-2);} print fib(10);".toList

/-- The interned fat pointer of the string `fib` (heap cell 0, length 3,
FNV-1a hash of `fib`). -/
def fibName : FatPointer := { ptr := 0, size := 3, hash := 3169096246 }

/-- The function object for the body of `fib`, exactly as the embedded
compiler produces it: arity 1; bytecode GetLocal 1, Constant 0 (`2`), Less,
JumpIfFalse 7, Pop, GetLocal 1, Return, Jump 1, Pop, GetGlobal 1, GetLocal
1, Constant 2 (`1`), Subtract, Call 1, GetGlobal 3, GetLocal 1, Constant 4
(`2`), Subtract, Call 1, Add, Return, Nil, Return.  Obtained by evaluating
`compile 300 fibSource` from `compilerInit` (cf. `fibMainFunction`). -/
def fibInnerFunction : LFunction :=
  LFunction.mk 1
    (Chunk.mk
      [22, 1, 2, 0, 15, 23, 0, 7, 17, 22, 1, 1, 24, 0, 1, 17, 20, 1, 22, 1,
        2, 2, 6, 26, 1, 20, 3, 22, 1, 2, 4, 6, 26, 1, 5, 1, 17, 9, 1]
      [Value.Number 2, Value.VObj (Obj.Str fibName), Value.Number 1,
        Value.VObj (Obj.Str fibName), Value.Number 2]
      (List.replicate 39 1))
    (some fibName) FunctionType.Closure

/-- The script function `compile 300 fibSource` produces (the result of
evaluating the embedded compiler on `fibSource`; the compile also reports
`had_error = false`).  Its bytecode is `Closure` (27) with constant
operand 1, then `0, 255, 0, 255`: two `(is_local, index)` operand pairs,
one per upvalue descriptor recorded in the function's context — the two
references to the global `fib` inside the body each recorded a bogus
`(index = 255, is_local = false)` descriptor via
`recursive_resolve_up_value` — then `DefineGlobal 0`, `GetGlobal 2`,
`Constant 3` (the number 10), `Call 1`, `Print`, `Nil`, `Return`. -/
def fibMainFunction : LFunction :=
  LFunction.mk 0
    (Chunk.mk
      [27, 1, 0, 255, 0, 255, 18, 0, 20, 2, 2, 3, 26, 1, 16, 9, 1]
      [Value.VObj (Obj.Str fibName), Value.VObj (Obj.Fun fibInnerFunction),
        Value.VObj (Obj.Str fibName), Value.Number 10]
      (List.replicate 17 1))
    none FunctionType.Script

/-- The heap after compiling `fibSource`: one interned cell, `fib`. -/
def fibHeap : Heap := [['f', 'i', 'b']]

/-- The tail of vm.rs `interpret` after a successful compile, applied to
the script function of `fibSource`: set `ip = 0`, push the closure, push
the root call frame, and enter `run` (fuel 50 is ample for the two
instructions executed). -/
def fibVmRun : Res (InterpretResult × VMSt) :=
  (((do
      let st ← get
      set { st with ip := 0 }
      vmPush (Value.VObj (Obj.Closure (Obj.Fun fibMainFunction)))
      let function ← liftRes (Obj.Fun fibMainFunction).intoFunction
      createCallFrame function 0
      runStart 50) : VMM InterpretResult)).run
    { vmInit with heap := fibHeap }

/-- A unary function literal used by the C3 witness. -/
def unaryFunction : LFunction :=
  LFunction.mk 1 (Chunk.mk [] [] []) none FunctionType.Function

/-- A table at 70% prospective load: capacity 10, 7 live entries plus the
incoming one make `(7+1)/10` exactly 0 under integer division (claim C7). -/
def c7Table : Table Nat :=
  { entries :=
      (List.range 7).map (fun i =>
        Entry.Occupied { ptr := i, size := 1, hash := i } i) ++
      List.replicate 3 Entry.Vacant
    capacity := 10, size := 7, load_factor := 70 }

/-- A table holding one live entry but an inflated size counter 9 (as after
eight previous inserts of the same key at capacity 10): exercises the size
reset on growth (claim C10). -/
def c10Table : Table Nat :=
  { entries :=
      Entry.Occupied { ptr := 0, size := 1, hash := 0 } 5 ::
      List.replicate 9 Entry.Vacant
    capacity := 10, size := 9, load_factor := 70 }

/-- The key occupying slot 0 of `c10Table`. -/
def c10Key : FatPointer := { ptr := 0, size := 1, hash := 0 }

/-! ### Probe-reachability predicates over table entry arrays

Decidable predicates used to state the hash-table claims: whether a raw
pointer is held by some occupied entry, and the linear-probe chain
invariant every table reachable by `insert`-only traffic satisfies — each
occupied entry is preceded, along the probe path from its hash home, only
by occupied entries with a different raw pointer, so the `find_bucket`
probe walking that path reaches it. -/

/-- The slot holds an `Occupied` entry. -/
def entryOccupiedB {T : Type} : Entry T → Bool
  | Entry.Occupied _ _ => true
  | _ => false

/-- Some occupied entry carries this key's raw pointer (`memory::eq` is
pointer identity, the equality `find_bucket` probes by). -/
def hasPtrB {T : Type} (entries : List (Entry T)) (key : FatPointer) : Bool :=
  entries.any fun e => match e with
    | Entry.Occupied k _ => k.ptr == key.ptr
    | _ => false

/-- The slot blocks a probe for pointer `p`: occupied with another pointer. -/
def blocksB {T : Type} (e : Entry T) (p : Nat) : Bool :=
  match e with
  | Entry.Occupied k2 _ => !(k2.ptr == p)
  | _ => false

/-- Chain condition at one slot: when it holds an occupied entry, every
slot strictly between the entry's hash home and it (along the wrapping
probe path) blocks a probe for the entry's pointer. -/
def chainAtB {T : Type} (entries : List (Entry T)) (cap j : Nat) : Bool :=
  match entries.getD j Entry.Vacant with
  | Entry.Occupied k _ =>
      (List.range ((j + cap - k.hash % cap) % cap)).all fun m =>
        blocksB (entries.getD ((k.hash % cap + m) % cap) Entry.Vacant) k.ptr
  | _ => true

/-- The chain invariant over all slots. -/
def chainInvB {T : Type} (entries : List (Entry T)) (cap : Nat) : Bool :=
  (List.range cap).all (chainAtB entries cap)

/-- Every occupied entry sharing the key's raw pointer also agrees on the
hash (true of interned fat pointers: one pointer, one payload, one hash). -/
def ptrHashConsistB {T : Type} (entries : List (Entry T))
    (key : FatPointer) : Bool :=
  entries.all fun e => match e with
    | Entry.Occupied k _ => !(k.ptr == key.ptr) || (k.hash == key.hash)
    | _ => true

/-- A three-slot table holding one entry under `c10Key` (claim C6's
witness). -/
def c6Table : Table Nat :=
  { entries := [Entry.Occupied c10Key 5, Entry.Vacant, Entry.Vacant]
    capacity := 3, size := 1, load_factor := 70 }

/-- A VM state with one pushed value, used by the C4 witness. -/
def c4State : VMSt :=
  { vmInit with stack := vmInit.stack.set 0 (some (Value.Number 7))
                stack_top := 1 }

/-! ### The intern operation of compiler.rs string()/create_new_string()

`internOp` is the heap/intern-table effect of compiler.rs `string(can_assign,
emit_constant)` (cf. `stringFn`): hash the literal's bytes, probe the intern
table by payload with `find_entry_with_value`, reuse the found fat pointer,
and otherwise allocate a fresh cell, copy the payload, and `insert` the new
fat pointer with marker value `Missing` — the chunk-emission half of
`string()` does not touch the heap or the table.  `internFold` is the run of
the compiler over a program restricted to its string-literal events, in
source order. -/

def internOp (heap : Heap) (t : Table Value) (s : List Char) :
    Option (FatPointer × Heap × Table Value) :=
  match Table.findEntryWithValue heap t s (fnvHash s) with
  | none => none
  | some (some existing) => some (existing, heap, t)
  | some none =>
      let p := heapAlloc heap s
      let fatPtr : FatPointer :=
        { ptr := p.1, size := s.length, hash := fnvHash s }
      match Table.insert t fatPtr Value.Missing with
      | none => none
      | some r => some (fatPtr, p.2, r.2)

def internFold : Heap → Table Value → List (List Char) →
    Option (Heap × Table Value × List FatPointer)
  | heap, t, [] => some (heap, t, [])
  | heap, t, s :: rest =>
      match internOp heap t s with
      | none => none
      | some (fp, heap2, t2) =>
          match internFold heap2 t2 rest with
          | none => none
          | some (heap3, t3, fps) => some (heap3, t3, fp :: fps)

def internedAs (heap : Heap) (t : Table Value) (s : List Char)
    (fp : FatPointer) : Prop :=
  ∃ j v, j < t.capacity ∧
    t.entries.getD j Entry.Vacant = Entry.Occupied fp v ∧
    readString heap fp.ptr fp.size = s

structure InternInv (heap : Heap) (t : Table Value) : Prop where
  hlen : t.entries.length = t.capacity
  hocc : Table.countOccupied t.entries < t.capacity
  hsize : t.size = Table.countOccupied t.entries
  hlf : t.load_factor = 70
  hnotomb : ∀ e ∈ t.entries, e ≠ Entry.TombStone
  hkeys : ∀ j k v, j < t.capacity →
    t.entries.getD j Entry.Vacant = Entry.Occupied k v →
    k.ptr < heap.length ∧ k.size = (heap.getD k.ptr []).length ∧
    k.hash = fnvHash (readString heap k.ptr k.size)
  huniq : ∀ j1 j2 k1 v1 k2 v2, j1 < t.capacity → j2 < t.capacity →
    t.entries.getD j1 Entry.Vacant = Entry.Occupied k1 v1 →
    t.entries.getD j2 Entry.Vacant = Entry.Occupied k2 v2 →
    readString heap k1.ptr k1.size = readString heap k2.ptr k2.size →
    j1 = j2
  hchain : ∀ j k v, j < t.capacity →
    t.entries.getD j Entry.Vacant = Entry.Occupied k v →
    ∀ m, m < (j + t.capacity - k.hash % t.capacity) % t.capacity →
      ∃ k2 v2,
        t.entries.getD ((k.hash % t.capacity + m) % t.capacity)
          Entry.Vacant = Entry.Occupied k2 v2 ∧
        readString heap k2.ptr k2.size ≠ readString heap k.ptr k.size

/-- The default fat pointer used to read an element of a result list. -/
def fpDefault : FatPointer := { ptr := 0, size := 0, hash := 0 }

/-! ## Theorems -/

@[simp] theorem Res.bind_ok {α β : Type} (a : α) (f : α → Res β) :
    Res.bind (Res.ok a) f = f a := rfl

@[simp] theorem Res.bind_panic {α β : Type} (f : α → Res β) :
    Res.bind Res.panic f = Res.panic := rfl

@[simp] theorem Res.bind_hang {α β : Type} (f : α → Res β) :
    Res.bind Res.hang f = Res.hang := rfl

/-- On the scanner state after the `1` of `1/2`, one pass of the
`skip_whitespace` loop body changes nothing: the next character is `/`, the
one after is `2`, and the `'/'` arm without a comment neither advances nor
returns. -/
theorem skipWhitespace_slash_step (fuel : Nat) :
    Scanner.skipWhitespace (fuel + 1) slashScanner1 =
      Scanner.skipWhitespace fuel slashScanner1 := rfl

/-- The `skip_whitespace` loop on that state never terminates. -/
theorem skipWhitespace_slash_hang :
    ∀ fuel, Scanner.skipWhitespace fuel slashScanner1 = Res.hang := by
  intro fuel
  induction fuel with
  | zero => rfl
  | succ n ih => rw [skipWhitespace_slash_step n]; exact ih

/-- Claim C2: the spec says that when the next unconsumed character after
skipping whitespace is a single `/` not followed by a second `/`, like the
second token of `1/2`, scan_token() terminates and returns a Slash token.
The code violates this: scanning `1/2` returns the Number token `1` and
leaves the scanner before the `/`; from there scan_token() calls
skip_whitespace(), whose `'/'` arm, when peek_next() is not `/`, neither
advances nor returns, so the loop runs forever on unchanged state — for
every fuel bound the model yields divergence, never a Slash token. -/
theorem claim_C2_slash_scan_diverges :
    Scanner.scanToken 100 (Scanner.init 0 3 slashSource) =
      Res.ok ({ token_type := TokenType.Number, start := 0, length := 1
                line := 1 }, slashScanner1) ∧
    ∀ fuel, Scanner.scanToken fuel slashScanner1 = Res.hang := by
  refine ⟨rfl, fun fuel => ?_⟩
  show Res.bind (Scanner.skipWhitespace fuel slashScanner1) _ = Res.hang
  rw [skipWhitespace_slash_hang fuel]
  rfl

/-- Claim C5: the spec says scan_token() completes without out-of-bounds
access or panic on every input, in particular on a source ending in a digit
followed by a final dot and on a source whose last character is `/`.  The
code violates this: on `1.` number_token() calls peek_next(), which guards
only against `current == total_size` and then reads `chars[current + 1]`
past the end of the buffer; on `2/` the same read happens inside
skip_whitespace() while scanning the second token.  Both panic. -/
theorem claim_C5_scan_token_panics :
    Scanner.scanToken 100 (Scanner.init 0 2 dotSource) = Res.panic ∧
    (Scanner.scanToken 100 (Scanner.init 0 2 trailingSlashSource)).bind
      (fun p => Scanner.scanToken 100 p.2) = Res.panic := by
  exact ⟨rfl, rfl⟩

@[simp] theorem Chunk.code_mk (a : List Nat) (b : List Value)
    (c : List Nat) : (Chunk.mk a b c).code = a := rfl

@[simp] theorem Chunk.constants_mk (a : List Nat) (b : List Value)
    (c : List Nat) : (Chunk.mk a b c).constants = b := rfl

@[simp] theorem Chunk.lines_mk (a : List Nat) (b : List Value)
    (c : List Nat) : (Chunk.mk a b c).lines = c := rfl

/-- The code a fold of `write_chunk` over a byte list appends. -/
theorem foldl_writeChunk_code (bs : List Nat) (c : Chunk) (line : Nat) :
    (bs.foldl (fun ch b => ch.writeChunk b line) c).code = c.code ++ bs := by
  induction bs generalizing c with
  | nil => simp
  | cons b rest ih =>
      show (rest.foldl (fun ch b => ch.writeChunk b line)
        (c.writeChunk b line)).code = c.code ++ b :: rest
      rw [ih]
      simp [Chunk.writeChunk]

/-- A fold of `write_chunk` leaves the constant pool unchanged. -/
theorem foldl_writeChunk_constants (bs : List Nat) (c : Chunk) (line : Nat) :
    (bs.foldl (fun ch b => ch.writeChunk b line) c).constants =
      c.constants := by
  induction bs generalizing c with
  | nil => rfl
  | cons b rest ih =>
      show (rest.foldl (fun ch b => ch.writeChunk b line)
        (c.writeChunk b line)).constants = c.constants
      rw [ih]
      rfl

/-- The bytes `write_index` emits: the index itself when it fits one byte,
its eight little-endian bytes otherwise. -/
theorem Chunk.writeIndex_code (c : Chunk) (index line : Nat) :
    (c.writeIndex index line).code =
      c.code ++ (if index ≤ 255 then [index] else le64Bytes index) := by
  unfold Chunk.writeIndex
  by_cases hle : index ≤ 255
  · simp [hle, Chunk.writeChunk]
  · simp [hle, foldl_writeChunk_code]

/-- The constant pool is untouched by `write_index`. -/
theorem Chunk.writeIndex_constants (c : Chunk) (index line : Nat) :
    (c.writeIndex index line).constants = c.constants := by
  unfold Chunk.writeIndex
  by_cases hle : index ≤ 255
  · simp [hle, Chunk.writeChunk]
  · simp [hle, foldl_writeChunk_constants]

/-- The index `write_constant` returns is the pre-append pool length. -/
theorem Chunk.writeConstant_fst (c : Chunk) (v : Value) (line : Nat) :
    (c.writeConstant v line).1 = c.constants.length := by
  simp [Chunk.writeConstant, Chunk.addConstant]

/-- `write_constant` appends its value to the constant pool. -/
theorem Chunk.writeConstant_constants (c : Chunk) (v : Value) (line : Nat) :
    (c.writeConstant v line).2.constants = c.constants ++ [v] := by
  unfold Chunk.writeConstant
  by_cases hle : c.constants.length ≤ 255 <;>
    simp [hle, Chunk.writeIndex_constants, Chunk.writeChunk,
      Chunk.addConstant]

/-- The bytes `write_constant` appends to the code. -/
theorem Chunk.writeConstant_code (c : Chunk) (v : Value) (line : Nat) :
    (c.writeConstant v line).2.code =
      c.code ++ (if c.constants.length ≤ 255
        then [OpCode.Constant.toByte, c.constants.length]
        else OpCode.ConstantLong.toByte :: le64Bytes c.constants.length) := by
  unfold Chunk.writeConstant
  have hidx : (c.addConstant v).1 = c.constants.length := by
    simp [Chunk.addConstant]
  by_cases hle : c.constants.length ≤ 255 <;>
    simp [hidx, hle, Chunk.writeIndex_code, Chunk.writeChunk,
      Chunk.addConstant]

/-- Decoding the eight little-endian bytes of an index below 2^64 yields
the index back. -/
theorem le64_decode_encode (n : Nat) (h : n < 18446744073709551616) :
    le64Decode (le64Bytes n) = n := by
  show ((((((((0 * 256 + n / 72057594037927936 % 256) * 256 +
      n / 281474976710656 % 256) * 256 + n / 1099511627776 % 256) * 256 +
      n / 4294967296 % 256) * 256 + n / 16777216 % 256) * 256 +
      n / 65536 % 256) * 256 + n / 256 % 256) * 256 + n / 1 % 256) = n
  omega

/-- Claim C8: after write_constant(v, line) the opcode written is Constant
with a one-byte operand when the index of the newly added constant is at
most 255 and ConstantLong with an eight-byte native-endian operand
otherwise, and decoding that operand yields an index at which the constant
pool retrieves exactly v — the index returned by add_constant addresses the
value just appended. -/
theorem claim_C8_write_constant_addressable (c : Chunk) (v : Value)
    (line : Nat) (h : c.constants.length < 18446744073709551616) :
    (c.writeConstant v line).1 = c.constants.length ∧
    (c.writeConstant v line).2.constants.get? c.constants.length = some v ∧
    (c.constants.length ≤ 255 →
      (c.writeConstant v line).2.code =
        c.code ++ [OpCode.Constant.toByte, c.constants.length]) ∧
    (255 < c.constants.length →
      (c.writeConstant v line).2.code =
        c.code ++ OpCode.ConstantLong.toByte :: le64Bytes c.constants.length ∧
      le64Decode (le64Bytes c.constants.length) = c.constants.length) := by
  refine ⟨Chunk.writeConstant_fst c v line, ?_, ?_, ?_⟩
  · simp [Chunk.writeConstant_constants, List.get?_eq_getElem?,
      List.getElem?_concat_length]
  · intro hle
    simp [Chunk.writeConstant_code, hle]
  · intro hgt
    have hle : ¬ c.constants.length ≤ 255 := by omega
    exact ⟨by simp [Chunk.writeConstant_code, hle],
      le64_decode_encode _ h⟩

/-- Witness for C8 at the empty chunk. -/
theorem claim_C8_witness :
    (Chunk.mk [] [] []).constants.length < 18446744073709551616 ∧
    (((Chunk.mk [] [] []).writeConstant Value.Missing 7).1 =
        (Chunk.mk [] [] []).constants.length ∧
      ((Chunk.mk [] [] []).writeConstant Value.Missing 7).2.constants.get?
          (Chunk.mk [] [] []).constants.length = some Value.Missing ∧
      ((Chunk.mk [] [] []).constants.length ≤ 255 →
        ((Chunk.mk [] [] []).writeConstant Value.Missing 7).2.code =
          (Chunk.mk [] [] []).code ++
            [OpCode.Constant.toByte, (Chunk.mk [] [] []).constants.length]) ∧
      (255 < (Chunk.mk [] [] []).constants.length →
        ((Chunk.mk [] [] []).writeConstant Value.Missing 7).2.code =
          (Chunk.mk [] [] []).code ++ OpCode.ConstantLong.toByte ::
            le64Bytes (Chunk.mk [] [] []).constants.length ∧
        le64Decode (le64Bytes (Chunk.mk [] [] []).constants.length) =
          (Chunk.mk [] [] []).constants.length)) :=
  ⟨by decide,
   claim_C8_write_constant_addressable (Chunk.mk [] [] []) Value.Missing 7
     (by decide)⟩

/-- Claim C1: refuted by the code.  After the `Closure` instruction of the
compiled fib script the VM does not consume the four upvalue operand bytes
`0, 255, 0, 255` that `Compiler::function` emitted; it decodes the first of
them, `0`, as an opcode, `FromPrimitive::from_u8(0)` yields `None`, and the
catch-all arm stops the run with `InterpretOk`.  The whole execution
therefore ends with the instruction pointer of the root frame at 3 — still
inside the operand bytes, before the `DefineGlobal` at offset 6 — and
prints nothing: the output list is empty instead of containing 55. -/
theorem claim_C1_fib_vm_stops_silently :
    fibVmRun.bind (fun p => Res.ok (p.1, p.2.output,
      (p.2.call_frames.getD 0 none).map CallFrame.ip)) =
    Res.ok (InterpretResult.InterpretOk, [], some 3) := by
  rfl

/-- Claim C3: refuted by the code.  When the callee is a function object
whose arity differs from the argument count, `execute_function` does report
the error "Expected: N arguments but received: M", but then it pushes the
call frame anyway and returns `true`, so the `Call` arm does not halt the
VM and the callee's body runs: the result is `ok (true, st')` with the
frame count incremented, not a halt with `InterpretRuntimeError`. -/
theorem claim_C3_arity_mismatch_still_calls (st : VMSt) (f : LFunction)
    (argc : Nat) (h1 : f.arity ≠ argc)
    (h2 : st.frame_count < st.call_frames.length)
    (h3 : st.stack_top = 0 ∨ argc + 1 ≤ st.stack_top) :
    ∃ st' : VMSt,
      (executeFunction (Value.VObj (Obj.Fun f)) argc).run st =
        Res.ok (true, st') ∧
      st'.frame_count = st.frame_count + 1 ∧
      st'.errors = st.errors ++ [RuntimeErr.expectedArity f.arity argc] := by
  rcases h3 with h3 | h3
  · refine ⟨{ st with
        errors := st.errors ++ [RuntimeErr.expectedArity f.arity argc],
        call_frames := st.call_frames.set st.frame_count
          (some { function := f, ip := 0, cf_stack_top := 0 }),
        frame_count := st.frame_count + 1 }, ?_, rfl, rfl⟩
    simp [executeFunction, createCallFrame, runtimeError, liftRes,
      vecSet, subChecked, h1, h2, h3, Value.isObj, Value.intoObj,
      StateT.run, Bind.bind, StateT.bind, Pure.pure, StateT.pure,
      get, getThe, MonadStateOf.get, StateT.get, set, StateT.set,
      Res.bind_ok]
  · have hpos : 0 < st.stack_top := by omega
    refine ⟨{ st with
        errors := st.errors ++ [RuntimeErr.expectedArity f.arity argc],
        call_frames := st.call_frames.set st.frame_count
          (some { function := f, ip := 0,
                  cf_stack_top := st.stack_top - (argc + 1) }),
        frame_count := st.frame_count + 1 }, ?_, rfl, rfl⟩
    simp [executeFunction, createCallFrame, runtimeError, liftRes,
      vecSet, subChecked, h1, h2, h3, hpos, Value.isObj, Value.intoObj,
      StateT.run, Bind.bind, StateT.bind, Pure.pure, StateT.pure,
      get, getThe, MonadStateOf.get, StateT.get, set, StateT.set,
      Res.bind_ok]

/-- Witness for C3: arity-1 function called with zero arguments from the
initial VM state still yields `ok (true, _)` with a new frame. -/
theorem claim_C3_witness :
    unaryFunction.arity ≠ 0 ∧ vmInit.frame_count < vmInit.call_frames.length ∧
    (vmInit.stack_top = 0 ∨ 0 + 1 ≤ vmInit.stack_top) ∧
    ∃ st' : VMSt,
      (executeFunction (Value.VObj (Obj.Fun unaryFunction)) 0).run vmInit =
        Res.ok (true, st') ∧
      st'.frame_count = vmInit.frame_count + 1 ∧
      st'.errors = vmInit.errors ++
        [RuntimeErr.expectedArity unaryFunction.arity 0] :=
  ⟨by decide, by decide, Or.inl (by decide),
    claim_C3_arity_mismatch_still_calls vmInit unaryFunction 0
      (by decide) (by decide) (Or.inl (by decide))⟩

/-- Counterexample to claim C7 as stated: at capacity 10 with 7 live
entries the prospective load factor is exactly 80% — `(7+1)/10 × 100 > 70`
under exact rational arithmetic — yet `(7+1)/10` is 0 under the code's
integer division, the condition `0 > 70` is false, and `ensure_capacity`
does not grow the table. -/
theorem claim_C7_counterexample :
    (c7Table.size + 1) * 100 > c7Table.load_factor * c7Table.capacity ∧
    Table.ensureCapacity c7Table = some c7Table := by
  decide

/-- Claim C7 (amended): under the code's integer division the growth
condition `(size+1)/capacity × 100 > 70` holds exactly when
`capacity ≤ size + 1` — a prospective load factor of 100%, not 70% — and
when it holds the capacity after growth is `2·old_capacity + 1` (no growth
otherwise). -/
theorem claim_C7_growth_integer_threshold {T : Type} (t : Table T)
    (hc : 0 < t.capacity) (hlf : t.load_factor = 70) :
    ((t.size + 1) / t.capacity * 100 > t.load_factor ↔
      t.capacity ≤ t.size + 1) ∧
    (t.size + 1 < t.capacity → Table.ensureCapacity t = some t) ∧
    (t.capacity ≤ t.size + 1 →
      (Table.ensureCapacity t).map Table.capacity =
        (Table.ensureCapacity t).map fun _ => 2 * t.capacity + 1) := by
  have hiff : (t.size + 1) / t.capacity * 100 > t.load_factor ↔
      t.capacity ≤ t.size + 1 := by
    rw [hlf]
    constructor
    · intro h
      by_contra hlt
      push_neg at hlt
      rw [Nat.div_eq_of_lt hlt] at h
      omega
    · intro h
      have h1 : 1 ≤ (t.size + 1) / t.capacity :=
        (Nat.one_le_div_iff hc).2 h
      omega
  refine ⟨hiff, ?_, ?_⟩
  · intro hlt
    unfold Table.ensureCapacity
    rw [if_neg]
    intro hcond
    have := hiff.1 hcond
    omega
  · intro hle
    have hcond : (t.size + 1) / t.capacity * 100 > t.load_factor :=
      hiff.2 hle
    simp only [Table.ensureCapacity, if_pos hcond]
    cases hfold : t.entries.foldl (Table.rehashStep (t.capacity * 2 + 1))
        (some (List.replicate (t.capacity * 2 + 1) Entry.Vacant, 0)) with
    | none => rfl
    | some p =>
        simp
        omega

/-- Witness for C7 at `c7Table`. -/
theorem claim_C7_witness :
    0 < c7Table.capacity ∧ c7Table.load_factor = 70 ∧
    (((c7Table.size + 1) / c7Table.capacity * 100 > c7Table.load_factor ↔
        c7Table.capacity ≤ c7Table.size + 1) ∧
      (c7Table.size + 1 < c7Table.capacity →
        Table.ensureCapacity c7Table = some c7Table) ∧
      (c7Table.capacity ≤ c7Table.size + 1 →
        (Table.ensureCapacity c7Table).map Table.capacity =
          (Table.ensureCapacity c7Table).map fun _ =>
            2 * c7Table.capacity + 1)) :=
  ⟨by decide, by decide,
    claim_C7_growth_integer_threshold c7Table (by decide) (by decide)⟩

/-- Counterexample to claim C10 as stated: `c10Table` holds one live entry
under a size counter of 9 (eight earlier same-key re-inserts); the next
insert of that same key first triggers growth — which rehashes the single
occupied entry and resets `size` to 1 — and then bumps it once, ending at
size 2.  The insert thus does not increment `size` by exactly one (9 to 2),
and `size` does not equal the number of inserts since the last growth
(that count is 1).  The capacity going from 10 to 21 on a same-key
re-insert does confirm the claim's growth-trigger part. -/
theorem claim_C10_counterexample :
    c10Table.size = 9 ∧
    (Table.insert c10Table c10Key 6).map
      (fun p => (p.2.size, p.2.capacity)) = some (2, 21) := by
  decide

/-- Claim C10 (amended): between growths the claim's accounting is right —
an insert that does not trigger growth increments `size` by exactly one,
also when it overwrites an already-present key, and `delete` never changes
`size` — but a growth resets `size` to the number of rehashed occupied
entries plus one, so after a growth `size` no longer equals the number of
inserts since that growth. -/
theorem claim_C10_size_accounting {T : Type} (t : Table T)
    (key : FatPointer) (v : T)
    (hng : ¬ (t.size + 1) / t.capacity * 100 > t.load_factor) :
    (Table.insert t key v).map (fun p => p.2.size) =
      (Table.insert t key v).map (fun _ => t.size + 1) ∧
    (Table.delete t key).map (fun p => p.2.size) =
      (Table.delete t key).map (fun _ => t.size) := by
  constructor
  · simp only [Table.insert, Table.ensureCapacity, if_neg hng,
      Option.bind_eq_bind, Option.some_bind]
    cases hfb : Table.findBucket t.capacity key t.entries with
    | none => rfl
    | some bucket => simp [hfb]
  · simp only [Table.delete, Option.bind_eq_bind]
    cases hfb : Table.findBucket t.capacity key t.entries with
    | none => rfl
    | some bucket =>
        cases hent : t.entries[bucket]?.getD Entry.Vacant <;>
          simp [hfb, List.getD, hent]

/-- Witness for C10 at `c7Table` (no growth: `(7+1)/10` is 0). -/
theorem claim_C10_witness :
    ¬ (c7Table.size + 1) / c7Table.capacity * 100 > c7Table.load_factor ∧
    ((Table.insert c7Table c10Key 6).map (fun p => p.2.size) =
        (Table.insert c7Table c10Key 6).map (fun _ => c7Table.size + 1) ∧
      (Table.delete c7Table c10Key).map (fun p => p.2.size) =
        (Table.delete c7Table c10Key).map (fun _ => c7Table.size)) :=
  ⟨by decide, claim_C10_size_accounting c7Table c10Key 6 (by decide)⟩

/-! ### Probe-path lemmas for the open-addressed table -/

theorem probe_inj {cap home k1 k2 : Nat} (h1 : k1 < k2) (h2 : k2 < cap) :
    (home + k1) % cap ≠ (home + k2) % cap := by
  intro he
  have hd : cap ∣ (home + k2) - (home + k1) :=
    (Nat.modEq_iff_dvd' (by omega)).1 he
  have he2 : home + k2 - (home + k1) = k2 - k1 := by omega
  rw [he2] at hd
  have := Nat.le_of_dvd (by omega) hd
  omega

theorem probe_cover (cap home j : Nat) (hj : j < cap) (hh : home < cap) :
    (home + (j + cap - home) % cap) % cap = j ∧ (j + cap - home) % cap < cap := by
  constructor
  · rw [Nat.add_mod_mod]
    have he : home + (j + cap - home) = j + cap := by omega
    rw [he, Nat.add_mod_right, Nat.mod_eq_of_lt hj]
  · exact Nat.mod_lt _ (by omega)

theorem range_find?_first : ∀ (n : Nat) (p : Nat → Bool) (i : Nat), i < n →
    (∀ j, j < i → p j = false) → p i = true →
    (List.range n).find? p = some i := by
  intro n
  induction n with
  | zero => intro p i hi; omega
  | succ n ih =>
      intro p i hi hfirst hp
      rw [List.range_succ_eq_map]
      cases i with
      | zero => simp [List.find?_cons, hp]
      | succ i =>
          have h0 : p 0 = false := hfirst 0 (Nat.succ_pos i)
          have hin := ih (fun k => p (k + 1)) i (by omega)
            (fun j hj => hfirst (j + 1) (by omega)) hp
          simp [List.find?_cons, h0, List.find?_map, Function.comp_def, hin]

theorem range_find?_inv : ∀ (n : Nat) (p : Nat → Bool) (b : Nat),
    (List.range n).find? p = some b →
    b < n ∧ p b = true ∧ ∀ j, j < b → p j = false := by
  intro n
  induction n with
  | zero => intro p b h; simp at h
  | succ n ih =>
      intro p b h
      rw [List.range_succ_eq_map] at h
      by_cases h0 : p 0 = true
      · rw [List.find?_cons_of_pos _ h0] at h
        obtain rfl : 0 = b := by injection h
        exact ⟨by omega, h0, fun j hj => absurd hj (by omega)⟩
      · rw [List.find?_cons_of_neg _ (by simpa using h0), List.find?_map] at h
        cases hin : (List.range n).find? (p ∘ Nat.succ) with
        | none => rw [hin] at h; simp at h
        | some b2 =>
            rw [hin] at h
            obtain rfl : b2 + 1 = b := by simpa using h
            obtain ⟨hb2, hp2, hfirst2⟩ := ih (p ∘ Nat.succ) b2 hin
            refine ⟨by omega, hp2, fun j hj => ?_⟩
            cases j with
            | zero => simpa using h0
            | succ j => exact hfirst2 j (by omega)

theorem getD_mem {T : Type} (entries : List (Entry T)) (b : Nat)
    (hb : b < entries.length) : entries.getD b Entry.Vacant ∈ entries := by
  rw [List.getD_eq_getElem entries Entry.Vacant hb]
  exact List.getElem_mem hb

theorem hasPtrB_false_slot {T : Type} {entries : List (Entry T)}
    {key : FatPointer} (h : hasPtrB entries key = false) {b : Nat}
    (hb : b < entries.length) {k : FatPointer} {v : T}
    (hslot : entries.getD b Entry.Vacant = Entry.Occupied k v) :
    (k.ptr == key.ptr) = false := by
  have hmem := getD_mem entries b hb
  rw [hslot] at hmem
  have := List.any_eq_false.mp (by simpa [hasPtrB] using h) _ hmem
  simpa using this

theorem chainInvB_spec {T : Type} {entries : List (Entry T)} {cap : Nat}
    (h : chainInvB entries cap = true) {j : Nat} (hj : j < cap)
    {k : FatPointer} {v : T}
    (hslot : entries.getD j Entry.Vacant = Entry.Occupied k v) :
    ∀ m, m < (j + cap - k.hash % cap) % cap →
      ∃ k2 v2, entries.getD ((k.hash % cap + m) % cap) Entry.Vacant =
          Entry.Occupied k2 v2 ∧ (k2.ptr == k.ptr) = false := by
  intro m hm
  have h1 := List.all_eq_true.mp (by rw [chainInvB] at h; exact h) j
    (List.mem_range.mpr hj)
  unfold chainAtB at h1
  rw [hslot] at h1
  simp only [] at h1
  have h2 := List.all_eq_true.mp h1 m (List.mem_range.mpr hm)
  simp only [] at h2
  revert h2
  cases hent : entries.getD ((k.hash % cap + m) % cap) Entry.Vacant with
  | Occupied k2 v2 =>
      intro h2
      exact ⟨k2, v2, rfl, by simpa [blocksB] using h2⟩
  | Vacant => intro h2; simp [blocksB] at h2
  | TombStone => intro h2; simp [blocksB] at h2

theorem findBucket_isSome {T : Type} (entries : List (Entry T)) (cap : Nat)
    (key : FatPointer) (hlen : entries.length = cap)
    (hocc : Table.countOccupied entries < cap) :
    ∃ b k0, Table.findBucket cap key entries = some b ∧
      b = (key.hash % cap + k0) % cap ∧ k0 < cap ∧ b < cap ∧
      Table.isOccupied entries b key = false ∧
      ∀ m, m < k0 →
        Table.isOccupied entries ((key.hash % cap + m) % cap) key = true := by
  have hcap : 0 < cap := by omega
  have hex : ∃ j, j < cap ∧
      entryOccupiedB (entries.getD j Entry.Vacant) = false := by
    by_contra hno
    push_neg at hno
    have : Table.countOccupied entries = entries.length := by
      rw [Table.countOccupied]
      apply List.countP_eq_length.mpr
      intro e he
      obtain ⟨⟨i, hi⟩, rfl⟩ := List.mem_iff_get.mp he
      have := hno i (by omega)
      rw [List.getD_eq_getElem entries Entry.Vacant hi] at this
      simp only [List.get_eq_getElem]
      revert this
      cases entries[i] <;> simp [entryOccupiedB]
    omega
  obtain ⟨j, hjcap, hjfree⟩ := hex
  obtain ⟨hcov, hklt⟩ :=
    probe_cover cap (key.hash % cap) j hjcap (Nat.mod_lt _ hcap)
  have hpj : Table.isOccupied entries j key = false := by
    rw [Table.isOccupied]
    revert hjfree
    cases entries.getD j Entry.Vacant <;> simp [entryOccupiedB]
  have hsome : ∃ x ∈ List.range cap,
      (!(Table.isOccupied entries ((key.hash % cap + x) % cap) key)) = true :=
    ⟨_, List.mem_range.mpr hklt, by rw [hcov]; simp [hpj]⟩
  have hIsSome := List.find?_isSome.mpr hsome
  cases hf : (List.range cap).find? fun x =>
      !(Table.isOccupied entries ((key.hash % cap + x) % cap) key) with
  | none => rw [hf] at hIsSome; simp at hIsSome
  | some k0 =>
      obtain ⟨hk0, hp0, hfirst⟩ := range_find?_inv cap _ k0 hf
      refine ⟨(key.hash % cap + k0) % cap, k0, ?_, rfl, hk0,
        Nat.mod_lt _ hcap, by simpa using hp0, fun m hm => by
          simpa using hfirst m hm⟩
      rw [Table.findBucket, hf]
      rfl

theorem findBucket_chain {T : Type} (entries : List (Entry T)) (cap : Nat)
    (key k : FatPointer) (v : T) (j : Nat) (hj : j < cap)
    (hslot : entries.getD j Entry.Vacant = Entry.Occupied k v)
    (hptr : k.ptr = key.ptr)
    (hchain : ∀ m, m < (j + cap - key.hash % cap) % cap →
      Table.isOccupied entries ((key.hash % cap + m) % cap) key = true) :
    Table.findBucket cap key entries = some j := by
  have hcap : 0 < cap := by omega
  obtain ⟨hcov, hklt⟩ :=
    probe_cover cap (key.hash % cap) j hj (Nat.mod_lt _ hcap)
  have hpj : Table.isOccupied entries j key = false := by
    rw [Table.isOccupied, hslot]
    simp [hptr]
  rw [Table.findBucket]
  rw [range_find?_first cap _ ((j + cap - key.hash % cap) % cap) hklt
    (fun m hm => by simpa using hchain m hm) (by rw [hcov]; simp [hpj])]
  simpa using hcov

theorem countP_set_le {α : Type} (p : α → Bool) :
    ∀ (l : List α) (n : Nat) (a : α),
      (l.set n a).countP p ≤ l.countP p + 1 := by
  intro l
  induction l with
  | nil => intro n a; simp
  | cons x l ih =>
      intro n a
      cases n with
      | zero =>
          by_cases pa : p a <;> by_cases px : p x <;>
            simp [List.set, List.countP_cons, pa, px] <;> omega
      | succ n =>
          have := ih n a
          by_cases px : p x <;>
            simp [List.set, List.countP_cons, px] <;> omega

theorem getD_set_ne {α : Type} (l : List α) (i j : Nat) (a d : α)
    (h : i ≠ j) : (l.set i a).getD j d = l.getD j d := by
  simp [List.getD, List.getElem?_set_ne h]

theorem getD_set_self {α : Type} (l : List α) (i : Nat) (a d : α)
    (h : i < l.length) : (l.set i a).getD i d = a := by
  simp [List.getD, List.getElem?_set_self, h]

theorem hasPtrB_of_set {T : Type} {es : List (Entry T)} {b : Nat}
    {k key : FatPointer} {v : T}
    (h : hasPtrB (es.set b (Entry.Occupied k v)) key = true) :
    hasPtrB es key = true ∨ (k.ptr == key.ptr) = true := by
  obtain ⟨e, he, hpe⟩ := List.any_eq_true.mp h
  rcases List.mem_or_eq_of_mem_set he with he2 | rfl
  · exact Or.inl (List.any_eq_true.mpr ⟨e, he2, hpe⟩)
  · exact Or.inr (by simpa using hpe)

theorem rehash_fold_ok {T : Type} (newCap : Nat) :
    ∀ (l es : List (Entry T)) (sz : Nat),
      es.length = newCap →
      Table.countOccupied es + Table.countOccupied l < newCap →
      ∃ es2 sz2,
        l.foldl (Table.rehashStep newCap) (some (es, sz)) = some (es2, sz2) ∧
        es2.length = newCap ∧
        Table.countOccupied es2 ≤
          Table.countOccupied es + Table.countOccupied l ∧
        ∀ key, hasPtrB es2 key = true →
          hasPtrB es key = true ∨ hasPtrB l key = true := by
  intro l
  induction l with
  | nil =>
      intro es sz hlen hocc
      exact ⟨es, sz, rfl, hlen, by simp [Table.countOccupied], fun key h =>
        Or.inl h⟩
  | cons e l ih =>
      intro es sz hlen hocc
      cases e with
      | Occupied k v =>
          have hocc1 : Table.countOccupied es < newCap := by
            have : Table.countOccupied (Entry.Occupied k v :: l) =
                Table.countOccupied l + 1 := by
              simp [Table.countOccupied, List.countP_cons]
            omega
          obtain ⟨b, k0, hfb, hbeq, hk0, hblt, hfree, hpath⟩ :=
            findBucket_isSome es newCap k hlen hocc1
          have hstep : Table.rehashStep newCap (some (es, sz))
              (Entry.Occupied k v) =
              some (es.set b (Entry.Occupied k v), sz + 1) := by
            rw [Table.rehashStep, hfb]
          have hlen2 : (es.set b (Entry.Occupied k v)).length = newCap := by
            simpa using hlen
          have hcnt2 : Table.countOccupied (es.set b (Entry.Occupied k v)) ≤
              Table.countOccupied es + 1 := countP_set_le _ es b _
          have hocc2 : Table.countOccupied (es.set b (Entry.Occupied k v)) +
              Table.countOccupied l < newCap := by
            have : Table.countOccupied (Entry.Occupied k v :: l) =
                Table.countOccupied l + 1 := by
              simp [Table.countOccupied, List.countP_cons]
            omega
          obtain ⟨es2, sz2, hfold, hl2, hc2, hsub⟩ :=
            ih (es.set b (Entry.Occupied k v)) (sz + 1) hlen2 hocc2
          refine ⟨es2, sz2, ?_, hl2, ?_, ?_⟩
          · rw [List.foldl_cons, hstep]; exact hfold
          · have : Table.countOccupied (Entry.Occupied k v :: l) =
                Table.countOccupied l + 1 := by
              simp [Table.countOccupied, List.countP_cons]
            omega
          · intro key hk
            rcases hsub key hk with h2 | h2
            · rcases hasPtrB_of_set h2 with h3 | h3
              · exact Or.inl h3
              · exact Or.inr (by simp [hasPtrB, h3])
            · exact Or.inr (by simp [hasPtrB] at h2 ⊢; exact Or.inr h2)
      | Vacant =>
          have hstep : Table.rehashStep newCap (some (es, sz)) Entry.Vacant =
              some (es, sz) := rfl
          have hocc2 : Table.countOccupied es + Table.countOccupied l <
              newCap := by
            have : Table.countOccupied (Entry.Vacant :: l) =
                Table.countOccupied l := by
              simp [Table.countOccupied, List.countP_cons]
            omega
          obtain ⟨es2, sz2, hfold, hl2, hc2, hsub⟩ := ih es sz hlen hocc2
          refine ⟨es2, sz2, ?_, hl2, ?_, ?_⟩
          · rw [List.foldl_cons, hstep]; exact hfold
          · have : Table.countOccupied (Entry.Vacant :: l) =
                Table.countOccupied l := by
              simp [Table.countOccupied, List.countP_cons]
            omega
          · intro key hk
            rcases hsub key hk with h2 | h2
            · exact Or.inl h2
            · exact Or.inr (by simp [hasPtrB] at h2 ⊢; exact h2)
      | TombStone =>
          have hstep : Table.rehashStep newCap (some (es, sz))
              Entry.TombStone = some (es, sz) := rfl
          have hocc2 : Table.countOccupied es + Table.countOccupied l <
              newCap := by
            have : Table.countOccupied (Entry.TombStone :: l) =
                Table.countOccupied l := by
              simp [Table.countOccupied, List.countP_cons]
            omega
          obtain ⟨es2, sz2, hfold, hl2, hc2, hsub⟩ := ih es sz hlen hocc2
          refine ⟨es2, sz2, ?_, hl2, ?_, ?_⟩
          · rw [List.foldl_cons, hstep]; exact hfold
          · have : Table.countOccupied (Entry.TombStone :: l) =
                Table.countOccupied l := by
              simp [Table.countOccupied, List.countP_cons]
            omega
          · intro key hk
            rcases hsub key hk with h2 | h2
            · exact Or.inl h2
            · exact Or.inr (by simp [hasPtrB] at h2 ⊢; exact h2)

theorem ensureCapacity_spec {T : Type} (t : Table T)
    (hlen : t.entries.length = t.capacity)
    (hocc : Table.countOccupied t.entries < t.capacity) :
    ∃ t1 : Table T, Table.ensureCapacity t = some t1 ∧
      t1.entries.length = t1.capacity ∧
      Table.countOccupied t1.entries < t1.capacity ∧
      t1.load_factor = t.load_factor ∧
      ∀ key, hasPtrB t1.entries key = true →
        hasPtrB t.entries key = true := by
  by_cases hcond : (t.size + 1) / t.capacity * 100 > t.load_factor
  · have hfresh0 : Table.countOccupied
        (List.replicate (t.capacity * 2 + 1) (Entry.Vacant : Entry T)) = 0 := by
      rw [Table.countOccupied]
      apply List.countP_eq_zero.mpr
      intro e he
      rw [List.eq_of_mem_replicate he]
      simp
    have hcnt : Table.countOccupied t.entries ≤ t.entries.length :=
      List.countP_le_length _
    obtain ⟨es2, sz2, hfold, hl2, hc2, hsub⟩ :=
      rehash_fold_ok (t.capacity * 2 + 1) t.entries
        (List.replicate (t.capacity * 2 + 1) Entry.Vacant) 0
        (by simp) (by rw [hfresh0]; omega)
    refine ⟨(⟨es2, t.capacity * 2 + 1, sz2, t.load_factor⟩ : Table T),
      ?_, (by simpa using hl2), ?_, rfl, ?_⟩
    · simp only [Table.ensureCapacity, if_pos hcond]
      rw [hfold]
      rfl
    · simp only []
      omega
    · intro key hk
      rcases hsub key hk with h2 | h2
      · rw [hasPtrB] at h2
        obtain ⟨e, he, hpe⟩ := List.any_eq_true.mp h2
        rw [List.eq_of_mem_replicate he] at hpe
        simp at hpe
      · exact h2
  · exact ⟨t, (by rw [Table.ensureCapacity, if_neg hcond]), hlen, hocc, rfl,
      fun key h => h⟩

theorem insert_noGrow {T : Type} (t : Table T) (key : FatPointer) (v : T)
    (hng : ¬ (t.size + 1) / t.capacity * 100 > t.load_factor) (b : Nat)
    (hfb : Table.findBucket t.capacity key t.entries = some b) :
    Table.insert t key v =
      some (entryOccupiedB (t.entries.getD b Entry.Vacant),
        { t with entries := t.entries.set b (Entry.Occupied key v),
                 size := t.size + 1 }) := by
  rw [Table.insert]
  simp only [Table.ensureCapacity, if_neg hng, Option.bind_eq_bind,
    Option.some_bind, hfb]
  cases hent : t.entries.getD b Entry.Vacant <;>
    simp [List.getD, entryOccupiedB]

theorem stopSlot_not_occupied {T : Type} {entries : List (Entry T)}
    {key : FatPointer} {b : Nat}
    (hp : hasPtrB entries key = false) (hb : b < entries.length)
    (hfree : Table.isOccupied entries b key = false) :
    entryOccupiedB (entries.getD b Entry.Vacant) = false := by
  revert hfree
  cases hent : entries.getD b Entry.Vacant with
  | Occupied k2 w =>
      intro hfree
      simp only [Table.isOccupied, hent] at hfree
      have h6 : (k2.ptr == key.ptr) = true := by simpa using hfree
      have h7 := hasPtrB_false_slot hp hb hent
      simp [h6] at h7
  | Vacant => intro hfree; rfl
  | TombStone => intro hfree; rfl

theorem hasPtrB_set_tombstone {T : Type} {es : List (Entry T)} {b : Nat}
    {key : FatPointer} (hp : hasPtrB es key = false) :
    hasPtrB (es.set b Entry.TombStone) key = false := by
  rw [hasPtrB]
  apply List.any_eq_false.mpr
  intro e he
  rcases List.mem_or_eq_of_mem_set he with he2 | rfl
  · have := List.any_eq_false.mp (by simpa [hasPtrB] using hp) _ he2
    simpa using this
  · simp

theorem insert_eq {T : Type} (t : Table T) (key : FatPointer) (v : T)
    (t1 : Table T) (hens : Table.ensureCapacity t = some t1) (b : Nat)
    (hfb : Table.findBucket t1.capacity key t1.entries = some b) :
    Table.insert t key v =
      some (entryOccupiedB (t1.entries.getD b Entry.Vacant),
        { t1 with entries := t1.entries.set b (Entry.Occupied key v),
                  size := t1.size + 1 }) := by
  rw [Table.insert]
  simp only [hens, Option.bind_eq_bind, Option.some_bind, hfb]
  cases hent : t1.entries.getD b Entry.Vacant <;>
    simp [List.getD, entryOccupiedB]

theorem delete_after_insert {T : Type} (t1 : Table T) (key : FatPointer)
    (v : T) (b k0 : Nat)
    (hlen : t1.entries.length = t1.capacity)
    (hbeq : b = (key.hash % t1.capacity + k0) % t1.capacity)
    (hk0 : k0 < t1.capacity)
    (hpath : ∀ m, m < k0 →
      Table.isOccupied t1.entries
        ((key.hash % t1.capacity + m) % t1.capacity) key = true) :
    Table.delete
        { t1 with entries := t1.entries.set b (Entry.Occupied key v),
                  size := t1.size + 1 } key =
      some (some v,
        { t1 with entries := t1.entries.set b Entry.TombStone,
                  size := t1.size + 1 }) := by
  have hcap : 0 < t1.capacity := by omega
  have hblt : b < t1.capacity := by rw [hbeq]; exact Nat.mod_lt _ hcap
  have hlens : (t1.entries.set b (Entry.Occupied key v)).length =
      t1.capacity := by simpa using hlen
  have hself : (t1.entries.set b (Entry.Occupied key v)).getD b
      Entry.Vacant = Entry.Occupied key v :=
    getD_set_self _ _ _ _ (by omega)
  have hfb2 : Table.findBucket t1.capacity key
      (t1.entries.set b (Entry.Occupied key v)) = some b := by
    rw [Table.findBucket]
    rw [range_find?_first t1.capacity _ k0 hk0 ?hfirst ?hstop]
    · simp [hbeq]
    case hfirst =>
      intro m hm
      have hne : (key.hash % t1.capacity + m) % t1.capacity ≠ b := by
        rw [hbeq]
        exact probe_inj hm hk0
      have hunch := getD_set_ne t1.entries b
        ((key.hash % t1.capacity + m) % t1.capacity)
        (Entry.Occupied key v) Entry.Vacant (fun h => hne h.symm)
      have hocc2 := hpath m hm
      rw [Table.isOccupied] at hocc2 ⊢
      rw [hunch]
      simp at hocc2 ⊢
      exact hocc2
    case hstop =>
      rw [Table.isOccupied, ← hbeq, hself]
      simp
  rw [Table.delete]
  simp only [hfb2, Option.bind_eq_bind, Option.some_bind]
  rw [hself]
  simp [List.set_set]

theorem hasPtrB_false_of_ensure {T : Type} {t t1 : Table T}
    {key : FatPointer}
    (hens : Table.ensureCapacity t = some t1)
    (hlen : t.entries.length = t.capacity)
    (hocc : Table.countOccupied t.entries < t.capacity)
    (hp : hasPtrB t.entries key = false) :
    hasPtrB t1.entries key = false := by
  obtain ⟨t1b, hens2, hl2, ho2, hlf2, hpres⟩ := ensureCapacity_spec t hlen hocc
  rw [hens] at hens2
  obtain rfl : t1 = t1b := by injection hens2
  cases h : hasPtrB t1.entries key with
  | false => rfl
  | true => rw [hpres key h] at hp; cases hp

/-- Counterexample to claim C6 as stated: inserting `fibName` into the
empty table `Table.init 3` — the key is certainly not already present —
returns `false`, where the claim's `was_new` reading requires `true`. -/
theorem claim_C6_counterexample :
    Table.countOccupied (Table.init 3 : Table Nat).entries = 0 ∧
    (Table.insert (Table.init 3 : Table Nat) fibName 1).map Prod.fst =
      some false := by
  decide

/-- Claim C6 (amended): `Table::insert(key, value)` returns `true` exactly
when the key WAS already present before the call — the probe stopped on an
occupied slot holding the key's pointer — i.e. the return value is the
negation of the claim's `was_new`.  Stated for well-formed tables (entry
array of length `capacity`, fewer occupied entries than capacity, the probe
chain invariant, hash-consistent pointers) on an insert that does not
trigger growth. -/
theorem claim_C6_insert_true_iff_present {T : Type} (t : Table T)
    (key : FatPointer) (v : T)
    (hlen : t.entries.length = t.capacity)
    (hocc : Table.countOccupied t.entries < t.capacity)
    (hng : ¬ (t.size + 1) / t.capacity * 100 > t.load_factor)
    (hchain : chainInvB t.entries t.capacity = true)
    (hhash : ptrHashConsistB t.entries key = true) :
    (Table.insert t key v).map Prod.fst =
      some (hasPtrB t.entries key) := by
  obtain ⟨b, k0, hfb, hbeq, hk0, hblt, hfree, hpath⟩ :=
    findBucket_isSome t.entries t.capacity key hlen hocc
  rw [insert_noGrow t key v hng b hfb]
  rw [Option.map_some']
  congr 1
  by_cases hp : hasPtrB t.entries key = true
  · rw [hp]
    obtain ⟨e, he, hpe⟩ := List.any_eq_true.mp hp
    obtain ⟨⟨j, hjl⟩, rfl⟩ := List.mem_iff_get.mp he
    revert hpe
    cases hent : (t.entries.get ⟨j, hjl⟩) with
    | Occupied k w =>
        intro hpe
        have hkp : k.ptr = key.ptr := by simpa using hpe
        have hgd : t.entries.getD j Entry.Vacant = Entry.Occupied k w := by
          rw [List.getD_eq_getElem t.entries Entry.Vacant hjl, ← hent]
          simp
        have hkh : k.hash = key.hash := by
          have h3 := List.all_eq_true.mp hhash _ he
          rw [hent] at h3
          simp [hkp] at h3
          exact h3
        have hchainj := chainInvB_spec hchain (by omega : j < t.capacity) hgd
        have hfb2 : Table.findBucket t.capacity key t.entries = some j := by
          apply findBucket_chain t.entries t.capacity key k w j (by omega)
            hgd hkp
          intro m hm
          rw [← hkh] at hm ⊢
          obtain ⟨k2, v2, hslot2, hne⟩ := hchainj m hm
          have hne2 : (k2.ptr == key.ptr) = false := by
            rw [← hkp]; exact hne
          have hslot3 := hslot2
          simp at hslot3
          simp [Table.isOccupied, hslot3, hne2]
        rw [hfb] at hfb2
        obtain rfl : b = j := by injection hfb2
        rw [hgd]
        rfl
    | Vacant => intro hpe; simp at hpe
    | TombStone => intro hpe; simp at hpe
  · rw [Bool.not_eq_true] at hp
    rw [hp]
    revert hfree
    cases hent : t.entries.getD b Entry.Vacant with
    | Occupied k2 w =>
        intro hfree
        simp only [Table.isOccupied, hent] at hfree
        have h6 : (k2.ptr == key.ptr) = true := by simpa using hfree
        have h7 := hasPtrB_false_slot hp (by omega) hent
        simp [h6] at h7
    | Vacant => intro hfree; rfl
    | TombStone => intro hfree; rfl

/-- Witness for C6 at `c6Table` and `c10Key` (a present key; the insert
reports `true` = `hasPtrB`). -/
theorem claim_C6_witness :
    c6Table.entries.length = c6Table.capacity ∧
    Table.countOccupied c6Table.entries < c6Table.capacity ∧
    ¬ (c6Table.size + 1) / c6Table.capacity * 100 > c6Table.load_factor ∧
    chainInvB c6Table.entries c6Table.capacity = true ∧
    ptrHashConsistB c6Table.entries c10Key = true ∧
    (Table.insert c6Table c10Key 9).map Prod.fst =
      some (hasPtrB c6Table.entries c10Key) :=
  ⟨by decide, by decide, by decide, by decide, by decide,
    claim_C6_insert_true_iff_present c6Table c10Key 9 (by decide)
      (by decide) (by decide) (by decide) (by decide)⟩

/-- Claim C4: on a well-formed globals table, executing the SetGlobal path
`set_global_variable(name)` with an unbound name reports
"Unable to find value for key", halts with `InterpretRuntimeError`, and
leaves the globals table without a binding for the name (the entry the
insert created is deleted again); with a bound name (an occupied slot
holding a key equal to `name`, under the probe chain invariant, without
growth) it replaces the bound value in place and continues with no error. -/
theorem claim_C4_set_global_semantics (st : VMSt) (name : FatPointer) (value : Value)
    (hlen : st.globals.entries.length = st.globals.capacity)
    (hocc : Table.countOccupied st.globals.entries < st.globals.capacity)
    (htop : 1 ≤ st.stack_top)
    (hstk : st.stack.get? (st.stack_top - 1) = some (some value)) :
    (hasPtrB st.globals.entries name = false →
      ((setGlobalVariable name).run st).bind
          (fun p => Res.ok (p.1, p.2.errors,
            hasPtrB p.2.globals.entries name)) =
        Res.ok (some InterpretResult.InterpretRuntimeError,
          st.errors ++ [RuntimeErr.unableToFindKey
            (readString st.heap name.ptr name.size)], false)) ∧
    (∀ j (k : FatPointer) (w : Value), j < st.globals.capacity →
      st.globals.entries.getD j Entry.Vacant = Entry.Occupied k w →
      fatPtrEq k name = true →
      chainInvB st.globals.entries st.globals.capacity = true →
      ¬ (st.globals.size + 1) / st.globals.capacity * 100 >
        st.globals.load_factor →
      ((setGlobalVariable name).run st).bind
          (fun p => Res.ok (p.1, p.2.errors, p.2.globals.entries)) =
        Res.ok (none, st.errors,
          st.globals.entries.set j (Entry.Occupied name value))) := by
  have hstk2 : st.stack[st.stack_top - 1]? = some (some value) := by
    rw [← List.get?_eq_getElem?]
    exact hstk
  have hpeek : (vmPeek 0) st = Res.ok (value, st) := by
    simp [vmPeek, liftRes, liftUnwrap, subChecked, vecGet, Res.ofUnwrap,
      StateT.run, Bind.bind, StateT.bind, Pure.pure, StateT.pure,
      get, getThe, MonadStateOf.get, StateT.get, htop,
      hstk2]
  constructor
  · intro hp
    obtain ⟨t1, hens, hl1, ho1, hlf1, hpres⟩ :=
      ensureCapacity_spec st.globals hlen hocc
    have hp1 : hasPtrB t1.entries name = false :=
      hasPtrB_false_of_ensure hens hlen hocc hp
    obtain ⟨b, k0, hfb, hbeq, hk0, hblt, hfree, hpath⟩ :=
      findBucket_isSome t1.entries t1.capacity name hl1 ho1
    have hflag : entryOccupiedB (t1.entries.getD b Entry.Vacant) = false :=
      stopSlot_not_occupied hp1 (by omega) hfree
    have hins := insert_eq st.globals name value t1 hens b hfb
    rw [hflag] at hins
    have hdel := delete_after_insert t1 name value b k0 hl1 hbeq hk0 hpath
    have hfinal : hasPtrB (t1.entries.set b Entry.TombStone) name = false :=
      hasPtrB_set_tombstone hp1
    simp [setGlobalVariable, runtimeError, liftRes, liftLoop, Res.ofLoop,
      StateT.run, Bind.bind, StateT.bind, Pure.pure, StateT.pure,
      get, getThe, MonadStateOf.get, StateT.get, set, StateT.set,
      hpeek, hins, hdel, hfinal]
  · intro j k w hj hslot hkeq hchain hng
    have hkp : k.ptr = name.ptr := by
      have h9 := hkeq
      rw [fatPtrEq] at h9
      simp at h9
      exact h9.1.1
    have hkh : k.hash = name.hash := by
      have h9 := hkeq
      rw [fatPtrEq] at h9
      simp at h9
      exact h9.2
    have hens : Table.ensureCapacity st.globals = some st.globals := by
      rw [Table.ensureCapacity, if_neg hng]
    have hchainj := chainInvB_spec hchain hj hslot
    have hfb : Table.findBucket st.globals.capacity name
        st.globals.entries = some j := by
      apply findBucket_chain st.globals.entries st.globals.capacity name
        k w j hj hslot hkp
      intro m hm
      rw [← hkh] at hm ⊢
      obtain ⟨k2, v2, hslot2, hne⟩ := hchainj m hm
      have hne2 : (k2.ptr == name.ptr) = false := by
        rw [← hkp]; exact hne
      have hslot3 := hslot2
      simp at hslot3
      simp [Table.isOccupied, hslot3, hne2]
    have hins := insert_eq st.globals name value st.globals hens j hfb
    rw [hslot] at hins
    have hflag : entryOccupiedB (Entry.Occupied k w) = true := rfl
    rw [hflag] at hins
    simp [setGlobalVariable, runtimeError, liftRes, liftLoop, Res.ofLoop,
      StateT.run, Bind.bind, StateT.bind, Pure.pure, StateT.pure,
      get, getThe, MonadStateOf.get, StateT.get, set, StateT.set,
      hpeek, hins]

/-- Witness for C4 at `c4State` with name `fibName` and the pushed
value 7. -/
theorem claim_C4_witness :
    c4State.globals.entries.length = c4State.globals.capacity ∧
    Table.countOccupied c4State.globals.entries < c4State.globals.capacity ∧
    1 ≤ c4State.stack_top ∧
    c4State.stack.get? (c4State.stack_top - 1) =
      some (some (Value.Number 7)) ∧
    ((hasPtrB c4State.globals.entries fibName = false →
      ((setGlobalVariable fibName).run c4State).bind
          (fun p => Res.ok (p.1, p.2.errors,
            hasPtrB p.2.globals.entries fibName)) =
        Res.ok (some InterpretResult.InterpretRuntimeError,
          c4State.errors ++ [RuntimeErr.unableToFindKey
            (readString c4State.heap fibName.ptr fibName.size)], false)) ∧
    (∀ j (k : FatPointer) (w : Value), j < c4State.globals.capacity →
      c4State.globals.entries.getD j Entry.Vacant = Entry.Occupied k w →
      fatPtrEq k fibName = true →
      chainInvB c4State.globals.entries c4State.globals.capacity = true →
      ¬ (c4State.globals.size + 1) / c4State.globals.capacity * 100 >
        c4State.globals.load_factor →
      ((setGlobalVariable fibName).run c4State).bind
          (fun p => Res.ok (p.1, p.2.errors, p.2.globals.entries)) =
        Res.ok (none, c4State.errors,
          c4State.globals.entries.set j (Entry.Occupied fibName
            (Value.Number 7))))) :=
  ⟨by decide, by decide, by decide, rfl,
    claim_C4_set_global_semantics c4State fibName (Value.Number 7)
      (by decide) (by decide) (by decide) rfl⟩

/-! ### Content-probe lemmas and the intern invariant -/

theorem probe_dist {cap home k0 : Nat} (hh : home < cap) (hk : k0 < cap) :
    ((home + k0) % cap + cap - home) % cap = k0 := by
  by_cases hlt : home + k0 < cap
  · rw [Nat.mod_eq_of_lt hlt]
    have h2 : home + k0 + cap - home = k0 + cap := by omega
    rw [h2, Nat.add_mod_right, Nat.mod_eq_of_lt hk]
  · have h1 : (home + k0) % cap = home + k0 - cap := by
      rw [Nat.mod_eq_sub_mod (by omega), Nat.mod_eq_of_lt (by omega)]
    rw [h1]
    have h2 : home + k0 - cap + cap - home = k0 := by omega
    rw [h2, Nat.mod_eq_of_lt hk]

theorem findAux_step_occ {T : Type} (heap : Heap) (cap : Nat)
    (s : List Char) (entries : List (Entry T)) (fuel b : Nat)
    (k : FatPointer) (v : T)
    (hslot : entries.getD b Entry.Vacant = Entry.Occupied k v)
    (hne : readString heap k.ptr k.size ≠ s) :
    Table.findEntryWithValueAux heap cap s entries (fuel + 1) b =
      Table.findEntryWithValueAux heap cap s entries fuel ((b + 1) % cap) := by
  rw [Table.findEntryWithValueAux, hslot]
  simp [hne]

theorem findAux_walk {T : Type} (heap : Heap) (cap : Nat) (s : List Char)
    (entries : List (Entry T)) (b : Nat) (hb : b < cap) :
    ∀ (k0 fuel : Nat),
      (∀ m, m < k0 → ∃ k v,
        entries.getD ((b + m) % cap) Entry.Vacant = Entry.Occupied k v ∧
        readString heap k.ptr k.size ≠ s) →
      Table.findEntryWithValueAux heap cap s entries (fuel + k0) b =
        Table.findEntryWithValueAux heap cap s entries fuel
          ((b + k0) % cap) := by
  intro k0
  induction k0 with
  | zero =>
      intro fuel hcont
      rw [Nat.add_zero, Nat.add_zero, Nat.mod_eq_of_lt hb]
  | succ k0 ih =>
      intro fuel hcont
      have h1 : fuel + (k0 + 1) = (fuel + 1) + k0 := by omega
      rw [h1, ih (fuel + 1) (fun m hm => hcont m (by omega))]
      obtain ⟨k, v, hslot, hne⟩ := hcont k0 (by omega)
      rw [findAux_step_occ heap cap s entries fuel _ k v hslot hne]
      rw [Nat.mod_add_mod]
      have h2 : b + k0 + 1 = b + (k0 + 1) := by omega
      rw [h2]

theorem findWithValue_found {T : Type} (heap : Heap) (t : Table T)
    (s : List Char) (j : Nat) (k : FatPointer) (v : T)
    (hlen : t.entries.length = t.capacity) (hj : j < t.capacity)
    (hslot : t.entries.getD j Entry.Vacant = Entry.Occupied k v)
    (hcontent : readString heap k.ptr k.size = s)
    (hhome : k.hash % t.capacity = fnvHash s % t.capacity)
    (hchain : ∀ m, m < (j + t.capacity - k.hash % t.capacity) % t.capacity →
      ∃ k2 v2,
        t.entries.getD ((k.hash % t.capacity + m) % t.capacity)
          Entry.Vacant = Entry.Occupied k2 v2 ∧
        readString heap k2.ptr k2.size ≠ s) :
    Table.findEntryWithValue heap t s (fnvHash s) = some (some k) := by
  have hcap : 0 < t.capacity := by omega
  rw [Table.findEntryWithValue]
  obtain ⟨hcov, hdlt⟩ := probe_cover t.capacity (fnvHash s % t.capacity) j
    hj (Nat.mod_lt _ hcap)
  have hsplit : t.capacity =
      (t.capacity -
        (j + t.capacity - fnvHash s % t.capacity) % t.capacity) +
      (j + t.capacity - fnvHash s % t.capacity) % t.capacity := by omega
  nth_rewrite 2 [hsplit]
  rw [findAux_walk heap t.capacity s t.entries (fnvHash s % t.capacity)
    (Nat.mod_lt _ hcap) _ _
    (fun m hm => by
      have hm2 : m <
          (j + t.capacity - k.hash % t.capacity) % t.capacity := by
        rw [hhome]
        exact hm
      have h5 := hchain m hm2
      rw [hhome] at h5
      exact h5)]
  rw [hcov]
  have hsplit2 : t.capacity -
      (j + t.capacity - fnvHash s % t.capacity) % t.capacity =
      (t.capacity -
        (j + t.capacity - fnvHash s % t.capacity) % t.capacity - 1) + 1 := by
    omega
  rw [hsplit2, Table.findEntryWithValueAux, hslot]
  simp [hcontent]

theorem findWithValue_absent {T : Type} (heap : Heap) (t : Table T)
    (s : List Char) (hv : Nat)
    (hlen : t.entries.length = t.capacity)
    (hocc : Table.countOccupied t.entries < t.capacity)
    (hnotomb : ∀ e ∈ t.entries, e ≠ Entry.TombStone)
    (habs : ∀ j k v, j < t.capacity →
      t.entries.getD j Entry.Vacant = Entry.Occupied k v →
      readString heap k.ptr k.size ≠ s) :
    Table.findEntryWithValue heap t s hv = some none := by
  have hcap : 0 < t.capacity := by omega
  rw [Table.findEntryWithValue]
  set cap := t.capacity with hcapdef
  set home := hv % cap with hhomedef
  have hh : home < cap := Nat.mod_lt _ hcap
  have hex : ∃ m, entryOccupiedB
      (t.entries.getD ((home + m) % cap) Entry.Vacant) = false := by
    have hex2 : ∃ j, j < cap ∧
        entryOccupiedB (t.entries.getD j Entry.Vacant) = false := by
      by_contra hno
      push_neg at hno
      have : Table.countOccupied t.entries = t.entries.length := by
        rw [Table.countOccupied]
        apply List.countP_eq_length.mpr
        intro e he
        obtain ⟨⟨i, hi⟩, rfl⟩ := List.mem_iff_get.mp he
        have h3 := hno i (by omega)
        rw [List.getD_eq_getElem t.entries Entry.Vacant hi] at h3
        simp only [List.get_eq_getElem]
        revert h3
        cases t.entries[i] <;> simp [entryOccupiedB]
      omega
    obtain ⟨j, hjc, hjf⟩ := hex2
    obtain ⟨hcov, _⟩ := probe_cover cap home j hjc hh
    exact ⟨(j + cap - home) % cap, by rw [hcov]; exact hjf⟩
  set k0 := Nat.find hex with hk0def
  have hk0spec : entryOccupiedB
      (t.entries.getD ((home + k0) % cap) Entry.Vacant) = false :=
    Nat.find_spec hex
  have hk0min : ∀ m, m < k0 → ¬ entryOccupiedB
      (t.entries.getD ((home + m) % cap) Entry.Vacant) = false :=
    fun m hm => Nat.find_min hex hm
  have hk0lt : k0 < cap := by
    obtain ⟨j, hjc, hjf⟩ : ∃ j, j < cap ∧
        entryOccupiedB (t.entries.getD j Entry.Vacant) = false := by
      by_contra hno
      push_neg at hno
      have : Table.countOccupied t.entries = t.entries.length := by
        rw [Table.countOccupied]
        apply List.countP_eq_length.mpr
        intro e he
        obtain ⟨⟨i, hi⟩, rfl⟩ := List.mem_iff_get.mp he
        have h3 := hno i (by omega)
        rw [List.getD_eq_getElem t.entries Entry.Vacant hi] at h3
        simp only [List.get_eq_getElem]
        revert h3
        cases t.entries[i] <;> simp [entryOccupiedB]
      omega
    obtain ⟨hcov, hlt⟩ := probe_cover cap home j hjc hh
    have := Nat.find_min' hex (m := (j + cap - home) % cap)
      (by rw [hcov]; exact hjf)
    omega
  have hvac : t.entries.getD ((home + k0) % cap) Entry.Vacant =
      Entry.Vacant := by
    have hmem : t.entries.getD ((home + k0) % cap) Entry.Vacant ∈
        t.entries := by
      apply getD_mem
      rw [hlen]
      exact Nat.mod_lt _ hcap
    revert hk0spec
    cases hud : t.entries.getD ((home + k0) % cap) Entry.Vacant with
    | Occupied k v => intro hk0spec; simp [entryOccupiedB] at hk0spec
    | Vacant => intro _; rfl
    | TombStone =>
        intro _
        rw [hud] at hmem
        exact absurd rfl (hnotomb _ hmem)
  have hsplit : cap = (cap - k0) + k0 := by omega
  nth_rewrite 2 [hsplit]
  rw [findAux_walk heap cap s t.entries home hh k0 (cap - k0)
    (fun m hm => by
      have h4 := hk0min m hm
      revert h4
      cases hud : t.entries.getD ((home + m) % cap) Entry.Vacant with
      | Occupied k v =>
          intro h4
          refine ⟨k, v, rfl, ?_⟩
          apply habs ((home + m) % cap) k v
          · rw [hcapdef] at *
            exact Nat.mod_lt _ hcap
          · exact hud
      | Vacant => intro h4; simp [entryOccupiedB] at h4
      | TombStone =>
          intro h4
          have hmem : Entry.TombStone ∈ t.entries := by
            rw [← hud]
            apply getD_mem
            rw [hlen]
            exact Nat.mod_lt _ hcap
          exact absurd rfl (hnotomb _ hmem))]
  have hsplit2 : cap - k0 = (cap - k0 - 1) + 1 := by omega
  rw [hsplit2, Table.findEntryWithValueAux, hvac]

theorem countOccupied_set_vacant {T : Type} :
    ∀ (l : List (Entry T)) (b : Nat) (k : FatPointer) (v : T),
      b < l.length → entryOccupiedB (l.getD b Entry.Vacant) = false →
      Table.countOccupied (l.set b (Entry.Occupied k v)) =
        Table.countOccupied l + 1 := by
  intro l
  induction l with
  | nil => intro b k v hb; simp at hb
  | cons x l ih =>
      intro b k v hb hfree
      cases b with
      | zero =>
          have hx : entryOccupiedB x = false := by simpa using hfree
          revert hx
          cases x <;> intro hx <;>
            simp [Table.countOccupied, List.countP_cons, entryOccupiedB] at hx ⊢
      | succ b =>
          have h2 := ih b k v (by simpa using hb) (by simpa using hfree)
          simp only [Table.countOccupied] at h2 ⊢
          simp only [List.set]
          cases x <;> simp [List.countP_cons, h2] <;> omega

theorem getD_append_lt (heap : Heap) (c : List Char) (p : Nat)
    (hp : p < heap.length) : (heap ++ [c]).getD p [] = heap.getD p [] := by
  rw [List.getD, List.getD, List.get?_eq_getElem?, List.get?_eq_getElem?,
    List.getElem?_append]
  rw [if_pos hp]

theorem getD_append_len (heap : Heap) (c : List Char) :
    (heap ++ [c]).getD heap.length [] = c := by
  rw [List.getD, List.get?_eq_getElem?, List.getElem?_concat_length]
  rfl

theorem readString_append_lt (heap : Heap) (c : List Char) (p n : Nat)
    (hp : p < heap.length) :
    readString (heap ++ [c]) p n = readString heap p n := by
  rw [readString, readString, getD_append_lt heap c p hp]

theorem internedAs_unique {heap : Heap} {t : Table Value}
    (hinv : InternInv heap t) {s : List Char} {fp1 fp2 : FatPointer}
    (h1 : internedAs heap t s fp1) (h2 : internedAs heap t s fp2) :
    fp1 = fp2 := by
  obtain ⟨j1, v1, hj1, hs1, hc1⟩ := h1
  obtain ⟨j2, v2, hj2, hs2, hc2⟩ := h2
  have := hinv.huniq j1 j2 fp1 v1 fp2 v2 hj1 hj2 hs1 hs2 (by rw [hc1, hc2])
  subst this
  rw [hs1] at hs2
  cases hs2
  rfl

theorem growthCond_iff (sz cap : Nat) (hcap : 0 < cap) :
    (sz + 1) / cap * 100 > 70 ↔ cap ≤ sz + 1 := by
  constructor
  · intro h
    by_contra hlt
    push_neg at hlt
    rw [Nat.div_eq_of_lt hlt] at h
    omega
  · intro h
    have h1 : 1 ≤ (sz + 1) / cap := (Nat.one_le_div_iff hcap).2 h
    omega

theorem getD_append_left {α : Type} (l l2 : List α) (i : Nat) (d : α)
    (h : i < l.length) : (l ++ l2).getD i d = l.getD i d := by
  rw [List.getD, List.getD, List.get?_eq_getElem?, List.get?_eq_getElem?,
    List.getElem?_append]
  rw [if_pos h]

theorem getD_append_head {α : Type} (l : List α) (x : α) (l2 : List α)
    (d : α) : (l ++ x :: l2).getD l.length d = x := by
  rw [List.getD, List.get?_eq_getElem?,
    List.getElem?_append_right (Nat.le_refl _)]
  simp

theorem getD_of_mem {α : Type} (l : List α) (e : α) (d : α) (h : e ∈ l) :
    ∃ i, i < l.length ∧ l.getD i d = e := by
  obtain ⟨⟨i, hi⟩, rfl⟩ := List.mem_iff_get.mp h
  refine ⟨i, hi, ?_⟩
  rw [List.getD_eq_getElem l d hi]
  simp

theorem rehash_strong (heap : Heap) (newCap : Nat)
    (all : List (Entry Value))
    (hkeysAll : ∀ k v, Entry.Occupied k v ∈ all →
      k.ptr < heap.length ∧ k.size = (heap.getD k.ptr []).length)
    (hposuniq : ∀ i1 i2 k1 v1 k2 v2, i1 < all.length → i2 < all.length →
      all.getD i1 Entry.Vacant = Entry.Occupied k1 v1 →
      all.getD i2 Entry.Vacant = Entry.Occupied k2 v2 →
      readString heap k1.ptr k1.size = readString heap k2.ptr k2.size →
      i1 = i2) :
    ∀ (rest done es : List (Entry Value)) (sz : Nat),
      all = done ++ rest →
      es.length = newCap →
      sz = Table.countOccupied es →
      Table.countOccupied es + Table.countOccupied rest < newCap →
      (∀ e ∈ es, e ≠ Entry.TombStone) →
      (∀ j k v, j < newCap → es.getD j Entry.Vacant = Entry.Occupied k v →
        Entry.Occupied k v ∈ done) →
      (∀ k v, Entry.Occupied k v ∈ done →
        ∃ j, j < newCap ∧ es.getD j Entry.Vacant = Entry.Occupied k v) →
      (∀ j k v, j < newCap → es.getD j Entry.Vacant = Entry.Occupied k v →
        ∀ m, m < (j + newCap - k.hash % newCap) % newCap →
          ∃ k2 v2,
            es.getD ((k.hash % newCap + m) % newCap) Entry.Vacant =
              Entry.Occupied k2 v2 ∧
            readString heap k2.ptr k2.size ≠
              readString heap k.ptr k.size) →
      (∀ j1 j2 k1 v1 k2 v2, j1 < newCap → j2 < newCap →
        es.getD j1 Entry.Vacant = Entry.Occupied k1 v1 →
        es.getD j2 Entry.Vacant = Entry.Occupied k2 v2 →
        readString heap k1.ptr k1.size = readString heap k2.ptr k2.size →
        j1 = j2) →
      ∃ es2 sz2,
        rest.foldl (Table.rehashStep newCap) (some (es, sz)) =
          some (es2, sz2) ∧
        es2.length = newCap ∧
        sz2 = Table.countOccupied es2 ∧
        (∀ e ∈ es2, e ≠ Entry.TombStone) ∧
        (∀ j k v, j < newCap →
          es2.getD j Entry.Vacant = Entry.Occupied k v →
          Entry.Occupied k v ∈ all) ∧
        (∀ k v, Entry.Occupied k v ∈ done ++ rest →
          ∃ j, j < newCap ∧ es2.getD j Entry.Vacant = Entry.Occupied k v) ∧
        Table.countOccupied es2 ≤
          Table.countOccupied es + Table.countOccupied rest ∧
        (∀ j k v, j < newCap →
          es2.getD j Entry.Vacant = Entry.Occupied k v →
          ∀ m, m < (j + newCap - k.hash % newCap) % newCap →
            ∃ k2 v2,
              es2.getD ((k.hash % newCap + m) % newCap) Entry.Vacant =
                Entry.Occupied k2 v2 ∧
              readString heap k2.ptr k2.size ≠
                readString heap k.ptr k.size) ∧
        (∀ j1 j2 k1 v1 k2 v2, j1 < newCap → j2 < newCap →
          es2.getD j1 Entry.Vacant = Entry.Occupied k1 v1 →
          es2.getD j2 Entry.Vacant = Entry.Occupied k2 v2 →
          readString heap k1.ptr k1.size = readString heap k2.ptr k2.size →
          j1 = j2) := by
  intro rest
  induction rest with
  | nil =>
      intro done es sz hall hlen hsz hsum hnt hsub hcompl hch huq
      refine ⟨es, sz, rfl, hlen, hsz, hnt, ?_, ?_, ?_, hch, huq⟩
      · intro j k v hj hslot
        rw [hall]
        simpa using hsub j k v hj hslot
      · intro k v hmem
        exact hcompl k v (by simpa using hmem)
      · simp [Table.countOccupied]
  | cons e rest ih =>
      intro done es sz hall hlen hsz hsum hnt hsub hcompl hch huq
      cases e with
      | Vacant =>
          have hcnt : Table.countOccupied (Entry.Vacant :: rest) =
              Table.countOccupied rest := by
            simp [Table.countOccupied, List.countP_cons]
          obtain ⟨es2, sz2, hfold, h1, h2, h3, h4, h5, h6, h7, h8⟩ :=
            ih (done ++ [Entry.Vacant]) es sz (by rw [hall]; simp)
              hlen hsz (by omega) hnt
              (fun j k v hj hslot => by
                have := hsub j k v hj hslot
                simp [this])
              (fun k v hmem => hcompl k v (by
                rcases List.mem_append.mp hmem with h | h
                · exact h
                · simp at h))
              hch huq
          refine ⟨es2, sz2, by rw [List.foldl_cons]; exact hfold,
            h1, h2, h3, h4, ?_, by omega, h7, h8⟩
          intro k v hmem
          apply h5 k v
          rcases List.mem_append.mp hmem with h | h
          · simp [h]
          · rcases List.mem_cons.mp h with h8 | h8
            · cases h8
            · simp [h8]
      | TombStone =>
          have hcnt : Table.countOccupied (Entry.TombStone :: rest) =
              Table.countOccupied rest := by
            simp [Table.countOccupied, List.countP_cons]
          obtain ⟨es2, sz2, hfold, h1, h2, h3, h4, h5, h6, h7, h8⟩ :=
            ih (done ++ [Entry.TombStone]) es sz (by rw [hall]; simp)
              hlen hsz (by omega) hnt
              (fun j k v hj hslot => by
                have := hsub j k v hj hslot
                simp [this])
              (fun k v hmem => hcompl k v (by
                rcases List.mem_append.mp hmem with h | h
                · exact h
                · simp at h))
              hch huq
          refine ⟨es2, sz2, by rw [List.foldl_cons]; exact hfold,
            h1, h2, h3, h4, ?_, by omega, h7, h8⟩
          intro k v hmem
          apply h5 k v
          rcases List.mem_append.mp hmem with h | h
          · simp [h]
          · rcases List.mem_cons.mp h with h8 | h8
            · cases h8
            · simp [h8]
      | Occupied k v =>
          have hcnt : Table.countOccupied (Entry.Occupied k v :: rest) =
              Table.countOccupied rest + 1 := by
            simp [Table.countOccupied, List.countP_cons]
          have hocc1 : Table.countOccupied es < newCap := by omega
          obtain ⟨b, k0, hfb, hbeq, hk0, hblt, hfree, hpath⟩ :=
            findBucket_isSome es newCap k hlen hocc1
          have hheadAt : all.getD done.length Entry.Vacant =
              Entry.Occupied k v := by
            rw [hall]
            exact getD_append_head done _ rest Entry.Vacant
          have hheadLt : done.length < all.length := by
            rw [hall]
            simp
          have hheadMem : Entry.Occupied k v ∈ all := by
            rw [hall]
            simp
          have hdisj : ∀ k2 v2, Entry.Occupied k2 v2 ∈ done →
              readString heap k2.ptr k2.size ≠
                readString heap k.ptr k.size := by
            intro k2 v2 hmem heq
            obtain ⟨i, hi, hgd⟩ :=
              getD_of_mem done (Entry.Occupied k2 v2) Entry.Vacant hmem
            have hgd2 : all.getD i Entry.Vacant = Entry.Occupied k2 v2 := by
              rw [hall, getD_append_left done _ i Entry.Vacant hi]
              exact hgd
            have := hposuniq i done.length k2 v2 k v (by omega) hheadLt
              hgd2 hheadAt heq
            omega
          have hvac : es.getD b Entry.Vacant = Entry.Vacant := by
            revert hfree
            cases hud : es.getD b Entry.Vacant with
            | Occupied k2 v2 =>
                intro hfree
                rw [Table.isOccupied, hud] at hfree
                have hpe : (k2.ptr == k.ptr) = true := by simpa using hfree
                have heqp : k2.ptr = k.ptr := by simpa using hpe
                have hmem2 := hsub b k2 v2 (by omega) hud
                have hk2all : Entry.Occupied k2 v2 ∈ all := by
                  rw [hall]
                  exact List.mem_append.mpr (Or.inl hmem2)
                have hsz2 := (hkeysAll k2 v2 hk2all).2
                have hszk := (hkeysAll k v hheadMem).2
                have : readString heap k2.ptr k2.size =
                    readString heap k.ptr k.size := by
                  rw [readString, readString, heqp, hsz2, hszk, heqp]
                exact absurd this (hdisj k2 v2 hmem2)
            | Vacant => intro _; rfl
            | TombStone =>
                intro _
                have hmem3 : Entry.TombStone ∈ es := by
                  rw [← hud]
                  exact getD_mem es b (by omega)
                exact absurd rfl (hnt _ hmem3)
          have hself : (es.set b (Entry.Occupied k v)).getD b
              Entry.Vacant = Entry.Occupied k v :=
            getD_set_self _ _ _ _ (by omega)
          have hstep : Table.rehashStep newCap (some (es, sz))
              (Entry.Occupied k v) =
              some (es.set b (Entry.Occupied k v), sz + 1) := by
            rw [Table.rehashStep, hfb]
          have hlen2 : (es.set b (Entry.Occupied k v)).length = newCap := by
            simpa using hlen
          have hcntset : Table.countOccupied
              (es.set b (Entry.Occupied k v)) =
              Table.countOccupied es + 1 :=
            countOccupied_set_vacant es b k v (by omega)
              (by rw [hvac]; rfl)
          have hnt2 : ∀ e ∈ es.set b (Entry.Occupied k v),
              e ≠ Entry.TombStone := by
            intro e he
            rcases List.mem_or_eq_of_mem_set he with h | rfl
            · exact hnt e h
            · simp
          have hsub2 : ∀ j k2 v2, j < newCap →
              (es.set b (Entry.Occupied k v)).getD j Entry.Vacant =
                Entry.Occupied k2 v2 →
              Entry.Occupied k2 v2 ∈ done ++ [Entry.Occupied k v] := by
            intro j k2 v2 hj hslot
            rcases eq_or_ne j b with rfl | hne
            · rw [hself] at hslot
              rw [← hslot]
              simp
            · rw [getD_set_ne es b j _ _ (fun h => hne h.symm)] at hslot
              exact List.mem_append.mpr (Or.inl (hsub j k2 v2 hj hslot))
          have hcompl2 : ∀ k2 v2,
              Entry.Occupied k2 v2 ∈ done ++ [Entry.Occupied k v] →
              ∃ j, j < newCap ∧
                (es.set b (Entry.Occupied k v)).getD j Entry.Vacant =
                  Entry.Occupied k2 v2 := by
            intro k2 v2 hmem
            rcases List.mem_append.mp hmem with h | h
            · obtain ⟨j, hj, hslot⟩ := hcompl k2 v2 h
              have hne : j ≠ b := by
                intro heq
                rw [heq, hvac] at hslot
                cases hslot
              exact ⟨j, hj,
                by rw [getD_set_ne es b j _ _ (fun h2 => hne h2.symm)]
                   exact hslot⟩
            · rcases List.mem_cons.mp h with h8 | h8
              · exact ⟨b, by omega, by rw [hself, h8]⟩
              · cases h8
          have hch2 : ∀ j k2 v2, j < newCap →
              (es.set b (Entry.Occupied k v)).getD j Entry.Vacant =
                Entry.Occupied k2 v2 →
              ∀ m, m < (j + newCap - k2.hash % newCap) % newCap →
                ∃ k3 v3,
                  (es.set b (Entry.Occupied k v)).getD
                      ((k2.hash % newCap + m) % newCap) Entry.Vacant =
                    Entry.Occupied k3 v3 ∧
                  readString heap k3.ptr k3.size ≠
                    readString heap k2.ptr k2.size := by
            intro j k2 v2 hj hslot m hm
            rcases eq_or_ne j b with heq | hne
            · subst heq
              rw [hself] at hslot
              injection hslot with hk2 hv2
              subst hk2
              subst hv2
              have hdist : (j + newCap - k.hash % newCap) % newCap =
                  k0 := by
                rw [hbeq]
                exact probe_dist (Nat.mod_lt _ (by omega)) hk0
              rw [hdist] at hm
              have hiso := hpath m hm
              have hnej : (k.hash % newCap + m) % newCap ≠ j := by
                rw [hbeq]
                exact probe_inj hm hk0
              revert hiso
              cases hud : es.getD ((k.hash % newCap + m) % newCap)
                  Entry.Vacant with
              | Occupied k3 v3 =>
                  intro hiso
                  have hmem4 := hsub _ k3 v3
                    (by rw [← hlen]; exact Nat.mod_lt _ (by omega)) hud
                  refine ⟨k3, v3, ?_, ?_⟩
                  · rw [getD_set_ne es j _ _ _ (fun h2 => hnej h2.symm)]
                    exact hud
                  · exact hdisj k3 v3 hmem4
              | Vacant =>
                  intro hiso
                  rw [Table.isOccupied, hud] at hiso
                  simp at hiso
              | TombStone =>
                  intro hiso
                  rw [Table.isOccupied, hud] at hiso
                  simp at hiso
            · rw [getD_set_ne es b j _ _ (fun h2 => hne h2.symm)] at hslot
              obtain ⟨k3, v3, hslot3, hne3⟩ := hch j k2 v2 hj hslot m hm
              have hnej : (k2.hash % newCap + m) % newCap ≠ b := by
                intro heq
                rw [heq, hvac] at hslot3
                cases hslot3
              exact ⟨k3, v3,
                by rw [getD_set_ne es b _ _ _ (fun h2 => hnej h2.symm)]
                   exact hslot3, hne3⟩
          have huq2 : ∀ j1 j2 k1 v1 k2 v2, j1 < newCap → j2 < newCap →
              (es.set b (Entry.Occupied k v)).getD j1 Entry.Vacant =
                Entry.Occupied k1 v1 →
              (es.set b (Entry.Occupied k v)).getD j2 Entry.Vacant =
                Entry.Occupied k2 v2 →
              readString heap k1.ptr k1.size =
                readString heap k2.ptr k2.size →
              j1 = j2 := by
            intro j1 j2 k1 v1 k2 v2 hj1 hj2 hs1 hs2 heq
            rcases eq_or_ne j1 b with heq1 | hne1 <;>
              rcases eq_or_ne j2 b with heq2 | hne2
            · omega
            · subst heq1
              rw [hself] at hs1
              injection hs1 with hk1 hv1
              subst hk1
              rw [getD_set_ne es j1 j2 _ _ (fun h2 => hne2 h2.symm)] at hs2
              have hmem4 := hsub j2 k2 v2 hj2 hs2
              exact absurd heq.symm (hdisj k2 v2 hmem4)
            · subst heq2
              rw [hself] at hs2
              injection hs2 with hk2 hv2
              subst hk2
              rw [getD_set_ne es j2 j1 _ _ (fun h2 => hne1 h2.symm)] at hs1
              have hmem4 := hsub j1 k1 v1 hj1 hs1
              exact absurd heq (hdisj k1 v1 hmem4)
            · rw [getD_set_ne es b j1 _ _ (fun h2 => hne1 h2.symm)] at hs1
              rw [getD_set_ne es b j2 _ _ (fun h2 => hne2 h2.symm)] at hs2
              exact huq j1 j2 k1 v1 k2 v2 hj1 hj2 hs1 hs2 heq
          obtain ⟨es2, sz2, hfold, h1, h2, h3, h4, h5, h6, h7, h8⟩ :=
            ih (done ++ [Entry.Occupied k v])
              (es.set b (Entry.Occupied k v)) (sz + 1)
              (by rw [hall]; simp) hlen2 (by omega) (by omega)
              hnt2 hsub2 hcompl2 hch2 huq2
          refine ⟨es2, sz2, by rw [List.foldl_cons, hstep]; exact hfold,
            h1, h2, h3, h4, ?_, by omega, h7, h8⟩
          intro k2 v2 hmem
          apply h5 k2 v2
          rcases List.mem_append.mp hmem with h | h
          · simp [h]
          · rcases List.mem_cons.mp h with h8 | h8
            · rw [h8]
              simp
            · simp [h8]

theorem getD_replicate {α : Type} (n i : Nat) (x d : α) (h : i < n) :
    (List.replicate n x).getD i d = x := by
  rw [List.getD_eq_getElem _ d (by simpa using h)]
  simp

theorem countOccupied_replicate_vacant {T : Type} (n : Nat) :
    Table.countOccupied (List.replicate n (Entry.Vacant : Entry T)) = 0 := by
  rw [Table.countOccupied]
  apply List.countP_eq_zero.mpr
  intro e he
  rw [List.eq_of_mem_replicate he]
  simp

theorem ensureCapacity_intern (heap : Heap) (t : Table Value)
    (hinv : InternInv heap t) :
    ∃ t1 : Table Value, Table.ensureCapacity t = some t1 ∧
      InternInv heap t1 ∧
      Table.countOccupied t1.entries + 1 < t1.capacity ∧
      (∀ j k v, j < t1.capacity →
        t1.entries.getD j Entry.Vacant = Entry.Occupied k v →
        Entry.Occupied k v ∈ t.entries) ∧
      (∀ k v, Entry.Occupied k v ∈ t.entries →
        ∃ j, j < t1.capacity ∧
          t1.entries.getD j Entry.Vacant = Entry.Occupied k v) := by
  have hcap : 0 < t.capacity := by have := hinv.hocc; omega
  have hcnt_le : Table.countOccupied t.entries ≤ t.capacity := by
    rw [Table.countOccupied, ← hinv.hlen]
    exact List.countP_le_length _
  by_cases hcond : (t.size + 1) / t.capacity * 100 > t.load_factor
  · have hkeysAll : ∀ k v, Entry.Occupied k v ∈ t.entries →
        k.ptr < heap.length ∧ k.size = (heap.getD k.ptr []).length := by
      intro k v hmem
      obtain ⟨i, hi, hgd⟩ := getD_of_mem t.entries _ Entry.Vacant hmem
      have h9 := hinv.hkeys i k v (by rw [← hinv.hlen]; exact hi) hgd
      exact ⟨h9.1, h9.2.1⟩
    have hposuniq : ∀ i1 i2 k1 v1 k2 v2,
        i1 < t.entries.length → i2 < t.entries.length →
        t.entries.getD i1 Entry.Vacant = Entry.Occupied k1 v1 →
        t.entries.getD i2 Entry.Vacant = Entry.Occupied k2 v2 →
        readString heap k1.ptr k1.size = readString heap k2.ptr k2.size →
        i1 = i2 := by
      intro i1 i2 k1 v1 k2 v2 hi1 hi2 hg1 hg2 heq
      exact hinv.huniq i1 i2 k1 v1 k2 v2 (by rw [← hinv.hlen]; exact hi1)
        (by rw [← hinv.hlen]; exact hi2) hg1 hg2 heq
    obtain ⟨es2, sz2, hfold, h1, h2, h3, h4, h5, h6, h7, h8⟩ :=
      rehash_strong heap (t.capacity * 2 + 1) t.entries hkeysAll hposuniq
        t.entries []
        (List.replicate (t.capacity * 2 + 1) Entry.Vacant) 0
        (by simp) (by simp)
        (countOccupied_replicate_vacant _).symm
        (by rw [countOccupied_replicate_vacant]; omega)
        (fun e he => by rw [List.eq_of_mem_replicate he]; simp)
        (fun j k v hj hslot => by
          rw [getD_replicate _ _ _ _ hj] at hslot
          cases hslot)
        (fun k v hmem => by simp at hmem)
        (fun j k v hj hslot => by
          rw [getD_replicate _ _ _ _ hj] at hslot
          cases hslot)
        (fun j1 j2 k1 v1 k2 v2 hj1 hj2 hs1 hs2 heq => by
          rw [getD_replicate _ _ _ _ hj1] at hs1
          cases hs1)
    refine ⟨⟨es2, t.capacity * 2 + 1, sz2, t.load_factor⟩, ?_, ?_, ?_,
      ?_, ?_⟩
    · simp only [Table.ensureCapacity, if_pos hcond]
      rw [hfold]
      rfl
    · refine ⟨h1, ?_, h2, hinv.hlf, h3, ?_, h8, h7⟩
      · show Table.countOccupied es2 < t.capacity * 2 + 1
        have h10 := h6
        rw [countOccupied_replicate_vacant] at h10
        omega
      intro j k v hj hslot
      have hmem := h4 j k v hj hslot
      obtain ⟨i, hi, hgd⟩ := getD_of_mem t.entries _ Entry.Vacant hmem
      exact hinv.hkeys i k v (by rw [← hinv.hlen]; exact hi) hgd
    · show Table.countOccupied es2 + 1 < t.capacity * 2 + 1
      have h10 := h6
      rw [countOccupied_replicate_vacant] at h10
      omega
    · exact h4
    · intro k v hmem
      exact h5 k v (by simpa using hmem)
  · refine ⟨t, by rw [Table.ensureCapacity, if_neg hcond], hinv, ?_, ?_, ?_⟩
    · rw [hinv.hlf] at hcond
      have h9 := (growthCond_iff t.size t.capacity hcap).not.1 hcond
      push_neg at h9
      rw [hinv.hsize] at h9
      omega
    · intro j k v hj hslot
      rw [← hslot]
      apply getD_mem
      rw [hinv.hlen]
      exact hj
    · intro k v hmem
      obtain ⟨i, hi, hgd⟩ := getD_of_mem t.entries _ Entry.Vacant hmem
      exact ⟨i, by rw [← hinv.hlen]; exact hi, hgd⟩

theorem insert_fresh (heap : Heap) (t : Table Value) (s : List Char)
    (hinv : InternInv heap t)
    (habs : ∀ j k v, j < t.capacity →
      t.entries.getD j Entry.Vacant = Entry.Occupied k v →
      readString heap k.ptr k.size ≠ s) :
    ∃ flag t2,
      Table.insert t ⟨heap.length, s.length, fnvHash s⟩ Value.Missing =
        some (flag, t2) ∧
      InternInv (heap ++ [s]) t2 ∧
      internedAs (heap ++ [s]) t2 s ⟨heap.length, s.length, fnvHash s⟩ ∧
      (∀ s2 fp2, internedAs heap t s2 fp2 →
        internedAs (heap ++ [s]) t2 s2 fp2) := by
  obtain ⟨t1, hens, hinv1, hocc1p, hsub1, hcompl1⟩ :=
    ensureCapacity_intern heap t hinv
  have hcap1 : 0 < t1.capacity := by have := hinv1.hocc; omega
  have habs1 : ∀ j k v, j < t1.capacity →
      t1.entries.getD j Entry.Vacant = Entry.Occupied k v →
      readString heap k.ptr k.size ≠ s := by
    intro j k v hj hslot
    obtain ⟨i, hi, hgd⟩ := getD_of_mem t.entries _ Entry.Vacant
      (hsub1 j k v hj hslot)
    exact habs i k v (by rw [← hinv.hlen]; exact hi) hgd
  obtain ⟨b, k0, hfb, hbeq, hk0, hblt, hfree, hpath⟩ :=
    findBucket_isSome t1.entries t1.capacity
      ⟨heap.length, s.length, fnvHash s⟩ hinv1.hlen hinv1.hocc
  have hvac : t1.entries.getD b Entry.Vacant = Entry.Vacant := by
    revert hfree
    cases hud : t1.entries.getD b Entry.Vacant with
    | Occupied k2 v2 =>
        intro hfree
        rw [Table.isOccupied, hud] at hfree
        have hpe : (k2.ptr == heap.length) = true := by simpa using hfree
        have hlt := (hinv1.hkeys b k2 v2 hblt hud).1
        simp at hpe
        omega
    | Vacant => intro _; rfl
    | TombStone =>
        intro _
        have hmem3 : Entry.TombStone ∈ t1.entries := by
          rw [← hud]
          exact getD_mem t1.entries b (by rw [hinv1.hlen]; omega)
        exact absurd rfl (hinv1.hnotomb _ hmem3)
  have hins := insert_eq t ⟨heap.length, s.length, fnvHash s⟩
    Value.Missing t1 hens b hfb
  have hblen : b < t1.entries.length := by rw [hinv1.hlen]; omega
  have hself : (t1.entries.set b
      (Entry.Occupied ⟨heap.length, s.length, fnvHash s⟩
        Value.Missing)).getD b Entry.Vacant =
      Entry.Occupied ⟨heap.length, s.length, fnvHash s⟩ Value.Missing :=
    getD_set_self _ _ _ _ hblen
  have hcnt2 : Table.countOccupied (t1.entries.set b
      (Entry.Occupied ⟨heap.length, s.length, fnvHash s⟩ Value.Missing)) =
      Table.countOccupied t1.entries + 1 :=
    countOccupied_set_vacant t1.entries b _ _ hblen (by rw [hvac]; rfl)
  have hnewcontent : readString (heap ++ [s]) heap.length s.length = s := by
    rw [readString, getD_append_len]
    exact List.take_length s
  have hliftc : ∀ k : FatPointer, k.ptr < heap.length →
      readString (heap ++ [s]) k.ptr k.size = readString heap k.ptr k.size :=
    fun k hk => readString_append_lt heap s k.ptr k.size hk
  refine ⟨_, _, hins, ?_, ?_, ?_⟩
  · refine ⟨by simpa using hinv1.hlen, ?_, ?_, hinv1.hlf, ?_, ?_, ?_, ?_⟩
    · show Table.countOccupied _ < t1.capacity
      rw [hcnt2]
      omega
    · show t1.size + 1 = _
      rw [hcnt2, hinv1.hsize]
    · intro e he
      rcases List.mem_or_eq_of_mem_set he with h | rfl
      · exact hinv1.hnotomb e h
      · simp
    · intro j k v hj hslot
      rcases eq_or_ne j b with heq | hne
      · subst heq
        rw [hself] at hslot
        injection hslot with hk hv
        subst hk
        refine ⟨by simp, ?_, ?_⟩
        · simp [getD_append_len]
        · rw [hnewcontent]
      · rw [getD_set_ne t1.entries b j _ _ (fun h2 => hne h2.symm)]
          at hslot
        obtain ⟨hp, hsz, hh⟩ := hinv1.hkeys j k v hj hslot
        refine ⟨by simp; omega, ?_, ?_⟩
        · rw [getD_append_lt heap s k.ptr hp]
          exact hsz
        · rw [hliftc k hp]
          exact hh
    · intro j1 j2 k1 v1 k2 v2 hj1 hj2 hs1 hs2 heq
      rcases eq_or_ne j1 b with heq1 | hne1 <;>
        rcases eq_or_ne j2 b with heq2 | hne2
      · omega
      · subst heq1
        rw [hself] at hs1
        injection hs1 with hk1 hv1
        subst hk1
        rw [getD_set_ne t1.entries j1 j2 _ _ (fun h2 => hne2 h2.symm)]
          at hs2
        have hp2 := (hinv1.hkeys j2 k2 v2 hj2 hs2).1
        rw [hnewcontent, hliftc k2 hp2] at heq
        exact absurd heq.symm (habs1 j2 k2 v2 hj2 hs2)
      · subst heq2
        rw [hself] at hs2
        injection hs2 with hk2 hv2
        subst hk2
        rw [getD_set_ne t1.entries j2 j1 _ _ (fun h2 => hne1 h2.symm)]
          at hs1
        have hp1 := (hinv1.hkeys j1 k1 v1 hj1 hs1).1
        rw [hnewcontent, hliftc k1 hp1] at heq
        exact absurd heq (habs1 j1 k1 v1 hj1 hs1)
      · rw [getD_set_ne t1.entries b j1 _ _ (fun h2 => hne1 h2.symm)]
          at hs1
        rw [getD_set_ne t1.entries b j2 _ _ (fun h2 => hne2 h2.symm)]
          at hs2
        have hp1 := (hinv1.hkeys j1 k1 v1 hj1 hs1).1
        have hp2 := (hinv1.hkeys j2 k2 v2 hj2 hs2).1
        rw [hliftc k1 hp1, hliftc k2 hp2] at heq
        exact hinv1.huniq j1 j2 k1 v1 k2 v2 hj1 hj2 hs1 hs2 heq
    · intro j k v hj hslot m hm
      rcases eq_or_ne j b with heq | hne
      · subst heq
        rw [hself] at hslot
        injection hslot with hk hv
        subst hk
        have hdist : (j + t1.capacity -
            (⟨heap.length, s.length, fnvHash s⟩ : FatPointer).hash %
              t1.capacity) % t1.capacity = k0 := by
          rw [hbeq]
          exact probe_dist (Nat.mod_lt _ hcap1) hk0
        rw [hdist] at hm
        have hiso := hpath m hm
        have hnej : ((⟨heap.length, s.length, fnvHash s⟩ :
            FatPointer).hash % t1.capacity + m) % t1.capacity ≠ j := by
          rw [hbeq]
          exact probe_inj hm hk0
        revert hiso
        cases hud : t1.entries.getD
            (((⟨heap.length, s.length, fnvHash s⟩ : FatPointer).hash %
              t1.capacity + m) % t1.capacity) Entry.Vacant with
        | Occupied k3 v3 =>
            intro hiso
            have hj3 : ((⟨heap.length, s.length, fnvHash s⟩ :
                FatPointer).hash % t1.capacity + m) % t1.capacity <
                t1.capacity := Nat.mod_lt _ hcap1
            have hp3 := (hinv1.hkeys _ k3 v3 hj3 hud).1
            refine ⟨k3, v3, ?_, ?_⟩
            · rw [getD_set_ne t1.entries j _ _ _
                (fun h2 => hnej h2.symm)]
              exact hud
            · rw [hliftc k3 hp3, hnewcontent]
              exact habs1 _ k3 v3 hj3 hud
        | Vacant =>
            intro hiso
            rw [Table.isOccupied, hud] at hiso
            simp at hiso
        | TombStone =>
            intro hiso
            rw [Table.isOccupied, hud] at hiso
            simp at hiso
      · rw [getD_set_ne t1.entries b j _ _ (fun h2 => hne h2.symm)]
          at hslot
        obtain ⟨k3, v3, hslot3, hne3⟩ :=
          hinv1.hchain j k v hj hslot m hm
        have hnej : (k.hash % t1.capacity + m) % t1.capacity ≠ b := by
          intro heqb
          rw [heqb, hvac] at hslot3
          cases hslot3
        have hj3 : (k.hash % t1.capacity + m) % t1.capacity <
            t1.capacity := Nat.mod_lt _ hcap1
        have hp3 := (hinv1.hkeys _ k3 v3 hj3 hslot3).1
        have hpk := (hinv1.hkeys j k v hj hslot).1
        refine ⟨k3, v3, ?_, ?_⟩
        · rw [getD_set_ne t1.entries b _ _ _ (fun h2 => hnej h2.symm)]
          exact hslot3
        · rw [hliftc k3 hp3, hliftc k hpk]
          exact hne3
  · exact ⟨b, Value.Missing, hblt, hself, hnewcontent⟩
  · intro s2 fp2 hint
    obtain ⟨j, v2, hj, hslot, hcont⟩ := hint
    have hp2 : fp2.ptr < heap.length :=
      (hinv.hkeys j fp2 v2 hj hslot).1
    obtain ⟨j1, hj1, hslot1⟩ := hcompl1 fp2 v2 (by
      rw [← hslot]
      exact getD_mem t.entries j (by rw [hinv.hlen]; exact hj))
    have hne1 : j1 ≠ b := by
      intro heqb
      rw [heqb, hvac] at hslot1
      cases hslot1
    refine ⟨j1, v2, hj1, ?_, ?_⟩
    · rw [getD_set_ne t1.entries b j1 _ _ (fun h2 => hne1 h2.symm)]
      exact hslot1
    · rw [hliftc fp2 hp2]
      exact hcont

theorem internOp_spec (heap : Heap) (t : Table Value) (s : List Char)
    (hinv : InternInv heap t) :
    ∃ fp heap2 t2, internOp heap t s = some (fp, heap2, t2) ∧
      InternInv heap2 t2 ∧
      (∀ p n, p < heap.length →
        readString heap2 p n = readString heap p n) ∧
      heap.length ≤ heap2.length ∧
      fp.ptr < heap2.length ∧
      internedAs heap2 t2 s fp ∧
      (∀ s2 fp2, internedAs heap t s2 fp2 →
        internedAs heap2 t2 s2 fp2) := by
  by_cases hpres : ∃ fp0 : FatPointer, internedAs heap t s fp0
  · obtain ⟨fp0, j, v, hj, hslot, hcont⟩ := hpres
    have hkf := hinv.hkeys j fp0 v hj hslot
    have hhome : fp0.hash % t.capacity = fnvHash s % t.capacity := by
      rw [hkf.2.2, hcont]
    have hchainloc : ∀ m,
        m < (j + t.capacity - fp0.hash % t.capacity) % t.capacity →
        ∃ k2 v2,
          t.entries.getD ((fp0.hash % t.capacity + m) % t.capacity)
            Entry.Vacant = Entry.Occupied k2 v2 ∧
          readString heap k2.ptr k2.size ≠ s := by
      intro m hm
      obtain ⟨k2, v2, hs2, hne2⟩ := hinv.hchain j fp0 v hj hslot m hm
      exact ⟨k2, v2, hs2, by rw [← hcont]; exact hne2⟩
    have hfind := findWithValue_found heap t s j fp0 v hinv.hlen hj hslot
      hcont hhome hchainloc
    refine ⟨fp0, heap, t, ?_, hinv, fun p n hp => rfl, Nat.le_refl _,
      hkf.1, ⟨j, v, hj, hslot, hcont⟩, fun s2 fp2 h => h⟩
    rw [internOp, hfind]
  · have habs : ∀ j k v, j < t.capacity →
        t.entries.getD j Entry.Vacant = Entry.Occupied k v →
        readString heap k.ptr k.size ≠ s := by
      intro j k v hj hslot heq
      exact hpres ⟨k, j, v, hj, hslot, heq⟩
    have hfind := findWithValue_absent heap t s (fnvHash s) hinv.hlen
      hinv.hocc hinv.hnotomb habs
    obtain ⟨flag, t2, hins, hinv2, hintern2, hpres2⟩ :=
      insert_fresh heap t s hinv habs
    refine ⟨⟨heap.length, s.length, fnvHash s⟩, heap ++ [s], t2, ?_,
      hinv2, (fun p n hp => readString_append_lt heap s p n hp),
      by simp, by simp, hintern2, hpres2⟩
    rw [internOp, hfind]
    simp only [heapAlloc]
    rw [hins]

theorem internFold_spec :
    ∀ (contents : List (List Char)) (heap : Heap) (t : Table Value),
      InternInv heap t →
      ∃ heap2 t2 fps,
        internFold heap t contents = some (heap2, t2, fps) ∧
        InternInv heap2 t2 ∧
        fps.length = contents.length ∧
        (∀ s2 fp2, internedAs heap t s2 fp2 →
          internedAs heap2 t2 s2 fp2) ∧
        (∀ i, i < contents.length →
          internedAs heap2 t2 (contents.getD i [])
            (fps.getD i fpDefault)) := by
  intro contents
  induction contents with
  | nil =>
      intro heap t hinv
      exact ⟨heap, t, [], rfl, hinv, rfl, fun _ _ h => h,
        fun i hi => absurd hi (by simp)⟩
  | cons s rest ih =>
      intro heap t hinv
      obtain ⟨fp, heap1, t1, hop, hinv1, hread1, hle1, hfp1, hint1,
        hpres1⟩ := internOp_spec heap t s hinv
      obtain ⟨heap2, t2, fps, hfold, hinv2, hlenf, hpres2, hall2⟩ :=
        ih heap1 t1 hinv1
      refine ⟨heap2, t2, fp :: fps, ?_, hinv2, by simp [hlenf],
        fun s2 fp2 h => hpres2 s2 fp2 (hpres1 s2 fp2 h), ?_⟩
      · rw [internFold]
        simp only [hop, hfold]
      · intro i hi
        cases i with
        | zero => simpa using hpres2 s fp hint1
        | succ i =>
            have h9 := hall2 i (by simpa using hi)
            simpa using h9

theorem internInv_init : InternInv ([] : Heap) (Table.init 10 : Table Value) := by
  refine ⟨by simp [Table.init], ?_, ?_, rfl, ?_, ?_, ?_, ?_⟩
  · show Table.countOccupied (List.replicate 10 Entry.Vacant) < 10
    rw [countOccupied_replicate_vacant]
    omega
  · show 0 = Table.countOccupied (List.replicate 10 Entry.Vacant)
    rw [countOccupied_replicate_vacant]
  · intro e he
    simp only [Table.init] at he
    rw [List.eq_of_mem_replicate he]
    simp
  · intro j k v hj hslot
    simp only [Table.init] at hj hslot
    rw [getD_replicate _ _ _ _ hj] at hslot
    cases hslot
  · intro j1 j2 k1 v1 k2 v2 hj1 hj2 hs1 hs2 heq
    simp only [Table.init] at hj1 hs1
    rw [getD_replicate _ _ _ _ hj1] at hs1
    cases hs1
  · intro j k v hj hslot
    simp only [Table.init] at hj hslot
    rw [getD_replicate _ _ _ _ hj] at hslot
    cases hslot

theorem fatPtrEq_self (a : FatPointer) : fatPtrEq a a = true := by
  simp [fatPtrEq]

/-- Claim C9: confirmed at the intern-subsystem boundary.  For every
sequence of string-literal payloads a compiled program interns (the
compiler's only intern-table writes are in `create_new_string`, its only
lookups in `get_existing_string`, both inside `string()` — `internOp` is
exactly that heap/table effect, cf. `stringFn`), the fold from the
compiler's initial state (`Table.init 10`, empty heap) succeeds, each
returned fat pointer reads back as its literal's bytes, two equal literals
anywhere in the sequence yield fat pointers that are value-equal as runtime
string objects under common.rs `PartialEq` (`objEq`), and the final intern
table holds at most one entry per distinct byte sequence. -/
theorem claim_C9_interning (contents : List (List Char)) :
    ∃ heap2 t2 fps,
      internFold [] (Table.init 10) contents = some (heap2, t2, fps) ∧
      fps.length = contents.length ∧
      (∀ i, i < contents.length →
        readString heap2 (fps.getD i fpDefault).ptr
          (fps.getD i fpDefault).size = contents.getD i []) ∧
      (∀ i1 i2, i1 < contents.length → i2 < contents.length →
        contents.getD i1 [] = contents.getD i2 [] →
        objEq (Obj.Str (fps.getD i1 fpDefault))
          (Obj.Str (fps.getD i2 fpDefault)) = true) ∧
      (∀ j1 j2 k1 v1 k2 v2, j1 < t2.capacity → j2 < t2.capacity →
        t2.entries.getD j1 Entry.Vacant = Entry.Occupied k1 v1 →
        t2.entries.getD j2 Entry.Vacant = Entry.Occupied k2 v2 →
        readString heap2 k1.ptr k1.size = readString heap2 k2.ptr k2.size →
        j1 = j2) := by
  obtain ⟨heap2, t2, fps, hfold, hinv2, hlenf, hpres, hall⟩ :=
    internFold_spec contents [] (Table.init 10) internInv_init
  refine ⟨heap2, t2, fps, hfold, hlenf, ?_, ?_, hinv2.huniq⟩
  · intro i hi
    obtain ⟨j, v, hj, hslot, hcont⟩ := hall i hi
    exact hcont
  · intro i1 i2 hi1 hi2 heq
    have h1 := hall i1 hi1
    have h2 := hall i2 hi2
    rw [heq] at h1
    have h3 := internedAs_unique hinv2 h1 h2
    rw [h3]
    show fatPtrEq _ _ = true
    exact fatPtrEq_self _

/-- Witness for C9 at the program of the spec's example, whose literal
sequence is `"hi", "hi"`. -/
theorem claim_C9_witness :
    ∃ heap2 t2 fps,
      internFold [] (Table.init 10) [['h', 'i'], ['h', 'i']] =
        some (heap2, t2, fps) ∧
      fps.length = ([['h', 'i'], ['h', 'i']] : List (List Char)).length ∧
      (∀ i, i < ([['h', 'i'], ['h', 'i']] : List (List Char)).length →
        readString heap2 (fps.getD i fpDefault).ptr
          (fps.getD i fpDefault).size =
          ([['h', 'i'], ['h', 'i']] : List (List Char)).getD i []) ∧
      (∀ i1 i2,
        i1 < ([['h', 'i'], ['h', 'i']] : List (List Char)).length →
        i2 < ([['h', 'i'], ['h', 'i']] : List (List Char)).length →
        ([['h', 'i'], ['h', 'i']] : List (List Char)).getD i1 [] =
          ([['h', 'i'], ['h', 'i']] : List (List Char)).getD i2 [] →
        objEq (Obj.Str (fps.getD i1 fpDefault))
          (Obj.Str (fps.getD i2 fpDefault)) = true) ∧
      (∀ j1 j2 k1 v1 k2 v2, j1 < t2.capacity → j2 < t2.capacity →
        t2.entries.getD j1 Entry.Vacant = Entry.Occupied k1 v1 →
        t2.entries.getD j2 Entry.Vacant = Entry.Occupied k2 v2 →
        readString heap2 k1.ptr k1.size = readString heap2 k2.ptr k2.size →
        j1 = j2) :=
  claim_C9_interning [['h', 'i'], ['h', 'i']]

end RLox
